import Mathlib

/-!
FAC `faclib/mpiutil.c`: the broadcast-replicated buffered reader, the
sequential guard and the round-robin work counter.

A shallow embedding of the `BFILE` layer, of `MPISeqBeg`/`MPISeqEnd` and of
`SkipMPI` of `src/faclib/mpiutil.c` (the `USE_MPI == 1` build) and proofs
about it.

Modelling conventions.

* A byte is a natural number; the line terminator `'\n'` is `10`.
* A `FILE` is the content of the underlying file plus the stream position.
* Every process runs the same C code.  One process is modelled by one Lean
  function per C function; the process is the origin exactly when `mr = 0`.
  The collective `MPI_Bcast` is modelled through a wire (a list of messages):
  the root appends what it sends, any other rank takes the next message off
  the wire it is given.  A group call runs the origin on the empty wire and
  then every other member on the messages the origin has sent.
* The `int` fields `p`, `n`, `nbuf` of a handle are natural numbers.  The two
  subtractions of the code on them (`n - p`, `p -= size`) are shown not to
  underflow on the states the theorems speak about.  Counts are unbounded:
  the development covers runs whose counts fit the C types.
* `while (nmemb)` is modelled with fuel; the theorems show which fuel is enough.
* `free` on a pointer that was never assigned is the fault `badfree`.
* The sequential guard is modelled by the message each call posts; the
  interleavings of a group are runs of a step relation in which a sent message
  is in flight until it is received and the barrier opens once every member
  has entered it.

The file has four parts: the model of the C functions, the vocabulary of the
specification (invariants, groups, reachable states), lemmas, and the claims.
-/

namespace Fac

/-- One byte of file or buffer content. -/
abbrev Byte := Nat

/-- The line terminator `'\n'`. -/
def NL : Byte := 10

/-- The C library stream: file content and current position. -/
structure FILE where
  data : List Byte
  pos : Nat
deriving DecidableEq, Repr

/-- What one `MPI_Bcast` call carries: an `MPI_INT` or a run of `MPI_BYTE`. -/
inductive Msg where
  | int (v : Int)
  | bytes (bs : List Byte)
deriving DecidableEq, Repr

/-- Ways in which a call does not return. -/
inductive Fault where
  /-- `Abort(r)`: the whole group is terminated. -/
  | abort (r : Nat)
  /-- integer division by zero (`nb/size` with `size == 0`) -/
  | divzero
  /-- a C library call on a null `FILE *` -/
  | nullfile
  /-- a collective call that does not match what the root sent -/
  | desync
  /-- the loop model ran out of fuel -/
  | fuel
  /-- the call `free` on a pointer that was never assigned -/
  | badfree
deriving DecidableEq, Repr

/-- The handle `BFILE` (declared in `mpiutil.h`): the fields the functions of
`mpiutil.c` use.  `buf = NULL` is the empty storage, `f = NULL` is `none`.  The
name stored in `fn` serves diagnostics only; the field records whether
`BFileOpen` has assigned `fn` its storage (line 230) or left it as `malloc`
returned the handle. -/
structure BFILE where
  f : Option FILE
  buf : List Byte
  p : Nat
  n : Nat
  nbuf : Nat
  nr : Nat
  mr : Nat
  eof : Bool
  fn : Bool
deriving DecidableEq, Repr

/-- The bytes `xs[off .. off+len)`: the source of a `memcpy(_, xs+off, len)`. -/
def slice (xs : List Byte) (off len : Nat) : List Byte :=
  (xs.drop off).take len

/-- Storage `xs` after `src` was written at offset `off`. -/
def blit (xs : List Byte) (off : Nat) (src : List Byte) : List Byte :=
  xs.take off ++ src ++ xs.drop (off + src.length)

/-- C library `fread(_, 1, nn, f)`: the bytes read and the advanced stream. -/
def fread1 (nn : Nat) (f : FILE) : List Byte × FILE :=
  let bs := (f.data.drop f.pos).take nn
  (bs, { f with pos := f.pos + bs.length })

/-- C library `fread(ptr, size, nmemb, f)`: the number of whole elements read,
the bytes stored, and the stream advanced by the bytes read. -/
def fread (size nmemb : Nat) (f : FILE) : Nat × List Byte × FILE :=
  if size = 0 ∨ nmemb = 0 then (0, [], f)
  else
    let r := fread1 (size * nmemb) f
    (r.1.length / size, r.1, r.2)

/-- The longest prefix of `xs` of at most `k` bytes that ends at, and
includes, the first line terminator if there is one within the bound. -/
def lineOf : Nat → List Byte → List Byte
  | 0, _ => []
  | _ + 1, [] => []
  | k + 1, b :: bs => if b = NL then [b] else b :: lineOf k bs

/-- C library `fgets(s, size1, f)`: `none` is the null result. -/
def fgets (size1 : Int) (f : FILE) : Option (List Byte) × FILE :=
  if size1 ≤ 0 then (none, f)
  else if size1 = 1 then (some [], f)
  else
    let line := lineOf (size1 - 1).toNat (f.data.drop f.pos)
    if line = [] then (none, f)
    else (some line, { f with pos := f.pos + line.length })

/-- C library `rewind(f)`. -/
def rewind (f : FILE) : FILE := { f with pos := 0 }

/-- The call `MPI_Bcast(_, _, _, 0, MPI_COMM_WORLD)` as seen by the process of
rank `mr`: the root sends `own`, every other rank receives the next message. -/
def MPI_Bcast (mr : Nat) (own : Msg) (wire : List Msg) : Except Fault (Msg × List Msg) :=
  if mr = 0 then .ok (own, wire ++ [own])
  else
    match wire with
    | [] => .error .desync
    | m :: rest => .ok (m, rest)

/-- Conversion of an `int` argument to the 64 bit `size_t`: a negative value
wraps around. -/
def toSizeT (x : Int) : Nat := if 0 ≤ x then x.toNat else (x + 2 ^ 64).toNat

/-- The local variables of `BFileRead` that live across loop passes; `ptr`
is what has been stored in the destination so far. -/
structure Locals where
  ptr : List Byte
  nmemb : Nat
  nb : Nat
  n : Nat
  nread : Nat
deriving DecidableEq, Repr

/-- Lines 277-285 of `BFileRead`: the branch `else if (n > 0)`. -/
def copyAvail (size : Nat) (L : Locals) (bf : BFILE) : Locals × BFILE :=
  if L.n > 0 then
    let nm := size * L.n
    ({ L with ptr := L.ptr ++ slice bf.buf bf.p nm, nb := L.nb - nm,
              nread := L.nread + L.n, nmemb := L.nmemb - L.n },
     { bf with p := bf.p + nm })
  else (L, bf)

/-- Lines 287-291: unconsumed bytes are moved to the start of the buffer. -/
def shiftBuf (nb : Nat) (bf : BFILE) : BFILE :=
  let bf1 := if nb > 0 then { bf with buf := blit bf.buf 0 (slice bf.buf bf.p nb) } else bf
  { bf1 with p := 0, n := nb }

/-- Lines 292-299: the origin tops the buffer up from the real file. -/
def originFill (bf : BFILE) : Except Fault BFILE :=
  if bf.mr = 0 then
    match bf.f with
    | none => .error .nullfile
    | some f =>
      let nn := bf.nbuf - bf.n
      let r := fread1 nn f
      .ok { bf with buf := blit bf.buf bf.n r.1, f := some r.2,
                    eof := if r.1.length < nn then true else bf.eof,
                    n := bf.n + r.1.length }
  else .ok bf

/-- Line 300: `MPI_Bcast(&bf->n, 1, MPI_INT, 0, MPI_COMM_WORLD)`. -/
def bcastN (bf : BFILE) (wire : List Msg) : Except Fault (BFILE × List Msg) :=
  match MPI_Bcast bf.mr (.int bf.n) wire with
  | .error e => .error e
  | .ok (.bytes _, _) => .error .desync
  | .ok (.int v, w) => .ok ({ bf with n := v.toNat }, w)

/-- Lines 301-303: `MPI_Bcast(bf->buf+nb, bf->n-nb, MPI_BYTE, 0, ...)` when
`bf->n > nb`.  Afterwards `buf[nb..n)` holds what the root sent; for the root
these are its own bytes. -/
def bcastBuf (nb : Nat) (bf : BFILE) (wire : List Msg) : Except Fault (BFILE × List Msg) :=
  if bf.n > nb then
    match MPI_Bcast bf.mr (.bytes (slice bf.buf nb (bf.n - nb))) wire with
    | .error e => .error e
    | .ok (.int _, _) => .error .desync
    | .ok (.bytes bs, w) =>
      if bs.length = bf.n - nb then .ok ({ bf with buf := blit bf.buf nb bs }, w)
      else .error .desync
  else .ok (bf, wire)

/-- Line 304: `MPI_Bcast(&bf->eof, 1, MPI_INT, 0, MPI_COMM_WORLD)`. -/
def bcastEof (bf : BFILE) (wire : List Msg) : Except Fault (BFILE × List Msg) :=
  match MPI_Bcast bf.mr (.int (if bf.eof then 1 else 0)) wire with
  | .error e => .error e
  | .ok (.bytes _, _) => .error .desync
  | .ok (.int v, w) => .ok ({ bf with eof := decide (v ≠ 0) }, w)

/-- Lines 287-304: one refill. -/
def refill (nb : Nat) (bf : BFILE) (wire : List Msg) : Except Fault (BFILE × List Msg) :=
  match originFill (shiftBuf nb bf) with
  | .error e => .error e
  | .ok bf1 =>
    match bcastN bf1 wire with
    | .error e => .error e
    | .ok (bf2, w2) =>
      match bcastBuf nb bf2 w2 with
      | .error e => .error e
      | .ok (bf3, w3) => bcastEof bf3 w3

/-- Lines 270-308: the loop `while (nmemb)` of `BFileRead`.  The result is the
returned count, the bytes stored in the destination, the handle and the wire. -/
def BFileReadLoop : Nat → Nat → Locals → BFILE → List Msg →
    Except Fault (Nat × List Byte × BFILE × List Msg)
  | 0, _, _, _, _ => .error .fuel
  | fuel + 1, size, L, bf, wire =>
    if L.nmemb = 0 then .ok (L.nread, L.ptr, bf, wire)
    else if L.n ≥ L.nmemb then
      let nr := size * L.nmemb
      .ok (L.nread + L.nmemb, L.ptr ++ slice bf.buf bf.p nr, { bf with p := bf.p + nr }, wire)
    else
      let s1 := copyAvail size L bf
      if s1.2.eof then .ok (s1.1.nread, s1.1.ptr, s1.2, wire)
      else
        match refill s1.1.nb s1.2 wire with
        | .error e => .error e
        | .ok (bf2, w2) =>
          let nb := bf2.n - bf2.p
          BFileReadLoop fuel size { s1.1 with nb := nb, n := nb / size } bf2 w2

/-- The function `BFileRead(ptr, size, nmemb, bf)` of one process. -/
def BFileRead (fuel : Nat) (size nmemb : Nat) (bf : BFILE) (wire : List Msg) :
    Except Fault (Nat × List Byte × BFILE × List Msg) :=
  if bf.nr ≤ 1 then
    match bf.f with
    | none => .error .nullfile
    | some f =>
      let r := fread size nmemb f
      .ok (r.1, r.2.1, { bf with f := some r.2.2 }, wire)
  else if size > bf.nbuf then .error (.abort 1)
  else if size = 0 then .error .divzero
  else
    let nb := bf.n - bf.p
    BFileReadLoop fuel size { ptr := [], nmemb := nmemb, nb := nb, n := nb / size, nread := 0 } bf wire

/-- Lines 331-337 of `BFileGetLine`: the final `i` of the scan of `s[0..size)`. -/
def scanLine : List Byte → Nat
  | [] => 0
  | b :: bs => if b = NL then 1 else 1 + scanLine bs

/-- Lines 330-343 of `BFileGetLine`: scan `s[0..size)`, advance the cursor,
reset the drained buffer, terminate the string. -/
def finishLine (s : List Byte) (size : Nat) (bf : BFILE) : List Byte × BFILE :=
  let i := scanLine (s.take size)
  let bf1 := { bf with p := bf.p + i }
  let bf2 := if bf1.p = bf1.nbuf then { bf1 with p := 0, n := 0 } else bf1
  (s.take i, bf2)

/-- The function `BFileGetLine(s, size1, bf)` of one process; `none` is the
null result. -/
def BFileGetLine (fuel : Nat) (size1 : Int) (bf : BFILE) (wire : List Msg) :
    Except Fault (Option (List Byte) × BFILE × List Msg) :=
  if bf.nr ≤ 1 then
    match bf.f with
    | none => .error .nullfile
    | some f =>
      let r := fgets size1 f
      .ok (r.1, { bf with f := some r.2 }, wire)
  else
    let size : Int := size1 - 1
    match BFileRead fuel (toSizeT size) 1 bf wire with
    | .error e => .error e
    | .ok (n, s, bf1, w1) =>
      if n = 1 then
        let r := finishLine s size.toNat { bf1 with p := bf1.p - size.toNat }
        .ok (some r.1, r.2, w1)
      else
        let sz := bf1.n - bf1.p
        if sz = 0 then .ok (none, bf1, w1)
        else
          let r := finishLine (slice bf1.buf bf1.p sz) sz bf1
          .ok (some r.1, r.2, w1)

/-- The function `BFileRewind(bf)` of one process. -/
def BFileRewind (bf : BFILE) : Except Fault BFILE :=
  if bf.nr ≤ 1 then
    match bf.f with
    | none => .error .nullfile
    | some f => .ok { bf with f := some (rewind f) }
  else
    let bf1 := { bf with p := 0, n := 0, eof := false }
    if bf1.mr = 0 then
      match bf1.f with
      | none => .error .nullfile
      | some f => .ok { bf1 with f := some (rewind f) }
    else .ok bf1

/-- The storage `malloc(nbuf)` returns: `nbuf` bytes of arbitrary content. -/
def malloc (heap : Nat → Byte) (nbuf : Nat) : List Byte :=
  (List.range nbuf).map heap

/-- The function `BFileOpen(fn, md, nb)` of the process of rank `rank` in a
world of `nproc` processes (what `MPIRank` reports).  `fs` is what `fopen(fn,
md)` finds (`none`: the file cannot be opened), `RBUFL` the default capacity
of `mpiutil.h`.  `none` is the null handle.  The path for capacity 0 returns
at line 198, before line 230 assigns `fn`. -/
def BFileOpen (fs : Option (List Byte)) (nb : Int) (RBUFL : Nat) (rank nproc : Nat)
    (heap : Nat → Byte) (wire : List Msg) : Except Fault (Option BFILE × List Msg) :=
  let nbuf := if nb ≥ 0 then nb.toNat else RBUFL
  if nbuf = 0 then
    match fs with
    | none => .ok (none, wire)
    | some d =>
      .ok (some { f := some ⟨d, 0⟩, buf := [], p := 0, n := 0, nbuf := 0, nr := 1, mr := 0,
                  eof := false, fn := false }, wire)
  else
    let f : Option FILE := if rank = 0 then fs.map (fun d => ⟨d, 0⟩) else none
    let p0 : Int := if rank = 0 ∧ f = none then -1 else 0
    let sync : Except Fault (Int × List Msg) :=
      if nproc > 1 then
        match MPI_Bcast rank (.int p0) wire with
        | .error e => .error e
        | .ok (.bytes _, _) => .error .desync
        | .ok (.int v, w) => .ok (v, w)
      else .ok (p0, wire)
    match sync with
    | .error e => .error e
    | .ok (p, w) =>
      if p < 0 then .ok (none, w)
      else
        .ok (some { f := f, buf := if nproc > 1 then malloc heap nbuf else [],
                    p := p.toNat, n := 0, nbuf := nbuf, nr := nproc, mr := rank,
                    eof := false, fn := true }, w)

/-- The function `BFileClose(bf)` of one process; `none` is the null handle and
`rc` what the C library `fclose` returns for the stream.  `free(bf->buf)` is
harmless (the buffer is allocated or null); `free(bf->fn)` needs `fn` to have
been assigned. -/
def BFileClose (rc : Int) (bf : Option BFILE) : Except Fault Int :=
  match bf with
  | none => .ok 0
  | some bf =>
    let closed : Except Fault Int :=
      if bf.nr ≤ 1 then
        match bf.f with
        | none => .error .nullfile
        | some _ => .ok rc
      else if bf.mr = 0 then
        match bf.f with
        | none => .error .nullfile
        | some _ => .ok rc
      else .ok 0
    match closed with
    | .error e => .error e
    | .ok r => if bf.fn then .ok r else .error .badfree

/-- The function `SkipMPI(wid, myrank, nproc)` (with `USE_MPI` defined): the
returned value and the new value of `*wid`. -/
def SkipMPI (wid myrank nproc : Int) : Int × Int :=
  if nproc > 1 then
    let r : Int := if wid ≠ myrank then 1 else 0
    let wid1 := wid + 1
    (r, if wid1 ≥ nproc then 0 else wid1)
  else (0, wid)

/-- The receive `MPI_Recv(&k, 1, MPI_INT, source, tag, MPI_COMM_WORLD, &s)`. -/
structure RecvReq where
  source : Int
  tag : Int
deriving DecidableEq, Repr

/-- The message of `MPI_Send(&val, 1, MPI_INT, dest, tag, MPI_COMM_WORLD)`
issued by rank `src`. -/
structure P2P where
  src : Int
  dest : Int
  tag : Int
  val : Int
deriving DecidableEq, Repr

/-- The function `MPISeqBeg()` on rank `myrank` up to its receive: the receive
it posts, if any.  `ready` is what `MPIReady()` reports. -/
def MPISeqBeg (ready : Bool) (myrank : Int) : Option RecvReq :=
  if ready then
    if myrank > 0 then some ⟨myrank - 1, myrank - 1⟩ else none
  else none

/-- Lines 52-54 of `MPISeqBeg`: whether "Error in MPISeqBeg" is printed after
the value `k` was received. -/
def MPISeqBegError (myrank k : Int) : Bool :=
  decide (k ≠ myrank - 1)

/-- The function `MPISeqEnd()` on rank `myrank` of `nproc` up to its barrier:
the message it sends, if any. -/
def MPISeqEnd (ready : Bool) (myrank nproc : Int) : Option P2P :=
  if ready then
    if myrank < nproc - 1 then some ⟨myrank, myrank + 1, myrank, myrank⟩ else none
  else none

/-- Whether `MPISeqEnd()` enters `MPI_Barrier` (line 70). -/
def MPISeqEndBarrier (ready : Bool) : Bool := ready


/-! ## Specification vocabulary -/

/-- What the origin sends during one refill that starts with `nb` unconsumed
bytes and leaves the handle `bf2`. -/
def refillMsgs (nb : Nat) (bf2 : BFILE) : List Msg :=
  [Msg.int bf2.n] ++ (if bf2.n > nb then [Msg.bytes (slice bf2.buf nb (bf2.n - nb))] else [])
    ++ [Msg.int (if bf2.eof then 1 else 0)]

/-- The handle `bf` is an origin handle of a buffered group over the file
content `data` whose logical read position (file bytes handed out so far) is
`lp`. -/
structure Rep (data : List Byte) (lp : Nat) (bf : BFILE) : Prop where
  nr : 1 < bf.nr
  mr : bf.mr = 0
  pn : bf.p ≤ bf.n
  nn : bf.n ≤ bf.nbuf
  len : bf.buf.length = bf.nbuf
  file : bf.f = some ⟨data, lp + (bf.n - bf.p)⟩
  pos : lp + (bf.n - bf.p) ≤ data.length
  held : slice bf.buf bf.p (bf.n - bf.p) = slice data lp (bf.n - bf.p)
  fin : bf.eof = true → lp + (bf.n - bf.p) = data.length

/-- The handle `m` of a non-origin member agrees with the origin's handle `o`:
same cursor, fill count, end flag and the same bytes in `buf[0..n)`; it
holds no stream of its own. -/
structure Sync (o m : BFILE) : Prop where
  mr : m.mr ≠ 0
  nr : m.nr = o.nr
  nbuf : m.nbuf = o.nbuf
  len : m.buf.length = m.nbuf
  p : m.p = o.p
  n : m.n = o.n
  eof : m.eof = o.eof
  held : slice m.buf 0 m.n = slice o.buf 0 o.n
  nofile : m.f = none

/-- The number of whole elements `BFileRead` hands out: the request, capped by
the whole elements left in the file behind the logical read position. -/
def wholeCount (data : List Byte) (lp size nmemb : Nat) : Nat :=
  min nmemb ((data.length - lp) / size)

/-- The file bytes a handle has not handed out yet: the unconsumed buffered
bytes `buf[p..n)` followed by what the stream has not yet read. -/
def BFILE.unread (bf : BFILE) : List Byte :=
  slice bf.buf bf.p (bf.n - bf.p) ++
    (match bf.f with
     | some f => f.data.drop f.pos
     | none => [])

/-- The logical read position of an origin handle: the stream position minus
the buffered bytes not yet handed out. -/
def BFILE.readPos (bf : BFILE) : Nat :=
  match bf.f with
  | some f => f.pos - (bf.n - bf.p)
  | none => 0

/-- The line a line-oriented read (`fgets` with bound `size1`) takes from the
file content `data` at position `lp`: empty exactly at the end of the file. -/
def lineAt (data : List Byte) (lp : Nat) (size1 : Int) : List Byte :=
  lineOf (size1 - 1).toNat (data.drop lp)

/-! ### Groups of processes -/

/-- The handles of one group: the origin's and those of ranks 1, 2, ... -/
structure Group where
  origin : BFILE
  others : List BFILE

/-- Every non-origin member runs the same call against the messages `tr` the
origin sent.  A member that leaves messages unreceived has fallen out of step
with the group. -/
def runOthers {ι β : Type} (call : ι → List Msg → Except Fault (β × List Msg))
    (tr : List Msg) : List ι → Except Fault (List β)
  | [] => .ok []
  | m :: ms =>
    match call m tr with
    | .error e => .error e
    | .ok (_, _ :: _) => .error .desync
    | .ok (b, []) =>
      match runOthers call tr ms with
      | .error e => .error e
      | .ok bs => .ok (b :: bs)

/-- A call issued identically on every member of a group: the result on the
origin, the results on the other members in rank order, and the group after. -/
def collective {α : Type} (call : BFILE → List Msg → Except Fault (α × BFILE × List Msg))
    (g : Group) : Except Fault (α × List α × Group) :=
  match call g.origin [] with
  | .error e => .error e
  | .ok (a, o2, tr) =>
    match runOthers (fun m w =>
        match call m w with
        | .error e => .error e
        | .ok (b, m2, w2) => .ok ((b, m2), w2)) tr g.others with
    | .error e => .error e
    | .ok rs => .ok (a, rs.map Prod.fst, ⟨o2, rs.map Prod.snd⟩)

/-- The call `BFileRead(ptr, size, nmemb, bf)` issued on every member: on each member
the returned count and the bytes stored in its destination. -/
def Group.read (fuel size nmemb : Nat) (g : Group) :
    Except Fault ((Nat × List Byte) × List (Nat × List Byte) × Group) :=
  collective (fun bf w =>
    match BFileRead fuel size nmemb bf w with
    | .error e => .error e
    | .ok (c, d, bf2, w2) => .ok ((c, d), bf2, w2)) g

/-- The call `BFileGetLine(s, size1, bf)` issued on every member. -/
def Group.getLine (fuel : Nat) (size1 : Int) (g : Group) :
    Except Fault (Option (List Byte) × List (Option (List Byte)) × Group) :=
  collective (BFileGetLine fuel size1) g

/-- The call `BFileRewind(bf)` issued on every member. -/
def Group.rewind (g : Group) : Except Fault (Unit × List Unit × Group) :=
  collective (fun bf w =>
    match BFileRewind bf with
    | .error e => .error e
    | .ok bf2 => .ok ((), bf2, w)) g

/-- The call `BFileOpen(fn, md, nb)` issued on every rank of a world of `nproc`
processes: the handle of rank 0 and the handles of ranks `1 .. nproc-1`.
`heap r` is the content of fresh storage on rank `r`. -/
def openAll (fs : Option (List Byte)) (nb : Int) (RBUFL : Nat) (nproc : Nat)
    (heap : Nat → Nat → Byte) : Except Fault (Option BFILE × List (Option BFILE)) :=
  match BFileOpen fs nb RBUFL 0 nproc (heap 0) [] with
  | .error e => .error e
  | .ok (o, tr) =>
    match runOthers (fun r w => BFileOpen fs nb RBUFL r nproc (heap r) w) tr
        (List.range' 1 (nproc - 1)) with
    | .error e => .error e
    | .ok ms => .ok (o, ms)

/-- The states of a buffered multi-member group over a file with content
`data`: what a successful open yields, and what `BFileRead` (element size
within capacity), `BFileGetLine` (`2 ≤ size1 ≤ nbuf + 1`) and `BFileRewind`
issued on every member make of it.  Fuel is an artefact of the loop model, so
only runs with enough of it are listed. -/
inductive Reachable (data : List Byte) : Group → Prop
  | opened (nb : Int) (RBUFL nproc : Nat) (heap : Nat → Nat → Byte) (o : BFILE)
      (ms : List BFILE) :
      openAll (some data) nb RBUFL nproc heap = .ok (some o, ms.map some) →
      1 < o.nr → Reachable data ⟨o, ms⟩
  | read (g g2 : Group) (fuel size nmemb : Nat) (r : Nat × List Byte)
      (rs : List (Nat × List Byte)) :
      Reachable data g → 1 ≤ size → size ≤ g.origin.nbuf → nmemb + 2 ≤ fuel →
      Group.read fuel size nmemb g = .ok (r, rs, g2) → Reachable data g2
  | getLine (g g2 : Group) (fuel : Nat) (size1 : Int) (r : Option (List Byte))
      (rs : List (Option (List Byte))) :
      Reachable data g → 2 ≤ size1 → size1 ≤ g.origin.nbuf + 1 → 3 ≤ fuel →
      Group.getLine fuel size1 g = .ok (r, rs, g2) → Reachable data g2
  | rewind (g g2 : Group) (r : Unit) (rs : List Unit) :
      Reachable data g → Group.rewind g = .ok (r, rs, g2) → Reachable data g2

/-- The group invariant: the origin's handle represents the file at logical
position `lp` and every other member agrees with the origin. -/
def GInv (data : List Byte) (lp : Nat) (g : Group) : Prop :=
  Rep data lp g.origin ∧ ∀ m ∈ g.others, Sync g.origin m

/-- The handle a successful buffered open leaves on rank `r` of a world of
`nproc > 1` processes. -/
def openHandle (data : List Byte) (nbuf nproc r : Nat) (heap : Nat → Byte) : BFILE :=
  { f := if r = 0 then some ⟨data, 0⟩ else none, buf := malloc heap nbuf, p := 0, n := 0,
    nbuf := nbuf, nr := nproc, mr := r, eof := false, fn := true }

/-- The buffer capacity `BFileOpen` chooses (line 188). -/
def openCap (nb : Int) (RBUFL : Nat) : Nat := if nb ≥ 0 then nb.toNat else RBUFL

/-- The count `min(m, floor(R / s))` for a handle with `R` unread bytes. -/
def BFILE.count (bf : BFILE) (s m : Nat) : Nat :=
  min m (bf.unread.length / s)

/-- A freshly opened buffered group of `nproc` processes with capacity `nbuf`
over a file with content `data`, fresh storage being zeroed. -/
def freshGroup (data : List Byte) (nbuf nproc : Nat) : Group :=
  ⟨openHandle data nbuf nproc 0 (fun _ => 0),
   (List.range' 1 (nproc - 1)).map (fun r => openHandle data nbuf nproc r (fun _ => 0))⟩

/-- The eight bytes `"abc\ndef\n"`. -/
def abcFile : List Byte := [97, 98, 99, 10, 100, 101, 102, 10]

/-- What a call returned on the origin, if it returned. -/
def originResult {α β : Type} : Except Fault (α × β) → Option α
  | .ok (a, _) => some a
  | .error _ => none

/-- The line a line-oriented read takes, in the words of the specification:
of the first `k` bytes of `xs`, those up to and including the first line
terminator, or all of them when there is none. -/
def specLine (k : Nat) (xs : List Byte) : List Byte :=
  (xs.take k).take (((xs.take k).takeWhile (fun b => decide (b ≠ NL))).length + 1)

/-- The group a group call left behind (`dflt` if the call did not return). -/
def groupAfter {α : Type} (x : Except Fault (α × List α × Group)) (dflt : Group) : Group :=
  match x with
  | .ok (_, _, g) => g
  | .error _ => dflt

/-- A sample state: three processes over `"abc\ndef\n"` with capacity 4, after
one `BFileRead` of one element of three bytes. -/
def sampleGroup : Group :=
  groupAfter (Group.read 3 3 1 (freshGroup abcFile 4 3)) (freshGroup abcFile 4 3)

/-- The handle `BFileOpen` returns for capacity 0 over `"abc\ndef\n"`. -/
def unbufferedAbc : BFILE :=
  { f := some ⟨abcFile, 0⟩, buf := [], p := 0, n := 0, nbuf := 0, nr := 1, mr := 0,
    eof := false, fn := false }

/-! ### The sequential section guard: a group of interleaved processes -/

/-- Where a process stands in `MPISeqBeg(); <guarded region>; MPISeqEnd();`. -/
inductive Pc where
  /-- about to call `MPISeqBeg`, or blocked in its `MPI_Recv` -/
  | beg
  /-- returned from `MPISeqBeg`, the guarded region not yet executed -/
  | region
  /-- the guarded region executed, about to call `MPISeqEnd` -/
  | fin
  /-- in the `MPI_Barrier` of `MPISeqEnd`, the handoff (if any) sent -/
  | barrier
  /-- returned from `MPISeqEnd` -/
  | out
deriving DecidableEq, Repr

/-- The state of a group whose members each run `MPISeqBeg()`, append their
rank to a shared log, and run `MPISeqEnd()`: the place of every rank, the
messages sent and not yet received, the log, and the number of "Error in
MPISeqBeg" lines printed. -/
structure World where
  pcs : Nat → Pc
  net : List P2P
  log : List Nat
  errs : Nat

/-- The start: every rank is about to call `MPISeqBeg`. -/
def World.init : World :=
  { pcs := fun _ => .beg, net := [], log := [], errs := 0 }

/-- A blocking receive on rank `dest`: the first message in flight that matches
source and tag, and the messages left. -/
def takeMsg (rq : RecvReq) (dest : Int) : List P2P → Option (P2P × List P2P)
  | [] => none
  | m :: ms =>
    if m.src = rq.source ∧ m.tag = rq.tag ∧ m.dest = dest then some (m, ms)
    else
      match takeMsg rq dest ms with
      | none => none
      | some (x, rest) => some (x, m :: rest)

/-- Whether every rank below `N` has entered the barrier. -/
def allArrived (N : Nat) (pcs : Nat → Pc) : Bool :=
  (List.range N).all (fun q => decide (pcs q = .barrier ∨ pcs q = .out))

/-- One step of rank `r` in a group of `N` initialised processes; `none` when
the rank is blocked (in `MPI_Recv` or `MPI_Barrier`) or has finished.  A sent
message is in flight until it is received. -/
def stepRank (N r : Nat) (w : World) : Option World :=
  match w.pcs r with
  | .beg =>
    match MPISeqBeg true r with
    | none => some { w with pcs := Function.update w.pcs r .region }
    | some rq =>
      match takeMsg rq r w.net with
      | none => none
      | some (m, rest) =>
        some { w with pcs := Function.update w.pcs r .region, net := rest,
                      errs := w.errs + (if MPISeqBegError r m.val then 1 else 0) }
  | .region => some { w with pcs := Function.update w.pcs r .fin, log := w.log ++ [r] }
  | .fin =>
    some { w with pcs := Function.update w.pcs r .barrier,
                  net := w.net ++ (MPISeqEnd true r N).toList }
  | .barrier =>
    if allArrived N w.pcs then some { w with pcs := Function.update w.pcs r .out } else none
  | .out => none

/-- An interleaving: the ranks in the order in which they take their steps.
The result is `none` when the schedule picks a rank that cannot move. -/
def run (N : Nat) : List Nat → World → Option World
  | [], w => some w
  | r :: rs, w =>
    if r < N then
      match stepRank N r w with
      | none => none
      | some w2 => run N rs w2
    else none

/-- The rank is inside the guarded section: between its return from
`MPISeqBeg` and its handoff in `MPISeqEnd`. -/
def World.inside (w : World) (q : Nat) : Prop :=
  w.pcs q = .region ∨ w.pcs q = .fin

/-- The steps a process has still to take. -/
def Pc.weight : Pc → Nat
  | .beg => 4
  | .region => 3
  | .fin => 2
  | .barrier => 1
  | .out => 0

/-- The steps the ranks below `N` have still to take. -/
def World.todo (N : Nat) (w : World) : Nat :=
  ((List.range N).map (fun q => (w.pcs q).weight)).sum

/-- The invariant of the guarded section with `t` ranks through their handoff:
they wait in the barrier, rank `t` holds the turn (or its token is in flight),
the ranks above have not started, the log lists the ranks in order. -/
structure SeqInv (N t : Nat) (w : World) : Prop where
  le : t ≤ N
  before : ∀ q, q < t → w.pcs q = .barrier ∨ w.pcs q = .out
  later : ∀ q, t < q → q < N → w.pcs q = .beg
  cur : t < N → w.pcs t = .beg ∨ w.pcs t = .region ∨ w.pcs t = .fin
  log : w.log = List.range t ++ (if w.pcs t = .fin ∧ t < N then [t] else [])
  net : w.net = if 0 < t ∧ t < N ∧ w.pcs t = .beg
      then [⟨(t : Int) - 1, t, (t : Int) - 1, (t : Int) - 1⟩] else []
  out : ∀ q, q < N → w.pcs q = .out → t = N
  errs : w.errs = 0

/-- A sample interleaving of three processes: rank 0 through its section and
into the barrier, rank 1 inside its section with its rank logged. -/
def sampleSchedule : List Nat := [0, 0, 0, 1, 1]

/-- The state the sample interleaving leads to. -/
def sampleWorld : World := (run 3 sampleSchedule World.init).getD World.init

/-- The messages the ranks `0 .. N-1` send in `MPISeqEnd`, in rank order. -/
def seqSends (N : Nat) : List P2P :=
  (List.range N).filterMap (fun (r : Nat) => MPISeqEnd true (r : Int) (N : Int))

/-- The receives the ranks `0 .. N-1` post in `MPISeqBeg`, in rank order, each
with the rank that posts it. -/
def seqRecvs (N : Nat) : List (Nat × RecvReq) :=
  (List.range N).filterMap (fun (r : Nat) => (MPISeqBeg true (r : Int)).map (fun rq => (r, rq)))

/-! ### One pass of the read loop -/

/-- One pass through the body of `while (nmemb)` in `BFileRead` (lines
270-306): the call returns (`inl`), or the pass ends with a refill and the
loop goes on with the new locals (`inr`). -/
def loopPass (size : Nat) (L : Locals) (bf : BFILE) (wire : List Msg) :
    Except Fault ((Nat × List Byte × BFILE × List Msg) ⊕ (Locals × BFILE × List Msg)) :=
  if L.nmemb = 0 then .ok (.inl (L.nread, L.ptr, bf, wire))
  else if L.n ≥ L.nmemb then
    let nr := size * L.nmemb
    .ok (.inl (L.nread + L.nmemb, L.ptr ++ slice bf.buf bf.p nr,
               { bf with p := bf.p + nr }, wire))
  else
    let s1 := copyAvail size L bf
    if s1.2.eof then .ok (.inl (s1.1.nread, s1.1.ptr, s1.2, wire))
    else
      match refill s1.1.nb s1.2 wire with
      | .error e => .error e
      | .ok (bf2, w2) =>
        let nb := bf2.n - bf2.p
        .ok (.inr ({ s1.1 with nb := nb, n := nb / size }, bf2, w2))

/-- What the loop of `BFileRead` on the origin keeps true from pass to pass:
the handle represents the file, `nb` is the number of buffered bytes not yet
handed out and `n` the number of whole elements among them. -/
def LoopInv (data : List Byte) (size : Nat) (L : Locals) (bf : BFILE) : Prop :=
  ∃ lp, Rep data lp bf ∧ L.nb = bf.n - bf.p ∧ L.n = L.nb / size ∧ size ≤ bf.nbuf

/-- The locals with which `BFileRead` enters its loop (lines 266-269). -/
def loopStart (size nmemb : Nat) (bf : BFILE) : Locals :=
  { ptr := [], nmemb := nmemb, nb := bf.n - bf.p, n := (bf.n - bf.p) / size, nread := 0 }

/-! ### The two halves of the end of `BFileGetLine` -/

/-- Lines 330-337 of `BFileGetLine`: the cursor after the scan of `s[0..size)`,
just past the line. -/
def consumeLine (s : List Byte) (size : Nat) (bf : BFILE) : BFILE :=
  { bf with p := bf.p + scanLine (s.take size) }

/-- Lines 338-341 of `BFileGetLine`: cursor and fill count go back to zero
when the cursor stands at the capacity. -/
def resetDrained (bf : BFILE) : BFILE :=
  if bf.p = bf.nbuf then { bf with p := 0, n := 0 } else bf

/-! ### Round-robin work assignment -/

/-- What `k` consecutive calls `SkipMPI(&wid, myrank, nproc)` return on the
rank `myrank`, the counter starting at `wid`. -/
def skipRun : Nat → Int → Int → Int → List Int
  | 0, _, _, _ => []
  | k + 1, wid, myrank, nproc =>
    (SkipMPI wid myrank nproc).1 :: skipRun k (SkipMPI wid myrank nproc).2 myrank nproc

/-- The counter after `k` consecutive calls of `SkipMPI`; the rank plays no
part in it. -/
def skipEnd : Nat → Int → Int → Int
  | 0, wid, _ => wid
  | k + 1, wid, nproc => skipEnd k (SkipMPI wid 0 nproc).2 nproc

/-! ## Buffer and refill lemmas -/

theorem slice_length (xs : List Byte) (off len : Nat) :
    (slice xs off len).length = min len (xs.length - off) := by
  simp [slice]

theorem slice_add (xs : List Byte) (off a b : Nat) :
    slice xs off (a + b) = slice xs off a ++ slice xs (off + a) b := by
  simp only [slice]
  rw [List.take_add, List.drop_drop]

theorem blit_length (xs src : List Byte) (off : Nat) (h : off + src.length ≤ xs.length) :
    (blit xs off src).length = xs.length := by
  simp [blit]; omega

theorem blit_slice_self (xs : List Byte) (off k : Nat) (h : off + k ≤ xs.length) :
    blit xs off (slice xs off k) = xs := by
  have hl : (slice xs off k).length = k := by rw [slice_length]; omega
  unfold blit
  rw [hl]
  simp only [slice]
  rw [List.append_assoc, ← List.drop_drop, List.take_append_drop, List.take_append_drop]

theorem slice_blit_blit (xs X bs : List Byte) :
    slice (blit (blit xs 0 X) X.length bs) 0 (X.length + bs.length) = X ++ bs := by
  simp [slice, blit]
  rw [List.take_append_eq_append_take]
  simp

theorem slice_blit_before (xs src : List Byte) (off : Nat) (h : off ≤ xs.length) :
    slice (blit xs off src) 0 off = slice xs 0 off := by
  simp [slice, blit, List.take_append_eq_append_take, Nat.min_eq_left h]

theorem slice_blit_nil (xs bs : List Byte) :
    slice (blit xs 0 bs) 0 bs.length = bs := by
  simp [slice, blit]

theorem bcastN_root (bf : BFILE) (wire : List Msg) (h : bf.mr = 0) :
    bcastN bf wire = .ok (bf, wire ++ [Msg.int bf.n]) := by
  cases bf
  simp_all [bcastN, MPI_Bcast]

theorem bcastEof_root (bf : BFILE) (wire : List Msg) (h : bf.mr = 0) :
    bcastEof bf wire = .ok (bf, wire ++ [Msg.int (if bf.eof then 1 else 0)]) := by
  cases bf with
  | mk f buf p n nbuf nr mr eof fn =>
    cases eof <;> simp_all [bcastEof, MPI_Bcast]

theorem bcastBuf_root (nb : Nat) (bf : BFILE) (wire : List Msg) (h : bf.mr = 0)
    (hn : bf.n ≤ bf.buf.length) :
    bcastBuf nb bf wire
      = .ok (bf, wire ++ (if bf.n > nb then [Msg.bytes (slice bf.buf nb (bf.n - nb))] else [])) := by
  unfold bcastBuf
  by_cases hgt : bf.n > nb
  · have hl : (slice bf.buf nb (bf.n - nb)).length = bf.n - nb := by
      rw [slice_length]; omega
    have hb : blit bf.buf nb (slice bf.buf nb (bf.n - nb)) = bf.buf :=
      blit_slice_self _ _ _ (by omega)
    cases bf
    simp_all [MPI_Bcast]
  · simp [hgt]


@[simp] theorem shiftBuf_p (nb : Nat) (bf : BFILE) : (shiftBuf nb bf).p = 0 := rfl
@[simp] theorem shiftBuf_n (nb : Nat) (bf : BFILE) : (shiftBuf nb bf).n = nb := rfl
@[simp] theorem shiftBuf_mr (nb : Nat) (bf : BFILE) : (shiftBuf nb bf).mr = bf.mr := by
  unfold shiftBuf; split <;> rfl
@[simp] theorem shiftBuf_nr (nb : Nat) (bf : BFILE) : (shiftBuf nb bf).nr = bf.nr := by
  unfold shiftBuf; split <;> rfl
@[simp] theorem shiftBuf_nbuf (nb : Nat) (bf : BFILE) : (shiftBuf nb bf).nbuf = bf.nbuf := by
  unfold shiftBuf; split <;> rfl
@[simp] theorem shiftBuf_f (nb : Nat) (bf : BFILE) : (shiftBuf nb bf).f = bf.f := by
  unfold shiftBuf; split <;> rfl
@[simp] theorem shiftBuf_eof (nb : Nat) (bf : BFILE) : (shiftBuf nb bf).eof = bf.eof := by
  unfold shiftBuf; split <;> rfl

theorem shiftBuf_buf (nb : Nat) (bf : BFILE) (h : bf.p + nb ≤ bf.buf.length) :
    (shiftBuf nb bf).buf = blit bf.buf 0 (slice bf.buf bf.p nb)
      ∧ (shiftBuf nb bf).buf.length = bf.buf.length
      ∧ slice (shiftBuf nb bf).buf 0 nb = slice bf.buf bf.p nb := by
  have hl : (slice bf.buf bf.p nb).length = nb := by rw [slice_length]; omega
  have hb : (shiftBuf nb bf).buf = blit bf.buf 0 (slice bf.buf bf.p nb) := by
    unfold shiftBuf
    split
    · rfl
    · have h0 : nb = 0 := by omega
      subst h0
      simp [slice, blit]
  refine ⟨hb, ?_, ?_⟩
  · rw [hb, blit_length]; omega
  · rw [hb]
    have := slice_blit_nil bf.buf (slice bf.buf bf.p nb)
    rw [hl] at this
    exact this

theorem refill_origin {data : List Byte} {lp : Nat} {bf : BFILE} (h : Rep data lp bf)
    (wire : List Msg) :
    ∃ bf2, refill (bf.n - bf.p) bf wire = .ok (bf2, wire ++ refillMsgs (bf.n - bf.p) bf2)
      ∧ Rep data lp bf2 ∧ bf2.p = 0 ∧ bf2.nbuf = bf.nbuf ∧ bf2.nr = bf.nr
      ∧ bf.n - bf.p ≤ bf2.n
      ∧ (bf.n - bf.p < bf.nbuf → bf2.eof = true ∨ bf2.n = bf2.nbuf)
      ∧ (bf.eof = true → bf2.eof = true)
      ∧ slice bf2.buf 0 (bf.n - bf.p) = slice bf.buf bf.p (bf.n - bf.p) := by
  obtain ⟨hnr, hmr, hpn, hnn, hlen, hfile, hpos, hheld, hfin⟩ := h
  generalize hnb : bf.n - bf.p = nb at *
  obtain ⟨hSb, hSl, hSs⟩ := shiftBuf_buf nb bf (by omega)
  generalize hbs : (data.drop (lp + nb)).take (bf.nbuf - nb) = bs
  have hbsl : bs.length = min (bf.nbuf - nb) (data.length - (lp + nb)) := by rw [← hbs]; simp
  have hXl : (slice bf.buf bf.p nb).length = nb := by rw [slice_length]; omega
  have hfill : originFill (shiftBuf nb bf)
      = .ok { shiftBuf nb bf with
                buf := blit (shiftBuf nb bf).buf nb bs,
                f := some ⟨data, lp + nb + bs.length⟩,
                eof := if bs.length < bf.nbuf - nb then true else bf.eof,
                n := nb + bs.length } := by
    simp [originFill, hmr, hfile, fread1, hbs]
  refine ⟨{ shiftBuf nb bf with
                buf := blit (shiftBuf nb bf).buf nb bs,
                f := some ⟨data, lp + nb + bs.length⟩,
                eof := if bs.length < bf.nbuf - nb then true else bf.eof,
                n := nb + bs.length }, ?_, ?_, rfl, by simp, by simp, by simp, ?_, ?_, ?_⟩
  · unfold refill
    rw [hfill]
    simp only []
    rw [bcastN_root _ _ (by simp [hmr])]
    simp only []
    rw [bcastBuf_root _ _ _ (by simp [hmr]) (by simp [blit]; omega)]
    simp only []
    rw [bcastEof_root _ _ (by simp [hmr])]
    simp [refillMsgs]
  · refine ⟨by simpa using hnr, by simpa using hmr, by simp, by simp; omega, ?_, ?_, ?_, ?_, ?_⟩
    · simp only [shiftBuf_nbuf]; rw [blit_length] <;> omega
    · simp; omega
    · simp; omega
    · simp only [shiftBuf_p, Nat.sub_zero]
      rw [hSb]
      have h1 := slice_blit_blit bf.buf (slice bf.buf bf.p nb) bs
      rw [hXl] at h1
      rw [h1, slice_add, hheld]
      congr 1
      rw [← hbs]
      simp [slice, List.take_take]
    · simp only [shiftBuf_p, Nat.sub_zero]
      intro he
      split at he
      · omega
      · have := hfin he; omega
  · intro hlt
    simp only [shiftBuf_nbuf]
    by_cases hc : bs.length < bf.nbuf - nb
    · left; simp [hc]
    · right; omega
  · intro he; simp [he]
  · show slice (blit (shiftBuf nb bf).buf nb bs) 0 nb = slice bf.buf bf.p nb
    rw [slice_blit_before _ _ _ (by omega), hSs]


theorem slice_prefix_eq {xs ys : List Byte} {a b m : Nat} (k : Nat)
    (h : slice xs a m = slice ys b m) (hk : k ≤ m) : slice xs a k = slice ys b k := by
  have h1 : ∀ (zs : List Byte) (c : Nat), slice zs c k = (slice zs c m).take k := by
    intro zs c
    simp [slice, List.take_take, Nat.min_eq_left hk]
  rw [h1 xs a, h1 ys b, h]

theorem slice_suffix_eq {xs ys : List Byte} {a b m : Nat} (k : Nat)
    (h : slice xs a m = slice ys b m) :
    slice xs (a + k) (m - k) = slice ys (b + k) (m - k) := by
  have h1 : ∀ (zs : List Byte) (c : Nat), slice zs (c + k) (m - k) = (slice zs c m).drop k := by
    intro zs c
    simp [slice, List.drop_take, List.drop_drop, Nat.add_comm]
  rw [h1 xs a, h1 ys b, h]

/-- Handing out `k` buffered bytes keeps the representation and yields the
next `k` bytes of the file. -/
theorem Rep.advance {data : List Byte} {lp : Nat} {bf : BFILE} (h : Rep data lp bf) (k : Nat)
    (hk : k ≤ bf.n - bf.p) :
    Rep data (lp + k) { bf with p := bf.p + k } ∧ slice bf.buf bf.p k = slice data lp k := by
  obtain ⟨hnr, hmr, hpn, hnn, hlen, hfile, hpos, hheld, hfin⟩ := h
  refine ⟨⟨hnr, hmr, ?_, hnn, hlen, ?_, ?_, ?_, ?_⟩, slice_prefix_eq k hheld hk⟩
  · show bf.p + k ≤ bf.n
    omega
  · show bf.f = some ⟨data, lp + k + (bf.n - (bf.p + k))⟩
    rw [hfile]; congr 2; omega
  · show lp + k + (bf.n - (bf.p + k)) ≤ data.length
    omega
  · show slice bf.buf (bf.p + k) (bf.n - (bf.p + k)) = slice data (lp + k) (bf.n - (bf.p + k))
    have := slice_suffix_eq k hheld
    rwa [Nat.sub_sub] at this
  · show bf.eof = true → lp + k + (bf.n - (bf.p + k)) = data.length
    intro he; have := hfin he; omega


theorem copyAvail_origin {data : List Byte} {lp : Nat} {bf : BFILE} (size : Nat) (L : Locals)
    (h : Rep data lp bf) (hnb : L.nb = bf.n - bf.p) (hn : L.n = L.nb / size) (hs : 1 ≤ size) :
    Rep data (lp + L.n * size) (copyAvail size L bf).2
      ∧ (copyAvail size L bf).1.ptr = L.ptr ++ slice data lp (L.n * size)
      ∧ (copyAvail size L bf).1.nmemb = L.nmemb - L.n
      ∧ (copyAvail size L bf).1.nread = L.nread + L.n
      ∧ (copyAvail size L bf).1.nb = (copyAvail size L bf).2.n - (copyAvail size L bf).2.p
      ∧ (copyAvail size L bf).1.nb < size
      ∧ (copyAvail size L bf).2.eof = bf.eof
      ∧ (copyAvail size L bf).2.nbuf = bf.nbuf
      ∧ (copyAvail size L bf).2.nr = bf.nr := by
  have hle : L.n * size ≤ bf.n - bf.p := by
    rw [hn, ← hnb]; exact Nat.div_mul_le_self _ _
  have hlt : L.nb - L.n * size < size := by
    have := Nat.lt_div_mul_add (a := L.nb) (b := size) (by omega)
    rw [← hn] at this
    omega
  obtain ⟨hR, hS⟩ := h.advance (L.n * size) hle
  unfold copyAvail
  split
  · simp only [Nat.mul_comm size L.n]
    refine ⟨hR, by rw [hS], by trivial, by trivial, ?_, hlt, by trivial, by trivial, by trivial⟩
    show L.nb - L.n * size = bf.n - (bf.p + L.n * size)
    omega
  · have h0 : L.n = 0 := by omega
    simp only [h0, Nat.zero_mul, Nat.add_zero, Nat.sub_zero] at hR hlt ⊢
    refine ⟨?_, by simp [slice], by trivial, by trivial, hnb, hlt, by trivial, by trivial, by trivial⟩
    have : ({ bf with p := bf.p } : BFILE) = bf := by cases bf; rfl
    rwa [this] at hR


theorem wholeCount_step (data : List Byte) (lp size nmemb n : Nat) (hs : 1 ≤ size)
    (hn : n ≤ nmemb) (hle : n * size ≤ data.length - lp) :
    wholeCount data lp size nmemb = n + wholeCount data (lp + n * size) size (nmemb - n) := by
  unfold wholeCount
  have h1 : (data.length - (lp + n * size)) / size = (data.length - lp) / size - n := by
    rw [← Nat.sub_sub, Nat.mul_comm n size, Nat.sub_mul_div _ _ _ (by rwa [Nat.mul_comm])]
  rw [h1]
  have h2 : n ≤ (data.length - lp) / size := (Nat.le_div_iff_mul_le (by omega)).2 hle
  omega

theorem Sync.slice_eq {o m : BFILE} (h : Sync o m) (k : Nat) (hk : o.p + k ≤ o.n) :
    slice m.buf m.p k = slice o.buf o.p k := by
  have h1 := h.held
  rw [h.n] at h1
  have h2 := slice_suffix_eq o.p h1
  simp only [Nat.zero_add] at h2
  rw [h.p]
  exact slice_prefix_eq k h2 (by omega)

theorem Sync.stepCursor {o m : BFILE} (h : Sync o m) (k : Nat) :
    Sync { o with p := o.p + k } { m with p := m.p + k } := by
  obtain ⟨h1, h2, h3, h4, h5, h6, h7, h8, h9⟩ := h
  exact ⟨h1, h2, h3, h4, by show m.p + k = o.p + k; rw [h5], h6, h7, h8, h9⟩

theorem refill_member {data : List Byte} {lp lp2 : Nat} {o o2 m : BFILE} (hS : Sync o m)
    (hR : Rep data lp o) (hR2 : Rep data lp2 o2) (hge : o.n - o.p ≤ o2.n)
    (hnbuf : o2.nbuf = o.nbuf) (hnr : o2.nr = o.nr) (hp2 : o2.p = 0)
    (hsl : slice o2.buf 0 (o.n - o.p) = slice o.buf o.p (o.n - o.p)) (rest : List Msg) :
    ∃ m2, refill (o.n - o.p) m (refillMsgs (o.n - o.p) o2 ++ rest) = .ok (m2, rest)
      ∧ Sync o2 m2 := by
  have hpn := hR.pn
  have hnn := hR.nn
  have hn2 := hR2.nn
  have hlen2 := hR2.len
  generalize hnb : o.n - o.p = nb at *
  have hX : slice m.buf m.p nb = slice o.buf o.p nb := hS.slice_eq nb (by omega)
  have hml : m.buf.length = o.nbuf := by rw [hS.len, hS.nbuf]
  obtain ⟨hSb, hSl, hSs⟩ := shiftBuf_buf nb m (by rw [hml, hS.p]; omega)
  have hXl : (slice o.buf o.p nb).length = nb := by rw [slice_length, hR.len]; omega
  have hfill : originFill (shiftBuf nb m) = .ok (shiftBuf nb m) := by
    simp [originFill, hS.mr]
  have hmr : m.mr ≠ 0 := hS.mr
  unfold refill
  rw [hfill]
  simp only []
  by_cases hgt : o2.n > nb
  · have hBl : (slice o2.buf nb (o2.n - nb)).length = o2.n - nb := by
      rw [slice_length]; omega
    refine ⟨{ shiftBuf nb m with
                n := o2.n,
                buf := blit (shiftBuf nb m).buf nb (slice o2.buf nb (o2.n - nb)),
                eof := o2.eof }, ?_, ?_⟩
    · cases hb : o2.eof <;>
        simp [refillMsgs, hgt, bcastN, bcastBuf, bcastEof, MPI_Bcast, hmr, hBl, hb]
    · refine ⟨by simpa using hmr, by simp [hS.nr, hnr], by simp [hS.nbuf, hnbuf], ?_, by simp [hp2],
        rfl, rfl, ?_, by simpa using hS.nofile⟩
      · show (blit (shiftBuf nb m).buf nb (slice o2.buf nb (o2.n - nb))).length = (shiftBuf nb m).nbuf
        rw [blit_length] <;> simp [hSl, hml, hS.nbuf]
        omega
      · show slice (blit (shiftBuf nb m).buf nb (slice o2.buf nb (o2.n - nb))) 0 o2.n
            = slice o2.buf 0 o2.n
        have e : o2.n = nb + (o2.n - nb) := by omega
        have h1 := slice_blit_blit m.buf (slice o.buf o.p nb) (slice o2.buf nb (o2.n - nb))
        rw [hXl, hBl, ← e, ← hX, ← hSb] at h1
        rw [h1]
        conv_rhs => rw [e, slice_add, hsl, Nat.zero_add]
        rw [hX]
  · have e : o2.n = nb := by omega
    refine ⟨{ shiftBuf nb m with
                n := o2.n,
                eof := o2.eof }, ?_, ?_⟩
    · cases hb : o2.eof <;>
        simp [refillMsgs, hgt, bcastN, bcastBuf, bcastEof, MPI_Bcast, hmr, hb]
    · refine ⟨by simpa using hmr, by simp [hS.nr, hnr], by simp [hS.nbuf, hnbuf], ?_, by simp [hp2],
        rfl, rfl, ?_, by simpa using hS.nofile⟩
      · show (shiftBuf nb m).buf.length = (shiftBuf nb m).nbuf
        simp [hSl, hml, hS.nbuf]
      · show slice (shiftBuf nb m).buf 0 o2.n = slice o2.buf 0 o2.n
        rw [e, hSs, hsl, hX]


theorem copyAvail_member {o m : BFILE} (size : Nat) (L : Locals) (h : Sync o m)
    (hle : o.p + size * L.n ≤ o.n) :
    (copyAvail size L m).1 = (copyAvail size L o).1
      ∧ Sync (copyAvail size L o).2 (copyAvail size L m).2 := by
  unfold copyAvail
  split
  · exact ⟨by simp [h.slice_eq _ hle], h.stepCursor _⟩
  · exact ⟨rfl, h⟩

theorem readLoop_spec {data : List Byte} (size : Nat) (hs : 1 ≤ size) :
    ∀ (fuel : Nat) (L : Locals) (bf : BFILE) (lp : Nat) (wire : List Msg),
      Rep data lp bf → size ≤ bf.nbuf → L.nb = bf.n - bf.p → L.n = L.nb / size →
      (L.nmemb + 2 ≤ fuel ∨ (L.nmemb + 1 ≤ fuel ∧ (bf.eof = true ∨ 1 ≤ L.n))) →
      ∃ bf2 tr, BFileReadLoop fuel size L bf wire
          = .ok (L.nread + wholeCount data lp size L.nmemb,
                 L.ptr ++ slice data lp (wholeCount data lp size L.nmemb * size), bf2, wire ++ tr)
        ∧ Rep data (lp + wholeCount data lp size L.nmemb * size) bf2
        ∧ bf2.nbuf = bf.nbuf ∧ bf2.nr = bf.nr
        ∧ (wholeCount data lp size L.nmemb < L.nmemb → bf2.eof = true)
        ∧ (bf.eof = true → bf2.eof = true)
        ∧ (L.nmemb = 1 → wholeCount data lp size L.nmemb = 1 →
            size ≤ bf2.p ∧ slice bf2.buf (bf2.p - size) size = slice data lp size)
        ∧ ∀ (m : BFILE) (rest : List Msg), Sync bf m →
            ∃ m2, BFileReadLoop fuel size L m (tr ++ rest)
                = .ok (L.nread + wholeCount data lp size L.nmemb,
                       L.ptr ++ slice data lp (wholeCount data lp size L.nmemb * size), m2, rest)
              ∧ Sync bf2 m2 := by
  intro fuel
  induction fuel with
  | zero => intro L bf lp wire _ _ _ _ hf; omega
  | succ fuel ih =>
    intro L bf lp wire hR hsz hnb hn hf
    have hD : bf.n - bf.p ≤ data.length - lp := by have := hR.pos; omega
    have hpn := hR.pn
    rw [BFileReadLoop]
    by_cases h0 : L.nmemb = 0
    · refine ⟨bf, [], ?_, ?_, rfl, rfl, ?_, fun h => h, ?_, ?_⟩
      · simp [h0, wholeCount, slice]
      · simpa [h0, wholeCount] using hR
      · simp [h0, wholeCount]
      · intro h; omega
      · intro m rest hS
        refine ⟨m, ?_, hS⟩
        rw [BFileReadLoop]
        simp [h0, wholeCount, slice]
    · rw [if_neg h0]
      by_cases h1 : L.n ≥ L.nmemb
      · rw [if_pos h1]
        have hc : wholeCount data lp size L.nmemb = L.nmemb := by
          unfold wholeCount
          have : L.n ≤ (data.length - lp) / size := by
            rw [hn, hnb]; exact Nat.div_le_div_right hD
          omega
        have hle : L.nmemb * size ≤ bf.n - bf.p := by
          calc L.nmemb * size ≤ L.n * size := Nat.mul_le_mul_right _ h1
            _ ≤ bf.n - bf.p := by rw [hn, ← hnb]; exact Nat.div_mul_le_self _ _
        obtain ⟨hR2, hS⟩ := hR.advance (L.nmemb * size) hle
        refine ⟨{ bf with p := bf.p + L.nmemb * size }, [], ?_, ?_, rfl, rfl, ?_, fun h => h, ?_, ?_⟩
        · simp [hc, Nat.mul_comm size L.nmemb, hS]
        · rw [hc]; exact hR2
        · rw [hc]; omega
        · intro hn1 _
          rw [hn1, Nat.one_mul] at hS
          simp only [hn1, Nat.one_mul, Nat.add_sub_cancel]
          exact ⟨by omega, hS⟩
        · intro m rest hSy
          refine ⟨{ m with p := m.p + L.nmemb * size }, ?_, hSy.stepCursor _⟩
          rw [BFileReadLoop]
          rw [if_neg h0, if_pos h1]
          have hm := hSy.slice_eq (L.nmemb * size) (by omega)
          simp [hc, Nat.mul_comm size L.nmemb, hS, hm]
      · rw [if_neg h1]
        obtain ⟨cR, cptr, cnm, cnr, cnb, cnblt, ceof, cnbuf, cnrk⟩ :=
          copyAvail_origin size L hR hnb hn hs
        have hle0 : L.n * size ≤ bf.n - bf.p := by
          rw [hn, ← hnb]; exact Nat.div_mul_le_self _ _
        have hle : L.n * size ≤ data.length - lp := Nat.le_trans hle0 hD
        have hstep := wholeCount_step data lp size L.nmemb L.n hs (by omega) hle
        simp only []
        by_cases he : (copyAvail size L bf).2.eof = true
        · rw [if_pos he]
          have hfin := cR.fin he
          have hc : wholeCount data (lp + L.n * size) size (L.nmemb - L.n) = 0 := by
            unfold wholeCount
            have : (data.length - (lp + L.n * size)) / size = 0 := by
              apply Nat.div_eq_of_lt
              omega
            omega
          refine ⟨(copyAvail size L bf).2, [], ?_, ?_, cnbuf, cnrk, fun _ => he, fun _ => he, ?_, ?_⟩
          · simp [hstep, hc, cnr, cptr]
          · rw [hstep, hc]; simpa using cR
          · intro hn1 hw
            rw [hstep, hc] at hw
            omega
          · intro m rest hSy
            obtain ⟨e1, hSy2⟩ := copyAvail_member size L hSy (by rw [Nat.mul_comm]; omega)
            refine ⟨(copyAvail size L m).2, ?_, hSy2⟩
            rw [BFileReadLoop]
            rw [if_neg h0, if_neg h1]
            simp only []
            rw [if_pos (by rw [hSy2.eof]; exact he), e1]
            simp [hstep, hc, cnr, cptr]
        · rw [if_neg he]
          obtain ⟨bf2, hrf, hR2, hp2, hnbuf2, hnr2, hge2, hfull2, _, hsl2⟩ :=
            refill_origin cR wire
          have hrfo := hrf
          rw [← cnb] at hrf
          rw [hrf]
          simp only []
          have hfuel : (L.nmemb - L.n) + 1 ≤ fuel ∧ (bf2.eof = true ∨ 1 ≤ (bf2.n - bf2.p) / size) := by
            constructor
            · rcases hf with hf | ⟨hf, hf2⟩
              · omega
              · rw [ceof] at he
                rcases hf2 with hf2 | hf2
                · exact absurd hf2 he
                · omega
            · rcases hfull2 (by rw [← cnb, cnbuf]; omega) with h | h
              · exact Or.inl h
              · right
                rw [hp2, h, hnbuf2, cnbuf]
                exact Nat.div_pos hsz (by omega)
          obtain ⟨bf3, tr, hrun, hR3, hnbuf3, hnr3, hlt3, _, hun3, hmem3⟩ :=
            ih { (copyAvail size L bf).1 with nb := bf2.n - bf2.p, n := (bf2.n - bf2.p) / size }
              bf2 (lp + L.n * size) (wire ++ refillMsgs (copyAvail size L bf).1.nb bf2) hR2
              (by rw [hnbuf2, cnbuf]; exact hsz) rfl rfl (Or.inr (by simpa [cnm] using hfuel))
          simp only [cnm, cnr, cptr] at hrun hun3 hmem3 ⊢
          refine ⟨bf3, refillMsgs (copyAvail size L bf).1.nb bf2 ++ tr, ?_, ?_, ?_, ?_, ?_, ?_, ?_, ?_⟩
          · rw [hrun, hstep]
            simp [Nat.add_mul, slice_add, Nat.add_assoc]
          · rw [hstep, Nat.add_mul, ← Nat.add_assoc]; simpa [cnm] using hR3
          · rw [hnbuf3, hnbuf2, cnbuf]
          · rw [hnr3, hnr2, cnrk]
          · intro hlt
            apply hlt3
            simp only [cnm]
            omega
          · intro hb
            rw [ceof] at he
            exact absurd hb he
          · intro hn1 hw
            have hn0 : L.n = 0 := by omega
            rw [hstep, hn0] at hw
            simp only [hn0, Nat.zero_mul, Nat.add_zero, Nat.sub_zero, Nat.zero_add] at hun3 hw
            exact hun3 hn1 hw
          · intro m rest hSy
            obtain ⟨e1, hSy2⟩ := copyAvail_member size L hSy (by rw [Nat.mul_comm]; omega)
            obtain ⟨m2, hmrf, hSy3⟩ := refill_member hSy2 cR hR2 hge2 hnbuf2 hnr2 hp2 hsl2
              (tr ++ rest)
            obtain ⟨m3, hmrun, hSy4⟩ := hmem3 m2 rest hSy3
            refine ⟨m3, ?_, hSy4⟩
            rw [BFileReadLoop]
            rw [if_neg h0, if_neg h1]
            simp only []
            rw [if_neg (by rw [hSy2.eof]; exact he), e1, cnb, List.append_assoc, hmrf]
            simp only [hSy3.n, hSy3.p]
            simp only [cnm, cnr, cptr]
            rw [hmrun, hstep]
            simp [Nat.add_mul, slice_add, Nat.add_assoc]

/-! ## One process: `BFileRead` -/

theorem BFileRead_spec {data : List Byte} {lp : Nat} {bf : BFILE} (hR : Rep data lp bf)
    (fuel size nmemb : Nat) (hs : 1 ≤ size) (hsz : size ≤ bf.nbuf) (hf : nmemb + 2 ≤ fuel)
    (wire : List Msg) :
    ∃ bf2 tr, BFileRead fuel size nmemb bf wire
        = .ok (wholeCount data lp size nmemb,
               slice data lp (wholeCount data lp size nmemb * size), bf2, wire ++ tr)
      ∧ Rep data (lp + wholeCount data lp size nmemb * size) bf2
      ∧ bf2.nbuf = bf.nbuf ∧ bf2.nr = bf.nr
      ∧ (wholeCount data lp size nmemb < nmemb → bf2.eof = true)
      ∧ (bf.eof = true → bf2.eof = true)
      ∧ (nmemb = 1 → wholeCount data lp size nmemb = 1 →
          size ≤ bf2.p ∧ slice bf2.buf (bf2.p - size) size = slice data lp size)
      ∧ ∀ (m : BFILE) (rest : List Msg), Sync bf m →
          ∃ m2, BFileRead fuel size nmemb m (tr ++ rest)
              = .ok (wholeCount data lp size nmemb,
                     slice data lp (wholeCount data lp size nmemb * size), m2, rest)
            ∧ Sync bf2 m2 := by
  obtain ⟨bf2, tr, h1, h2, h3, h4, h5, h6, h7, h8⟩ :=
    @readLoop_spec data size hs fuel
      { ptr := [], nmemb := nmemb, nb := bf.n - bf.p, n := (bf.n - bf.p) / size, nread := 0 }
      bf lp wire hR hsz rfl rfl (Or.inl hf)
  have hnr := hR.nr
  refine ⟨bf2, tr, ?_, h2, h3, h4, h5, h6, h7, ?_⟩
  · unfold BFileRead
    rw [if_neg (by omega), if_neg (by omega), if_neg (by omega)]
    simpa using h1
  · intro m rest hS
    obtain ⟨m2, hm, hS2⟩ := h8 m rest hS
    refine ⟨m2, ?_, hS2⟩
    unfold BFileRead
    rw [if_neg (by rw [hS.nr]; omega), if_neg (by rw [hS.nbuf]; omega), if_neg (by omega)]
    rw [hS.n, hS.p]
    simpa using hm

/-! ## Groups -/

theorem runOthers_ok {ι β : Type} (call : ι → List Msg → Except Fault (β × List Msg))
    (tr : List Msg) (R : ι → β → Prop) :
    ∀ xs : List ι, (∀ x ∈ xs, ∃ b, call x tr = .ok (b, []) ∧ R x b) →
      ∃ bs, runOthers call tr xs = .ok bs ∧ List.Forall₂ R xs bs := by
  intro xs
  induction xs with
  | nil => intro _; exact ⟨[], rfl, List.Forall₂.nil⟩
  | cons x xs ih =>
    intro h
    obtain ⟨b, hb, hRb⟩ := h x (List.mem_cons_self _ _)
    obtain ⟨bs, hbs, hF⟩ := ih (fun y hy => h y (List.mem_cons_of_mem _ hy))
    refine ⟨b :: bs, ?_, List.Forall₂.cons hRb hF⟩
    simp [runOthers, hb, hbs]

theorem forall₂_const {ι β : Type} {P : β → Prop} {xs : List ι} {bs : List β}
    (h : List.Forall₂ (fun _ b => P b) xs bs) : bs.length = xs.length ∧ ∀ b ∈ bs, P b := by
  induction h with
  | nil => simp
  | cons hab _ ih =>
    refine ⟨by simp [ih.1], ?_⟩
    intro b hb
    rcases List.mem_cons.1 hb with rfl | hb
    · exact hab
    · exact ih.2 b hb

/-- A call that returns `a` on the origin and, against the origin's messages,
`a` on every other member, returns `a` everywhere. -/
theorem collective_ok {α : Type}
    (call : BFILE → List Msg → Except Fault (α × BFILE × List Msg)) (g : Group) (a : α)
    (o2 : BFILE) (tr : List Msg) (Q : BFILE → Prop)
    (ho : call g.origin [] = .ok (a, o2, tr))
    (hm : ∀ m ∈ g.others, ∃ m2, call m tr = .ok (a, m2, []) ∧ Q m2) :
    ∃ ms2, collective call g = .ok (a, List.replicate g.others.length a, ⟨o2, ms2⟩)
      ∧ ms2.length = g.others.length ∧ ∀ m2 ∈ ms2, Q m2 := by
  obtain ⟨bs, hbs, hF⟩ := runOthers_ok
    (fun m w => match call m w with
      | .error e => .error e
      | .ok (b, m2, w2) => .ok ((b, m2), w2)) tr
    (fun (_ : BFILE) (b : α × BFILE) => b.1 = a ∧ Q b.2) g.others
    (by
      intro m hmem
      obtain ⟨m2, h1, h2⟩ := hm m hmem
      exact ⟨(a, m2), by simp [h1], rfl, h2⟩)
  obtain ⟨hlen, hall⟩ := forall₂_const hF
  refine ⟨bs.map Prod.snd, ?_, by simp [hlen], ?_⟩
  · unfold collective
    rw [ho]
    simp only []
    rw [hbs]
    simp only []
    have : bs.map Prod.fst = List.replicate g.others.length a := by
      rw [← hlen]
      apply List.eq_replicate_iff.2
      refine ⟨by simp, ?_⟩
      intro b hb
      obtain ⟨x, hx, rfl⟩ := List.mem_map.1 hb
      exact (hall x hx).1
    rw [this]
  · intro m2 hm2
    obtain ⟨x, hx, rfl⟩ := List.mem_map.1 hm2
    exact (hall x hx).2

/-! ## One process: `BFileGetLine` -/

theorem scanLine_le (xs : List Byte) : scanLine xs ≤ xs.length := by
  induction xs with
  | nil => simp [scanLine]
  | cons b bs ih =>
    unfold scanLine
    split
    · simp
    · simp; omega

theorem lineOf_eq (k : Nat) (xs : List Byte) :
    lineOf k xs = (xs.take k).take (scanLine (xs.take k)) := by
  induction k generalizing xs with
  | zero => simp [lineOf, scanLine]
  | succ k ih =>
    cases xs with
    | nil => simp [lineOf, scanLine]
    | cons b bs =>
      by_cases hb : b = NL
      · simp [lineOf, scanLine, hb]
      · simp [lineOf, scanLine, hb, ih bs, Nat.add_comm 1]

theorem lineOf_length (k : Nat) (xs : List Byte) :
    (lineOf k xs).length = scanLine (xs.take k) := by
  rw [lineOf_eq, List.length_take]
  exact Nat.min_eq_left (scanLine_le _)

theorem lineOf_eq_nil (k : Nat) (xs : List Byte) (hk : 1 ≤ k) :
    lineOf k xs = [] ↔ xs = [] := by
  cases k with
  | zero => omega
  | succ k =>
    cases xs with
    | nil => simp [lineOf]
    | cons b bs =>
      by_cases hb : b = NL <;> simp [lineOf, hb]

theorem slice_min_eq (data : List Byte) (lp k : Nat) :
    slice data lp (min k (data.length - lp)) = (data.drop lp).take k := by
  unfold slice
  rcases Nat.le_total k (data.length - lp) with h | h
  · rw [Nat.min_eq_left h]
  · rw [Nat.min_eq_right h, List.take_of_length_le (by simp),
      List.take_of_length_le (by simpa using h)]

/-- Stepping the cursor back over `k` bytes that are still in the buffer. -/
theorem Rep.stepBack {data : List Byte} {lp k : Nat} {bf : BFILE} (h : Rep data (lp + k) bf)
    (hk : k ≤ bf.p) (hs : slice bf.buf (bf.p - k) k = slice data lp k) :
    Rep data lp { bf with p := bf.p - k } := by
  obtain ⟨hnr, hmr, hpn, hnn, hlen, hfile, hpos, hheld, hfin⟩ := h
  have e : bf.n - (bf.p - k) = k + (bf.n - bf.p) := by omega
  refine ⟨hnr, hmr, ?_, hnn, hlen, ?_, ?_, ?_, ?_⟩
  · show bf.p - k ≤ bf.n
    omega
  · show bf.f = some ⟨data, lp + (bf.n - (bf.p - k))⟩
    rw [hfile]; congr 2; omega
  · show lp + (bf.n - (bf.p - k)) ≤ data.length
    omega
  · show slice bf.buf (bf.p - k) (bf.n - (bf.p - k)) = slice data lp (bf.n - (bf.p - k))
    rw [e, slice_add, slice_add, hs, ← hheld]
    congr 2
    omega
  · show bf.eof = true → lp + (bf.n - (bf.p - k)) = data.length
    intro he; have := hfin he; omega

/-- Lines 338-341: the reset of a drained buffer loses nothing. -/
theorem Rep.reset {data : List Byte} {lp : Nat} {bf : BFILE} (h : Rep data lp bf)
    (hp : bf.p = bf.nbuf) : Rep data lp { bf with p := 0, n := 0 } := by
  obtain ⟨hnr, hmr, hpn, hnn, hlen, hfile, hpos, hheld, hfin⟩ := h
  have e : bf.n - bf.p = 0 := by omega
  rw [e] at hfile hpos hfin
  exact ⟨hnr, hmr, Nat.le_refl _, Nat.zero_le _, hlen, hfile, hpos, by simp [slice], hfin⟩

theorem finishLine_origin {data : List Byte} {lp : Nat} {bf : BFILE} (hR : Rep data lp bf)
    (s : List Byte) (sz : Nat) (hsz : sz ≤ bf.n - bf.p) (hs : s.take sz = slice data lp sz) :
    (finishLine s sz bf).1 = (slice data lp sz).take (scanLine (slice data lp sz))
      ∧ Rep data (lp + scanLine (slice data lp sz)) (finishLine s sz bf).2
      ∧ (finishLine s sz bf).2.nbuf = bf.nbuf ∧ (finishLine s sz bf).2.nr = bf.nr
      ∧ ∃ pre, Rep data (lp + scanLine (slice data lp sz)) pre
          ∧ (finishLine s sz bf).2 = resetDrained pre := by
  have hi : scanLine (s.take sz) ≤ sz := by
    have := scanLine_le (s.take sz)
    simp at this
    omega
  obtain ⟨hA, _⟩ := hR.advance (scanLine (s.take sz)) (by omega)
  have hpre : ∃ pre, Rep data (lp + scanLine (slice data lp sz)) pre
      ∧ (finishLine s sz bf).2 = resetDrained pre :=
    ⟨consumeLine s sz bf, by rw [← hs]; exact hA, rfl⟩
  refine ⟨?_, ?_, ?_, ?_, hpre⟩
  · unfold finishLine
    simp only []
    rw [← hs, List.take_take, Nat.min_eq_left hi]
  · unfold finishLine
    simp only []
    rw [← hs]
    split
    · rename_i hp
      exact hA.reset hp
    · exact hA
  · unfold finishLine
    simp only []
    split <;> rfl
  · unfold finishLine
    simp only []
    split <;> rfl

theorem finishLine_member {o m : BFILE} (h : Sync o m) (s : List Byte) (sz : Nat) :
    (finishLine s sz m).1 = (finishLine s sz o).1
      ∧ Sync (finishLine s sz o).2 (finishLine s sz m).2 := by
  have hA := h.stepCursor (scanLine (s.take sz))
  obtain ⟨h1, h2, h3, h4, h5, h6, h7, h8, h9⟩ := hA
  unfold finishLine
  simp only []
  refine ⟨trivial, ?_⟩
  have hc : (m.p + scanLine (s.take sz) = m.nbuf) ↔ (o.p + scanLine (s.take sz) = o.nbuf) := by
    rw [h.p, h.nbuf]
  by_cases hp : o.p + scanLine (s.take sz) = o.nbuf
  · rw [if_pos hp, if_pos (hc.2 hp)]
    exact ⟨h1, h2, h3, h4, rfl, rfl, h7, by simp [slice], h9⟩
  · rw [if_neg hp, if_neg (fun hh => hp (hc.1 hh))]
    exact ⟨h1, h2, h3, h4, h5, h6, h7, h8, h9⟩

theorem toSizeT_pred (size1 : Int) (h2 : 2 ≤ size1) :
    toSizeT (size1 - 1) = (size1 - 1).toNat ∧ 1 ≤ (size1 - 1).toNat := by
  unfold toSizeT
  rw [if_pos (by omega)]
  exact ⟨rfl, by omega⟩

theorem wholeCount_one (data : List Byte) (lp k : Nat) (hk : 1 ≤ k) :
    (k ≤ data.length - lp → wholeCount data lp k 1 = 1)
      ∧ (data.length - lp < k → wholeCount data lp k 1 = 0) := by
  unfold wholeCount
  constructor
  · intro h
    have : 1 ≤ (data.length - lp) / k := (Nat.le_div_iff_mul_le (by omega)).2 (by omega)
    omega
  · intro h
    rw [Nat.div_eq_of_lt h]
    rfl

theorem BFileGetLine_spec {data : List Byte} {lp : Nat} {bf : BFILE} (hR : Rep data lp bf)
    (fuel : Nat) (size1 : Int) (h2 : 2 ≤ size1) (hsz : size1 ≤ bf.nbuf + 1) (hf : 3 ≤ fuel)
    (wire : List Msg) :
    ∃ bf2 tr, BFileGetLine fuel size1 bf wire
        = .ok (if lineAt data lp size1 = [] then none else some (lineAt data lp size1),
               bf2, wire ++ tr)
      ∧ Rep data (lp + (lineAt data lp size1).length) bf2
      ∧ bf2.nbuf = bf.nbuf ∧ bf2.nr = bf.nr
      ∧ (lineAt data lp size1 = [] → bf2.eof = true ∧ bf2.n = bf2.p)
      ∧ (lineAt data lp size1 ≠ [] →
          ∃ pre, Rep data (lp + (lineAt data lp size1).length) pre ∧ bf2 = resetDrained pre)
      ∧ ∀ (m : BFILE) (rest : List Msg), Sync bf m →
          ∃ m2, BFileGetLine fuel size1 m (tr ++ rest)
              = .ok (if lineAt data lp size1 = [] then none else some (lineAt data lp size1),
                     m2, rest)
            ∧ Sync bf2 m2 := by
  obtain ⟨hk, hk1⟩ := toSizeT_pred size1 h2
  generalize hkd : (size1 - 1).toNat = k at *
  have hknb : k ≤ bf.nbuf := by omega
  have hnr := hR.nr
  obtain ⟨bf1, tr, hrd, hR1, hnbuf1, hnr1, heof1, _, hback, hmem⟩ :=
    BFileRead_spec hR fuel k 1 hk1 hknb (by omega) wire
  obtain ⟨hw1, hw0⟩ := wholeCount_one data lp k hk1
  have hline : lineAt data lp size1
      = (slice data lp (min k (data.length - lp))).take
          (scanLine (slice data lp (min k (data.length - lp)))) := by
    unfold lineAt
    rw [hkd, lineOf_eq, slice_min_eq]
  have hlen : (lineAt data lp size1).length
      = scanLine (slice data lp (min k (data.length - lp))) := by
    unfold lineAt
    rw [hkd, lineOf_length, slice_min_eq]
  have hnil : lineAt data lp size1 = [] ↔ data.length - lp = 0 := by
    unfold lineAt
    rw [hkd, lineOf_eq_nil _ _ hk1]
    simp [List.drop_eq_nil_iff]
    omega
  by_cases hc : k ≤ data.length - lp
  · -- one whole element of `size1 - 1` bytes was read
    have hmin : min k (data.length - lp) = k := Nat.min_eq_left hc
    rw [hmin] at hline hlen
    rw [hw1 hc] at hrd hR1 hmem
    rw [Nat.one_mul] at hrd hR1 hmem
    obtain ⟨hpk, hsl⟩ := hback rfl (hw1 hc)
    have hRb := hR1.stepBack hpk hsl
    have hslen : (slice data lp k).length = k := by rw [slice_length]; omega
    have hsz2 : k ≤ bf1.n - (bf1.p - k) := by have := hR1.pn; omega
    have hfin := finishLine_origin hRb (slice data lp k) k hsz2
      (by rw [List.take_of_length_le (by omega)])
    obtain ⟨f1, f2, f3, f4, f5⟩ := hfin
    have hne : ¬ lineAt data lp size1 = [] := by rw [hnil]; omega
    refine ⟨(finishLine (slice data lp k) k { bf1 with p := bf1.p - k }).2, tr,
      ?_, ?_, ?_, ?_, fun hh => absurd hh hne, fun _ => by rw [hlen]; exact f5, ?_⟩
    · unfold BFileGetLine
      rw [if_neg (by omega)]
      simp only []
      rw [hk, hrd]
      simp only [hkd]
      simp only [if_true]
      rw [if_neg hne, hline, ← f1]
    · rw [hlen]; exact f2
    · rw [f3, hnbuf1]
    · rw [f4, hnr1]
    · intro m rest hS
      obtain ⟨m1, hmr, hS1⟩ := hmem m rest hS
      have hSb : Sync { bf1 with p := bf1.p - k } { m1 with p := m1.p - k } := by
        obtain ⟨s1, s2, s3, s4, s5, s6, s7, s8, s9⟩ := hS1
        exact ⟨s1, s2, s3, s4, by show m1.p - k = bf1.p - k; rw [s5], s6, s7, s8, s9⟩
      obtain ⟨g1, g2⟩ := finishLine_member hSb (slice data lp k) k
      refine ⟨(finishLine (slice data lp k) k { m1 with p := m1.p - k }).2, ?_, g2⟩
      unfold BFileGetLine
      rw [if_neg (by rw [hS.nr]; omega)]
      simp only []
      rw [hk, hmr]
      simp only [hkd]
      simp only [if_true]
      rw [if_neg hne, hline, ← f1, g1]
  · -- fewer than `size1 - 1` bytes are left: the read returns 0 at end of file
    have hlt : data.length - lp < k := by omega
    have hmin : min k (data.length - lp) = data.length - lp := Nat.min_eq_right (by omega)
    rw [hmin] at hline hlen
    rw [hw0 hlt] at hrd hR1 hmem heof1
    rw [Nat.zero_mul] at hrd hR1 hmem
    rw [Nat.add_zero] at hR1
    have he := heof1 (by omega)
    have hrem : bf1.n - bf1.p = data.length - lp := by have := hR1.fin he; omega
    by_cases hz : data.length - lp = 0
    · have hnl : lineAt data lp size1 = [] := hnil.2 hz
      refine ⟨bf1, tr, ?_, ?_, hnbuf1, hnr1,
        fun _ => ⟨he, by have := hR1.pn; omega⟩, fun hh => absurd hnl hh, ?_⟩
      · unfold BFileGetLine
        rw [if_neg (by omega)]
        simp only []
        rw [hk, hrd]
        simp only [hkd]
        simp [hrem, hz, hnl]
      · rw [hnl]; exact hR1
      · intro m rest hS
        obtain ⟨m1, hmr, hS1⟩ := hmem m rest hS
        refine ⟨m1, ?_, hS1⟩
        unfold BFileGetLine
        rw [if_neg (by rw [hS.nr]; omega)]
        simp only []
        rw [hk, hmr]
        simp only [hkd]
        simp [hS1.n, hS1.p, hrem, hz, hnl]
    · have hne : ¬ lineAt data lp size1 = [] := by rw [hnil]; exact hz
      have hheld := hR1.held
      rw [hrem] at hheld
      have hslen : (slice data lp (data.length - lp)).length = data.length - lp := by
        rw [slice_length]; omega
      obtain ⟨f1, f2, f3, f4, f5⟩ := finishLine_origin hR1
        (slice bf1.buf bf1.p (data.length - lp)) (data.length - lp) (by omega)
        (by rw [hheld, List.take_of_length_le (by omega)])
      refine ⟨(finishLine (slice bf1.buf bf1.p (data.length - lp)) (data.length - lp) bf1).2,
        tr, ?_, ?_, ?_, ?_, fun hh => absurd hh hne, fun _ => by rw [hlen]; exact f5, ?_⟩
      · unfold BFileGetLine
        rw [if_neg (by omega)]
        simp only []
        rw [hk, hrd]
        simp only [hkd]
        simp only [hrem]
        rw [if_neg (by omega), if_neg hz, if_neg hne, hline, ← f1]
      · rw [hlen]; exact f2
      · rw [f3, hnbuf1]
      · rw [f4, hnr1]
      · intro m rest hS
        obtain ⟨m1, hmr, hS1⟩ := hmem m rest hS
        have hsm := hS1.slice_eq (data.length - lp) (by have := hR1.pn; omega)
        obtain ⟨g1, g2⟩ := finishLine_member hS1
          (slice bf1.buf bf1.p (data.length - lp)) (data.length - lp)
        refine ⟨(finishLine (slice bf1.buf bf1.p (data.length - lp)) (data.length - lp) m1).2,
          ?_, g2⟩
        unfold BFileGetLine
        rw [if_neg (by rw [hS.nr]; omega)]
        simp only []
        rw [hk, hmr]
        have hrm : m1.n - m1.p = data.length - lp := by rw [hS1.n, hS1.p]; exact hrem
        simp only [hkd, hrm]
        rw [if_neg (by omega), if_neg hz, if_neg hne, hline, ← f1, hsm, g1]

/-! ## One process: `BFileRewind` and `BFileOpen` -/

theorem BFileRewind_spec {data : List Byte} {lp : Nat} {bf : BFILE} (hR : Rep data lp bf) :
    ∃ bf2, BFileRewind bf = .ok bf2 ∧ Rep data 0 bf2 ∧ bf2.nbuf = bf.nbuf ∧ bf2.nr = bf.nr
      ∧ ∀ m : BFILE, Sync bf m → ∃ m2, BFileRewind m = .ok m2 ∧ Sync bf2 m2 := by
  obtain ⟨hnr, hmr, hpn, hnn, hlen, hfile, hpos, hheld, hfin⟩ := hR
  refine ⟨{ bf with p := 0, n := 0, eof := false, f := some ⟨data, 0⟩ }, ?_, ?_, rfl, rfl, ?_⟩
  · unfold BFileRewind
    rw [if_neg (by omega)]
    simp [hmr, hfile, rewind]
  · exact ⟨hnr, hmr, Nat.le_refl _, Nat.zero_le _, hlen, rfl, Nat.zero_le _, by simp [slice],
      by intro h; cases h⟩
  · intro m hS
    obtain ⟨s1, s2, s3, s4, s5, s6, s7, s8, s9⟩ := hS
    refine ⟨{ m with p := 0, n := 0, eof := false }, ?_, ?_⟩
    · unfold BFileRewind
      rw [if_neg (by omega)]
      simp [s1]
    · exact ⟨s1, s2, s3, s4, rfl, rfl, rfl, by simp [slice], s9⟩

theorem malloc_length (heap : Nat → Byte) (nbuf : Nat) : (malloc heap nbuf).length = nbuf := by
  simp [malloc]

theorem openHandle_rep (data : List Byte) (nbuf nproc : Nat) (heap : Nat → Byte)
    (hn : 1 < nproc) : Rep data 0 (openHandle data nbuf nproc 0 heap) :=
  ⟨hn, rfl, Nat.le_refl _, Nat.zero_le _, malloc_length _ _, rfl, Nat.zero_le _,
    by simp [slice, openHandle], by intro h; cases h⟩

theorem openHandle_sync (data : List Byte) (nbuf nproc r : Nat) (heap heap2 : Nat → Byte)
    (hr : r ≠ 0) :
    Sync (openHandle data nbuf nproc 0 heap) (openHandle data nbuf nproc r heap2) :=
  ⟨hr, rfl, rfl, malloc_length _ _, rfl, rfl, rfl, by simp [slice, openHandle],
    by simp [openHandle, hr]⟩

/-- The origin's open in a buffered world of more than one process. -/
theorem BFileOpen_origin (fs : Option (List Byte)) (nb : Int) (RBUFL nproc : Nat)
    (heap : Nat → Byte) (hc : openCap nb RBUFL ≠ 0) (hn : 1 < nproc) :
    BFileOpen fs nb RBUFL 0 nproc heap []
      = .ok (fs.map (fun d => openHandle d (openCap nb RBUFL) nproc 0 heap),
             [Msg.int (if fs = none then -1 else 0)]) := by
  unfold openCap at hc
  cases fs with
  | none => simp [BFileOpen, hc, MPI_Bcast, hn]
  | some d => simp [BFileOpen, hc, MPI_Bcast, hn, openHandle, openCap]

/-- The open of a non-origin rank against the origin's message: it fails
exactly when the origin's did. -/
theorem BFileOpen_member (fs fs2 : Option (List Byte)) (nb : Int) (RBUFL nproc r : Nat)
    (heap : Nat → Byte) (hc : openCap nb RBUFL ≠ 0) (hn : 1 < nproc) (hr : r ≠ 0) :
    BFileOpen fs2 nb RBUFL r nproc heap [Msg.int (if fs = none then -1 else 0)]
      = .ok (fs.map (fun d => openHandle d (openCap nb RBUFL) nproc r heap), []) := by
  unfold openCap at hc
  cases fs with
  | none => simp [BFileOpen, hc, MPI_Bcast, hn, hr]
  | some d => simp [BFileOpen, hc, MPI_Bcast, hn, hr, openHandle, openCap]

/-! ## Group calls -/

theorem Group.read_spec {data : List Byte} {lp : Nat} {g : Group} (hG : GInv data lp g)
    (fuel size nmemb : Nat) (hs : 1 ≤ size) (hsz : size ≤ g.origin.nbuf)
    (hf : nmemb + 2 ≤ fuel) :
    ∃ g2, Group.read fuel size nmemb g
        = .ok ((wholeCount data lp size nmemb,
                slice data lp (wholeCount data lp size nmemb * size)),
               List.replicate g.others.length
                 (wholeCount data lp size nmemb,
                  slice data lp (wholeCount data lp size nmemb * size)), g2)
      ∧ GInv data (lp + wholeCount data lp size nmemb * size) g2
      ∧ g2.origin.nbuf = g.origin.nbuf ∧ g2.others.length = g.others.length
      ∧ (wholeCount data lp size nmemb < nmemb → g2.origin.eof = true)
      ∧ (g.origin.eof = true → g2.origin.eof = true) := by
  obtain ⟨hR, hSy⟩ := hG
  obtain ⟨o2, tr, h1, h2, h3, _, h5, h6, _, h8⟩ :=
    BFileRead_spec hR fuel size nmemb hs hsz hf []
  obtain ⟨ms2, hc, hlen, hall⟩ := collective_ok
    (fun bf w =>
      match BFileRead fuel size nmemb bf w with
      | .error e => .error e
      | .ok (c, d, bf2, w2) => .ok ((c, d), bf2, w2)) g
    (wholeCount data lp size nmemb, slice data lp (wholeCount data lp size nmemb * size))
    o2 tr (fun m2 => Sync o2 m2)
    (by simp only []; rw [h1]; rfl)
    (by
      intro m hm
      obtain ⟨m2, hm2, hS2⟩ := h8 m [] (hSy m hm)
      rw [List.append_nil] at hm2
      exact ⟨m2, by simp only []; rw [hm2], hS2⟩)
  exact ⟨⟨o2, ms2⟩, hc, ⟨h2, hall⟩, h3, hlen, h5, h6⟩

theorem Group.getLine_spec {data : List Byte} {lp : Nat} {g : Group} (hG : GInv data lp g)
    (fuel : Nat) (size1 : Int) (h2 : 2 ≤ size1) (hsz : size1 ≤ g.origin.nbuf + 1)
    (hf : 3 ≤ fuel) :
    ∃ g2, Group.getLine fuel size1 g
        = .ok (if lineAt data lp size1 = [] then none else some (lineAt data lp size1),
               List.replicate g.others.length
                 (if lineAt data lp size1 = [] then none else some (lineAt data lp size1)), g2)
      ∧ GInv data (lp + (lineAt data lp size1).length) g2
      ∧ g2.origin.nbuf = g.origin.nbuf ∧ g2.others.length = g.others.length
      ∧ (lineAt data lp size1 = [] → g2.origin.eof = true ∧ g2.origin.n = g2.origin.p) := by
  obtain ⟨hR, hSy⟩ := hG
  obtain ⟨o2, tr, h1, hR2, h3, _, h7, _, h8⟩ := BFileGetLine_spec hR fuel size1 h2 hsz hf []
  obtain ⟨ms2, hc, hlen, hall⟩ := collective_ok (BFileGetLine fuel size1) g
    (if lineAt data lp size1 = [] then none else some (lineAt data lp size1))
    o2 tr (fun m2 => Sync o2 m2) h1
    (by
      intro m hm
      obtain ⟨m2, hm2, hS2⟩ := h8 m [] (hSy m hm)
      rw [List.append_nil] at hm2
      exact ⟨m2, hm2, hS2⟩)
  exact ⟨⟨o2, ms2⟩, hc, ⟨hR2, hall⟩, h3, hlen, h7⟩

theorem Group.rewind_spec {data : List Byte} {lp : Nat} {g : Group} (hG : GInv data lp g) :
    ∃ g2, Group.rewind g = .ok ((), List.replicate g.others.length (), g2)
      ∧ GInv data 0 g2
      ∧ g2.origin.nbuf = g.origin.nbuf ∧ g2.others.length = g.others.length := by
  obtain ⟨hR, hSy⟩ := hG
  obtain ⟨o2, h1, hR2, h3, _, h8⟩ := BFileRewind_spec hR
  obtain ⟨ms2, hc, hlen, hall⟩ := collective_ok
    (fun bf w =>
      match BFileRewind bf with
      | .error e => .error e
      | .ok bf2 => .ok ((), bf2, w)) g () o2 [] (fun m2 => Sync o2 m2)
    (by simp only []; rw [h1])
    (by
      intro m hm
      obtain ⟨m2, hm2, hS2⟩ := h8 m (hSy m hm)
      exact ⟨m2, by simp only []; rw [hm2], hS2⟩)
  exact ⟨⟨o2, ms2⟩, hc, ⟨hR2, hall⟩, h3, hlen⟩

theorem forall₂_eq_map {ι β : Type} (f : ι → β) {xs : List ι} {bs : List β}
    (h : List.Forall₂ (fun x b => b = f x) xs bs) : bs = xs.map f := by
  induction h with
  | nil => rfl
  | cons hab _ ih => rw [hab, ih]; rfl

/-- The buffered open of a world of more than one process, on every rank. -/
theorem openAll_buffered (fs : Option (List Byte)) (nb : Int) (RBUFL nproc : Nat)
    (heap : Nat → Nat → Byte) (hc : openCap nb RBUFL ≠ 0) (hn : 1 < nproc) :
    openAll fs nb RBUFL nproc heap
      = .ok (fs.map (fun d => openHandle d (openCap nb RBUFL) nproc 0 (heap 0)),
             (List.range' 1 (nproc - 1)).map
               (fun r => fs.map (fun d => openHandle d (openCap nb RBUFL) nproc r (heap r)))) := by
  obtain ⟨bs, hbs, hF⟩ := runOthers_ok
    (fun r w => BFileOpen fs nb RBUFL r nproc (heap r) w)
    [Msg.int (if fs = none then -1 else 0)]
    (fun r b => b = fs.map (fun d => openHandle d (openCap nb RBUFL) nproc r (heap r)))
    (List.range' 1 (nproc - 1))
    (by
      intro r hr
      have hr0 : r ≠ 0 := by
        have := (List.mem_range'_1.1 hr).1
        omega
      exact ⟨_, BFileOpen_member fs fs nb RBUFL nproc r (heap r) hc hn hr0, rfl⟩)
  unfold openAll
  rw [BFileOpen_origin fs nb RBUFL nproc (heap 0) hc hn]
  simp only []
  rw [hbs, forall₂_eq_map _ hF]

theorem BFileOpen_multi (fs : Option (List Byte)) (nb : Int) (RBUFL nproc : Nat)
    (heap : Nat → Byte) (o : BFILE) (tr : List Msg)
    (h : BFileOpen fs nb RBUFL 0 nproc heap [] = .ok (some o, tr)) (hnr : 1 < o.nr) :
    openCap nb RBUFL ≠ 0 ∧ 1 < nproc := by
  by_cases hc : openCap nb RBUFL = 0
  · exfalso
    unfold openCap at hc
    cases fs with
    | none => simp [BFileOpen, hc] at h
    | some d =>
      simp [BFileOpen, hc] at h
      rw [← h.1] at hnr
      simp at hnr
  · refine ⟨hc, ?_⟩
    by_contra hn
    unfold openCap at hc
    cases fs with
    | none => simp [BFileOpen, hc, hn] at h
    | some d =>
      simp [BFileOpen, hc, hn] at h
      rw [← h.1] at hnr
      simp at hnr
      omega

theorem openAll_inv {data : List Byte} {nb : Int} {RBUFL nproc : Nat}
    {heap : Nat → Nat → Byte} {o : BFILE} {ms : List BFILE}
    (h : openAll (some data) nb RBUFL nproc heap = .ok (some o, ms.map some))
    (hnr : 1 < o.nr) :
    (openCap nb RBUFL ≠ 0 ∧ 1 < nproc)
      ∧ o = openHandle data (openCap nb RBUFL) nproc 0 (heap 0)
      ∧ ms = (List.range' 1 (nproc - 1)).map
          (fun r => openHandle data (openCap nb RBUFL) nproc r (heap r)) := by
  have hm : openCap nb RBUFL ≠ 0 ∧ 1 < nproc := by
    unfold openAll at h
    cases h0 : BFileOpen (some data) nb RBUFL 0 nproc (heap 0) [] with
    | error e => rw [h0] at h; simp at h
    | ok r =>
      obtain ⟨o1, tr⟩ := r
      rw [h0] at h
      simp only [] at h
      cases h1 : runOthers (fun r w => BFileOpen (some data) nb RBUFL r nproc (heap r) w) tr
          (List.range' 1 (nproc - 1)) with
      | error e => rw [h1] at h; simp at h
      | ok bs =>
        rw [h1] at h
        simp only [Except.ok.injEq, Prod.mk.injEq] at h
        rw [h.1] at h0
        exact BFileOpen_multi _ _ _ _ _ _ _ h0 hnr
  refine ⟨hm, ?_⟩
  rw [openAll_buffered _ _ _ _ _ hm.1 hm.2] at h
  simp only [Option.map_some', Except.ok.injEq, Prod.mk.injEq, Option.some.injEq] at h
  refine ⟨h.1.symm, ?_⟩
  have h2 : List.map some ((List.range' 1 (nproc - 1)).map
      (fun r => openHandle data (openCap nb RBUFL) nproc r (heap r))) = List.map some ms := by
    rw [List.map_map]; exact h.2
  exact (List.map_injective_iff.2 (Option.some_injective _) h2).symm

theorem opened_inv {data : List Byte} {nb : Int} {RBUFL nproc : Nat}
    {heap : Nat → Nat → Byte} {o : BFILE} {ms : List BFILE}
    (h : openAll (some data) nb RBUFL nproc heap = .ok (some o, ms.map some))
    (hnr : 1 < o.nr) : GInv data 0 ⟨o, ms⟩ := by
  obtain ⟨⟨hc, hn⟩, ho, hms⟩ := openAll_inv h hnr
  subst ho
  subst hms
  refine ⟨openHandle_rep _ _ _ _ hn, ?_⟩
  intro m hm
  obtain ⟨r, hr, rfl⟩ := List.mem_map.1 hm
  have hr0 : r ≠ 0 := by
    have := (List.mem_range'_1.1 hr).1
    omega
  exact openHandle_sync _ _ _ _ _ _ hr0

/-- Every reachable group state satisfies the group invariant. -/
theorem reachable_inv {data : List Byte} {g : Group} (h : Reachable data g) :
    ∃ lp, GInv data lp g := by
  induction h with
  | opened nb RBUFL nproc heap o ms hop hnr => exact ⟨0, opened_inv hop hnr⟩
  | read g g2 fuel size nmemb r rs _ hs hsz hf hrun ih =>
    obtain ⟨lp, hG⟩ := ih
    obtain ⟨g3, h3, hG3, _⟩ := Group.read_spec hG fuel size nmemb hs hsz hf
    rw [hrun] at h3
    simp only [Except.ok.injEq, Prod.mk.injEq] at h3
    rw [h3.2.2]
    exact ⟨_, hG3⟩
  | getLine g g2 fuel size1 r rs _ h2 hsz hf hrun ih =>
    obtain ⟨lp, hG⟩ := ih
    obtain ⟨g3, h3, hG3, _⟩ := Group.getLine_spec hG fuel size1 h2 hsz hf
    rw [hrun] at h3
    simp only [Except.ok.injEq, Prod.mk.injEq] at h3
    rw [h3.2.2]
    exact ⟨_, hG3⟩
  | rewind g g2 r rs _ hrun ih =>
    obtain ⟨lp, hG⟩ := ih
    obtain ⟨g3, h3, hG3, _⟩ := Group.rewind_spec hG
    rw [hrun] at h3
    simp only [Except.ok.injEq, Prod.mk.injEq] at h3
    rw [h3.2.2]
    exact ⟨_, hG3⟩

/-! ## Observations on a represented handle -/

theorem Rep.readPos_eq {data : List Byte} {lp : Nat} {bf : BFILE} (h : Rep data lp bf) :
    bf.readPos = lp := by
  unfold BFILE.readPos
  rw [h.file]
  simp

theorem Rep.unread_eq {data : List Byte} {lp : Nat} {bf : BFILE} (h : Rep data lp bf) :
    bf.unread = data.drop lp := by
  unfold BFILE.unread
  rw [h.file, h.held]
  simp only [slice]
  rw [← List.drop_drop, List.take_append_drop]

theorem Rep.unread_length {data : List Byte} {lp : Nat} {bf : BFILE} (h : Rep data lp bf) :
    bf.unread.length = data.length - lp := by
  rw [h.unread_eq, List.length_drop]

theorem Rep.count_eq {data : List Byte} {lp : Nat} {bf : BFILE} (h : Rep data lp bf)
    (s m : Nat) : bf.count s m = wholeCount data lp s m := by
  unfold BFILE.count wholeCount
  rw [h.unread_length]

theorem wholeCount_mul_le (data : List Byte) (lp s m : Nat) :
    wholeCount data lp s m * s ≤ data.length - lp := by
  unfold wholeCount
  calc min m ((data.length - lp) / s) * s ≤ (data.length - lp) / s * s :=
        Nat.mul_le_mul_right _ (Nat.min_le_right _ _)
    _ ≤ data.length - lp := Nat.div_mul_le_self _ _

theorem freshGroup_reachable (data : List Byte) (nbuf nproc : Nat) (hc : nbuf ≠ 0)
    (hn : 1 < nproc) : Reachable data (freshGroup data nbuf nproc) := by
  have hcap : openCap (nbuf : Int) 0 = nbuf := by simp [openCap]
  have h := openAll_buffered (some data) (nbuf : Int) 0 nproc (fun _ _ => 0)
    (by rw [hcap]; exact hc) hn
  rw [hcap] at h
  refine Reachable.opened (nbuf : Int) 0 nproc (fun _ _ => 0) _ _ ?_ hn
  rw [h, List.map_map]
  rfl

/-! ## Line-oriented reads -/

theorem scanLine_eq_takeWhile (ys : List Byte) :
    ys.take (scanLine ys) = ys.take ((ys.takeWhile (fun b => decide (b ≠ NL))).length + 1) := by
  induction ys with
  | nil => simp [scanLine]
  | cons b bs ih =>
    by_cases hb : b = NL
    · simp [scanLine, hb, List.takeWhile]
    · simp [scanLine, hb, List.takeWhile, Nat.add_comm 1, ih]

theorem lineOf_eq_specLine (k : Nat) (xs : List Byte) : lineOf k xs = specLine k xs := by
  rw [lineOf_eq, scanLine_eq_takeWhile]
  rfl

theorem fgets_eq (data : List Byte) (lp : Nat) (size1 : Int) (h2 : 2 ≤ size1) :
    fgets size1 ⟨data, lp⟩
      = (if lineAt data lp size1 = [] then none else some (lineAt data lp size1),
         ⟨data, lp + (lineAt data lp size1).length⟩) := by
  unfold fgets lineAt
  rw [if_neg (by omega), if_neg (by omega)]
  simp only []
  by_cases h : lineOf (size1 - 1).toNat (List.drop lp data) = []
  · rw [if_pos h, if_pos h, h]; rfl
  · rw [if_neg h, if_neg h]

theorem lineOf_append_drop (k : Nat) (xs : List Byte) :
    lineOf k xs ++ xs.drop (lineOf k xs).length = xs := by
  induction k generalizing xs with
  | zero => simp [lineOf]
  | succ k ih =>
    cases xs with
    | nil => simp [lineOf]
    | cons b bs =>
      by_cases hb : b = NL
      · simp [lineOf, hb]
      · simp [lineOf, hb, ih bs]

theorem sampleGroup_reachable : Reachable abcFile sampleGroup :=
  Reachable.read (freshGroup abcFile 4 3) sampleGroup 3 3 1 (1, [97, 98, 99])
    [(1, [97, 98, 99]), (1, [97, 98, 99])]
    (freshGroup_reachable abcFile 4 3 (by decide) (by decide)) (by decide) (by decide)
    (by decide) rfl

/-! ## Where `Abort` can come from -/

theorem MPI_Bcast_no_abort (mr : Nat) (own : Msg) (wire : List Msg) (r : Nat) :
    MPI_Bcast mr own wire ≠ .error (.abort r) := by
  unfold MPI_Bcast
  split
  · simp
  · split <;> simp

theorem refill_no_abort (nb : Nat) (bf : BFILE) (wire : List Msg) (r : Nat) :
    refill nb bf wire ≠ .error (.abort r) := by
  intro h
  unfold refill at h
  split at h
  · rename_i e he
    simp only [Except.error.injEq] at h
    subst h
    unfold originFill at he
    split at he
    · split at he <;> simp at he
    · simp at he
  · split at h
    · rename_i e he
      simp only [Except.error.injEq] at h
      subst h
      unfold bcastN at he
      split at he
      · rename_i e2 he2
        simp only [Except.error.injEq] at he
        subst he
        exact MPI_Bcast_no_abort _ _ _ _ he2
      · simp at he
      · simp at he
    · split at h
      · rename_i e he
        simp only [Except.error.injEq] at h
        subst h
        unfold bcastBuf at he
        split at he
        · split at he
          · rename_i e2 he2
            simp only [Except.error.injEq] at he
            subst he
            exact MPI_Bcast_no_abort _ _ _ _ he2
          · simp at he
          · split at he <;> simp at he
        · simp at he
      · unfold bcastEof at h
        split at h
        · rename_i e2 he2
          simp only [Except.error.injEq] at h
          subst h
          exact MPI_Bcast_no_abort _ _ _ _ he2
        · simp at h
        · simp at h

theorem BFileReadLoop_no_abort (size r : Nat) :
    ∀ (fuel : Nat) (L : Locals) (bf : BFILE) (wire : List Msg),
      BFileReadLoop fuel size L bf wire ≠ .error (.abort r) := by
  intro fuel
  induction fuel with
  | zero => intro L bf wire; simp [BFileReadLoop]
  | succ fuel ih =>
    intro L bf wire h
    rw [BFileReadLoop] at h
    split at h
    · simp at h
    · split at h
      · simp at h
      · simp only [] at h
        split at h
        · simp at h
        · split at h
          · rename_i e he
            simp only [Except.error.injEq] at h
            subst h
            exact refill_no_abort _ _ _ _ he
          · exact ih _ _ _ h

/-- On a handle of a group of more than one process `BFileRead` reaches
`Abort` exactly when the element size exceeds the capacity, and then with
code 1. -/
theorem BFileRead_abort_iff (bf : BFILE) (fuel size nmemb r : Nat) (wire : List Msg)
    (hnr : 1 < bf.nr) :
    BFileRead fuel size nmemb bf wire = .error (.abort r) ↔ bf.nbuf < size ∧ r = 1 := by
  unfold BFileRead
  rw [if_neg (by omega)]
  by_cases h : size > bf.nbuf
  · rw [if_pos h]
    constructor
    · intro he
      simp only [Except.error.injEq, Fault.abort.injEq] at he
      exact ⟨h, he.symm⟩
    · intro he
      rw [he.2]
  · rw [if_neg h]
    constructor
    · intro he
      exfalso
      split at he
      · simp at he
      · exact BFileReadLoop_no_abort _ _ _ _ _ _ he
    · intro he
      omega

theorem runOthers_error {ι β : Type} (call : ι → List Msg → Except Fault (β × List Msg))
    (tr : List Msg) (e : Fault) :
    ∀ xs : List ι, runOthers call tr xs = .error e →
      e = .desync ∨ ∃ x ∈ xs, call x tr = .error e := by
  intro xs
  induction xs with
  | nil => intro h; simp [runOthers] at h
  | cons x xs ih =>
    intro h
    rw [runOthers] at h
    split at h
    · rename_i e2 he2
      simp only [Except.error.injEq] at h
      subst h
      exact Or.inr ⟨x, List.mem_cons_self _ _, he2⟩
    · simp only [Except.error.injEq] at h
      exact Or.inl h.symm
    · split at h
      · rename_i e2 he2
        simp only [Except.error.injEq] at h
        subst h
        rcases ih he2 with h1 | ⟨y, hy, hc⟩
        · exact Or.inl h1
        · exact Or.inr ⟨y, List.mem_cons_of_mem _ hy, hc⟩
      · simp at h

theorem Group.read_abort {data : List Byte} {lp : Nat} {g : Group} (hG : GInv data lp g)
    (fuel s m r : Nat) (h : Group.read fuel s m g = .error (.abort r)) :
    g.origin.nbuf < s ∧ r = 1 := by
  unfold Group.read collective at h
  split at h
  · rename_i e he
    simp only [Except.error.injEq] at h
    subst h
    beta_reduce at he
    cases hb : BFileRead fuel s m g.origin [] with
    | error e2 =>
      rw [hb] at he
      simp only [Except.error.injEq] at he
      subst he
      exact (BFileRead_abort_iff _ _ _ _ _ _ hG.1.nr).1 hb
    | ok v => rw [hb] at he; simp at he
  · split at h
    · rename_i e he
      simp only [Except.error.injEq] at h
      subst h
      rcases runOthers_error _ _ _ _ he with h1 | ⟨x, hx, hc⟩
      · simp at h1
      · have hS := hG.2 x hx
        beta_reduce at hc
        split at hc
        · rename_i e2 he2
          simp only [Except.error.injEq] at hc
          subst hc
          split at he2
          · rename_i e3 he3
            simp only [Except.error.injEq] at he2
            subst he2
            have := (BFileRead_abort_iff _ _ _ _ _ _ (by rw [hS.nr]; exact hG.1.nr)).1 he3
            rw [hS.nbuf] at this
            exact this
          · simp at he2
        · simp at hc
    · simp at h

/-! ## Open in a world of one process, and what a non-origin rank looks at -/

theorem BFileOpen_single (fs : Option (List Byte)) (nb : Int) (RBUFL nproc : Nat)
    (heap : Nat → Byte) (hc : openCap nb RBUFL ≠ 0) (hn : ¬ 1 < nproc) :
    ∃ o, BFileOpen fs nb RBUFL 0 nproc heap [] = .ok (o, []) ∧ (o = none ↔ fs = none) := by
  unfold openCap at hc
  cases fs with
  | none => exact ⟨none, by simp [BFileOpen, hc, hn], by simp⟩
  | some d =>
    refine ⟨some { f := some ⟨d, 0⟩, buf := [], p := 0, n := 0,
                   nbuf := if nb ≥ 0 then nb.toNat else RBUFL, nr := nproc, mr := 0,
                   eof := false, fn := true }, ?_, by simp⟩
    simp [BFileOpen, hc, hn]

theorem BFileOpen_member_blind (fs fs2 : Option (List Byte)) (nb : Int) (RBUFL nproc r : Nat)
    (heap : Nat → Byte) (w : List Msg) (hc : openCap nb RBUFL ≠ 0) (hr : r ≠ 0) :
    BFileOpen fs2 nb RBUFL r nproc heap w = BFileOpen fs nb RBUFL r nproc heap w := by
  unfold openCap at hc
  simp [BFileOpen, hc, hr]

/-! ## Handles of a group of one -/

/-- With `nr ≤ 1` the calls are the C library calls on the local stream: the
handle changes in its stream only, no message is sent or received, and fuel,
capacity and wire play no part. -/
theorem degraded_calls (bf : BFILE) (file : FILE) (hnr : bf.nr ≤ 1) (hf : bf.f = some file)
    (fuel size nmemb : Nat) (size1 : Int) (rc : Int) (wire : List Msg) :
    BFileRead fuel size nmemb bf wire
        = .ok ((fread size nmemb file).1, (fread size nmemb file).2.1,
               { bf with f := some (fread size nmemb file).2.2 }, wire)
      ∧ BFileGetLine fuel size1 bf wire
        = .ok ((fgets size1 file).1, { bf with f := some (fgets size1 file).2 }, wire)
      ∧ BFileRewind bf = .ok { bf with f := some (rewind file) }
      ∧ (bf.fn = true → BFileClose rc (some bf) = .ok rc) := by
  refine ⟨?_, ?_, ?_, ?_⟩
  · simp [BFileRead, hnr, hf]
  · simp [BFileGetLine, hnr, hf]
  · simp [BFileRewind, hnr, hf]
  · intro hfn
    simp [BFileClose, hnr, hf, hfn]

theorem BFileOpen_unbuffered (fs : Option (List Byte)) (nb : Int) (RBUFL rank nproc : Nat)
    (heap : Nat → Byte) (wire : List Msg) (hc : openCap nb RBUFL = 0) :
    BFileOpen fs nb RBUFL rank nproc heap wire
      = .ok (fs.map (fun d => { f := some ⟨d, 0⟩, buf := [], p := 0, n := 0, nbuf := 0,
                                nr := 1, mr := 0, eof := false, fn := false }), wire) := by
  unfold openCap at hc
  cases fs <;> simp [BFileOpen, hc]

/-! ## The sequential section guard -/

theorem allArrived_iff (N : Nat) (pcs : Nat → Pc) :
    allArrived N pcs = true ↔ ∀ q, q < N → pcs q = .barrier ∨ pcs q = .out := by
  simp [allArrived, List.all_eq_true]

theorem sum_map_update (f g : Nat → Nat) (r : Nat) (hlt : g r < f r)
    (heq : ∀ q, q ≠ r → g q = f q) :
    ∀ N, (r < N → ((List.range N).map g).sum < ((List.range N).map f).sum)
      ∧ (N ≤ r → ((List.range N).map g).sum = ((List.range N).map f).sum) := by
  intro N
  induction N with
  | zero => exact ⟨fun h => by omega, fun _ => rfl⟩
  | succ N ih =>
    rw [List.range_succ, List.map_append, List.map_append, List.sum_append, List.sum_append]
    simp only [List.map_cons, List.map_nil, List.sum_cons, List.sum_nil, Nat.add_zero]
    constructor
    · intro hr
      by_cases hN : r = N
      · have := ih.2 (by omega)
        subst hN
        omega
      · have := ih.1 (by omega)
        have := heq N (fun h => hN h.symm)
        omega
    · intro hr
      have := ih.2 (by omega)
      have := heq N (by omega)
      omega

/-- Every step of a rank uses up work: no interleaving is longer than `4 * N`. -/
theorem step_todo {N r : Nat} {w w2 : World} (hr : r < N) (hs : stepRank N r w = some w2) :
    w2.todo N < w.todo N := by
  have key : ∀ pc : Pc, pc.weight < (w.pcs r).weight →
      w2.pcs = Function.update w.pcs r pc → w2.todo N < w.todo N := by
    intro pc hlt he
    unfold World.todo
    refine (sum_map_update (fun q => (w.pcs q).weight) (fun q => (w2.pcs q).weight) r
      (by simp only [he, Function.update_same]; exact hlt)
      (by intro q hq; simp only [he, Function.update_noteq hq]) N).1 hr
  unfold stepRank at hs
  split at hs
  · rename_i hpc
    split at hs
    · simp only [Option.some.injEq] at hs
      exact key .region (by rw [hpc]; decide) (by rw [← hs])
    · split at hs
      · simp at hs
      · simp only [Option.some.injEq] at hs
        exact key .region (by rw [hpc]; decide) (by rw [← hs])
  · rename_i hpc
    simp only [Option.some.injEq] at hs
    exact key .fin (by rw [hpc]; decide) (by rw [← hs])
  · rename_i hpc
    simp only [Option.some.injEq] at hs
    exact key .barrier (by rw [hpc]; decide) (by rw [← hs])
  · rename_i hpc
    split at hs
    · simp only [Option.some.injEq] at hs
      exact key .out (by rw [hpc]; decide) (by rw [← hs])
    · simp at hs
  · simp at hs

theorem SeqInv.turn {N t r : Nat} {w : World} (hI : SeqInv N t w)
    (h : w.pcs r = .beg ∨ w.pcs r = .region ∨ w.pcs r = .fin) : t ≤ r := by
  by_contra hlt
  have := hI.before r (by omega)
  rcases h with h | h | h <;> rw [h] at this <;> simp at this

theorem SeqInv.holder {N t r : Nat} {w : World} (hI : SeqInv N t w) (hr : r < N)
    (h : w.pcs r = .region ∨ w.pcs r = .fin) : r = t := by
  have hle := hI.turn (Or.inr h)
  by_contra hne
  have := hI.later r (by omega) hr
  rcases h with h | h <;> rw [h] at this <;> simp at this

/-- A step of a rank keeps the invariant of the guarded section. -/
theorem step_inv {N t r : Nat} {w w2 : World} (hI : SeqInv N t w) (hr : r < N)
    (hs : stepRank N r w = some w2) : ∃ t2, SeqInv N t2 w2 := by
  obtain ⟨hle, hbefore, hlater, hcur, hlog, hnet, hout, herrs⟩ := hI
  have hI : SeqInv N t w := ⟨hle, hbefore, hlater, hcur, hlog, hnet, hout, herrs⟩
  unfold stepRank at hs
  split at hs
  · -- the rank is about to call `MPISeqBeg`
    rename_i hpc
    have htr : t ≤ r := hI.turn (Or.inl hpc)
    by_cases hr0 : r = 0
    · subst hr0
      have ht0 : t = 0 := by omega
      subst ht0
      simp only [MPISeqBeg, Nat.cast_zero, lt_self_iff_false, if_false, if_true,
        Option.some.injEq] at hs
      subst hs
      refine ⟨0, ⟨hle, fun q hq => by omega, ?_, ?_, ?_, ?_, ?_, herrs⟩⟩
      · intro q h1 h2
        simp only [Function.update_noteq (show q ≠ 0 by omega)]
        exact hlater q h1 h2
      · intro _; simp
      · simp [hlog, hpc]
      · simp [hnet]
      · intro q hq h
        by_cases hq0 : q = 0
        · subst hq0; simp at h
        · simp only [Function.update_noteq hq0] at h
          exact hout q hq h
    · have hpos : (0 : Int) < (r : Int) := by omega
      simp only [MPISeqBeg, if_true, hpos] at hs
      by_cases hc : 0 < t ∧ t < N ∧ w.pcs t = .beg
      · rw [if_pos hc] at hnet
        rw [hnet] at hs
        simp only [takeMsg] at hs
        by_cases hm : (t : Int) - 1 = (r : Int) - 1 ∧ (t : Int) - 1 = (r : Int) - 1
            ∧ (t : Int) = (r : Int)
        · have hrt : r = t := by omega
          subst hrt
          simp only [hm, and_self, if_true, Option.some.injEq] at hs
          subst hs
          refine ⟨r, ⟨hle, ?_, ?_, ?_, ?_, ?_, ?_, ?_⟩⟩
          · intro q hq
            simp only [Function.update_noteq (show q ≠ r by omega)]
            exact hbefore q hq
          · intro q h1 h2
            simp only [Function.update_noteq (show q ≠ r by omega)]
            exact hlater q h1 h2
          · intro _; simp
          · simp [hlog, hpc]
          · simp
          · intro q hq h
            by_cases hqr : q = r
            · subst hqr; simp at h
            · simp only [Function.update_noteq hqr] at h
              exact hout q hq h
          · simp [herrs, MPISeqBegError]
        · simp only [hm, if_false] at hs
          simp at hs
      · rw [if_neg hc] at hnet
        rw [hnet] at hs
        simp [takeMsg] at hs
  · -- the rank executes the guarded region
    rename_i hpc
    have hrt : r = t := hI.holder hr (Or.inl hpc)
    subst hrt
    simp only [Option.some.injEq] at hs
    subst hs
    refine ⟨r, ⟨hle, ?_, ?_, ?_, ?_, ?_, ?_, herrs⟩⟩
    · intro q hq
      simp only [Function.update_noteq (show q ≠ r by omega)]
      exact hbefore q hq
    · intro q h1 h2
      simp only [Function.update_noteq (show q ≠ r by omega)]
      exact hlater q h1 h2
    · intro _; simp
    · simp [hlog, hpc, hr]
    · simp [hnet, hpc]
    · intro q hq h
      by_cases hqr : q = r
      · subst hqr; simp at h
      · simp only [Function.update_noteq hqr] at h
        exact hout q hq h
  · -- the rank calls `MPISeqEnd`: handoff, then the barrier
    rename_i hpc
    have hrt : r = t := hI.holder hr (Or.inr hpc)
    subst hrt
    simp only [Option.some.injEq] at hs
    subst hs
    refine ⟨r + 1, ⟨by omega, ?_, ?_, ?_, ?_, ?_, ?_, herrs⟩⟩
    · intro q hq
      by_cases hqr : q = r
      · subst hqr; simp
      · simp only [Function.update_noteq hqr]
        exact hbefore q (by omega)
    · intro q h1 h2
      simp only [Function.update_noteq (show q ≠ r by omega)]
      exact hlater q (by omega) h2
    · intro h
      simp only [Function.update_noteq (show r + 1 ≠ r by omega)]
      exact Or.inl (hlater (r + 1) (by omega) h)
    · simp only [Function.update_noteq (show r + 1 ≠ r by omega)]
      rw [hlog, if_pos ⟨hpc, hr⟩, List.range_succ]
      by_cases h : r + 1 < N
      · have := hlater (r + 1) (by omega) h
        simp [this]
      · simp [h]
    · simp only [Function.update_noteq (show r + 1 ≠ r by omega)]
      rw [hnet, if_neg (by rw [hpc]; simp)]
      by_cases h : r + 1 < N
      · have hb := hlater (r + 1) (by omega) h
        have hlt : (r : Int) < (N : Int) - 1 := by omega
        simp [MPISeqEnd, hlt, h, hb]
      · have hlt : ¬ (r : Int) < (N : Int) - 1 := by omega
        simp [MPISeqEnd, hlt, h]
    · intro q hq h
      by_cases hqr : q = r
      · subst hqr; simp at h
      · simp only [Function.update_noteq hqr] at h
        have := hout q hq h
        omega
  · -- the rank leaves the barrier
    rename_i hpc
    split at hs
    · rename_i hall
      have hall2 := (allArrived_iff N w.pcs).1 hall
      have htN : t = N := by
        by_contra hne
        have h1 := hcur (by omega)
        have h2 := hall2 t (by omega)
        rcases h1 with h | h | h <;> rw [h] at h2 <;> simp at h2
      subst htN
      simp only [Option.some.injEq] at hs
      subst hs
      refine ⟨t, ⟨hle, ?_, ?_, ?_, ?_, ?_, ?_, herrs⟩⟩
      · intro q hq
        by_cases hqr : q = r
        · subst hqr; simp
        · simp only [Function.update_noteq hqr]
          exact hbefore q hq
      · intro q h1 h2; omega
      · intro h; omega
      · simp [hlog]
      · simp [hnet]
      · intro _ _ _; rfl
    · simp at hs
  · simp at hs

theorem init_inv (N : Nat) : SeqInv N 0 World.init :=
  ⟨Nat.zero_le _, fun q hq => by omega, fun _ _ _ => rfl, fun _ => Or.inl rfl,
    by simp [World.init], by simp [World.init], fun q _ h => by simp [World.init] at h, rfl⟩

theorem run_inv {N : Nat} : ∀ (sched : List Nat) {t : Nat} {w0 w : World},
    SeqInv N t w0 → run N sched w0 = some w →
      (∃ t2, SeqInv N t2 w) ∧ sched.length + w.todo N ≤ w0.todo N := by
  intro sched
  induction sched with
  | nil =>
    intro t w0 w hI h
    simp only [run, Option.some.injEq] at h
    subst h
    exact ⟨⟨t, hI⟩, by simp⟩
  | cons r rs ih =>
    intro t w0 w hI h
    rw [run] at h
    split at h
    · rename_i hr
      split at h
      · simp at h
      · rename_i w1 hs
        obtain ⟨t1, hI1⟩ := step_inv hI hr hs
        obtain ⟨h1, h2⟩ := ih hI1 h
        have := step_todo hr hs
        exact ⟨h1, by simp only [List.length_cons]; omega⟩
    · simp at h

theorem todo_init (N : Nat) : World.init.todo N = 4 * N := by
  unfold World.todo World.init
  induction N with
  | zero => rfl
  | succ N ih =>
    rw [List.range_succ, List.map_append, List.sum_append, ih]
    simp [Pc.weight]
    omega

theorem takeMsg_isSome (rq : RecvReq) (d : Int) (net : List P2P) :
    (takeMsg rq d net).isSome ↔ ∃ m ∈ net, m.src = rq.source ∧ m.tag = rq.tag ∧ m.dest = d := by
  induction net with
  | nil => simp [takeMsg]
  | cons m ms ih =>
    rw [takeMsg]
    by_cases h : m.src = rq.source ∧ m.tag = rq.tag ∧ m.dest = d
    · rw [if_pos h]
      simp only [Option.isSome_some, List.mem_cons, true_iff]
      exact ⟨m, Or.inl rfl, h⟩
    · rw [if_neg h]
      constructor
      · intro hs
        have : (takeMsg rq d ms).isSome := by
          cases hm : takeMsg rq d ms with
          | none => rw [hm] at hs; simp at hs
          | some v => simp
        obtain ⟨x, hx, hx2⟩ := ih.1 this
        exact ⟨x, List.mem_cons_of_mem _ hx, hx2⟩
      · intro ⟨x, hx, hx2⟩
        rcases List.mem_cons.1 hx with rfl | hx
        · exact absurd hx2 h
        · have := ih.2 ⟨x, hx, hx2⟩
          cases hm : takeMsg rq d ms with
          | none => rw [hm] at this; simp at this
          | some v => simp

/-- A state of the guarded section in which some rank has not returned from
`MPISeqEnd` is not stuck: some rank can take a step. -/
theorem SeqInv.progress {N t : Nat} {w : World} (hI : SeqInv N t w)
    (h : ∃ q, q < N ∧ w.pcs q ≠ .out) : ∃ r, r < N ∧ (stepRank N r w).isSome := by
  by_cases ht : t < N
  · refine ⟨t, ht, ?_⟩
    unfold stepRank
    rcases hI.cur ht with hc | hc | hc
    · rw [hc]
      simp only []
      by_cases h0 : t = 0
      · subst h0
        simp [MPISeqBeg]
      · have hpos : (0 : Int) < (t : Int) := by omega
        simp only [MPISeqBeg, if_true, hpos]
        have hn := hI.net
        rw [if_pos ⟨by omega, ht, hc⟩] at hn
        rw [hn]
        simp [takeMsg]
    · rw [hc]; simp
    · rw [hc]; simp
  · have htN : t = N := by have := hI.le; omega
    subst htN
    obtain ⟨q, hq, hne⟩ := h
    refine ⟨q, hq, ?_⟩
    have hb : w.pcs q = .barrier := by
      rcases hI.before q hq with h1 | h1
      · exact h1
      · exact absurd h1 hne
    have hall : allArrived t w.pcs = true := (allArrived_iff t w.pcs).2 hI.before
    unfold stepRank
    rw [hb]
    simp [hall]

theorem filterMap_eq_map_of_some {α β : Type} (f : α → Option β) (g : α → β) :
    ∀ l : List α, (∀ x ∈ l, f x = some (g x)) → l.filterMap f = l.map g := by
  intro l
  induction l with
  | nil => intro _; rfl
  | cons a l ih =>
    intro h
    rw [List.filterMap_cons, h a (List.mem_cons_self _ _)]
    simp only [List.map_cons]
    rw [ih (fun x hx => h x (List.mem_cons_of_mem _ hx))]

theorem seqSends_eq (N : Nat) :
    seqSends N = (List.range (N - 1)).map
      (fun (r : Nat) => P2P.mk (r : Int) ((r : Int) + 1) (r : Int) (r : Int)) := by
  unfold seqSends
  cases N with
  | zero => rfl
  | succ n =>
    rw [List.range_succ, List.filterMap_append]
    have h1 : (List.range n).filterMap
          (fun (r : Nat) => MPISeqEnd true (r : Int) ((n + 1 : Nat) : Int))
        = (List.range n).map
          (fun (r : Nat) => P2P.mk (r : Int) ((r : Int) + 1) (r : Int) (r : Int)) := by
      refine filterMap_eq_map_of_some _ _ _ ?_
      intro x hx
      have hx2 := List.mem_range.1 hx
      have hlt : (x : Int) < ((n + 1 : Nat) : Int) - 1 := by omega
      simp only [MPISeqEnd, if_true, hlt]
    have h2 : MPISeqEnd true (n : Int) ((n + 1 : Nat) : Int) = none := by
      have hlt : ¬ (n : Int) < ((n + 1 : Nat) : Int) - 1 := by omega
      simp only [MPISeqEnd, if_true, hlt, if_false]
    rw [h1]
    simp only [List.filterMap_cons, List.filterMap_nil, h2, List.append_nil,
      Nat.add_sub_cancel]

theorem seqRecvs_eq (N : Nat) :
    seqRecvs N = (List.range (N - 1)).map
      (fun (r : Nat) => (r + 1, RecvReq.mk (r : Int) (r : Int))) := by
  unfold seqRecvs
  cases N with
  | zero => rfl
  | succ n =>
    rw [List.range_succ_eq_map, List.filterMap_cons]
    have h0 : (MPISeqBeg true ((0 : Nat) : Int)).map (fun rq => ((0 : Nat), rq)) = none := by
      simp [MPISeqBeg]
    rw [h0]
    simp only []
    rw [List.filterMap_map]
    refine filterMap_eq_map_of_some _ _ _ ?_
    intro x _
    have hpos : (0 : Int) < ((x + 1 : Nat) : Int) := by omega
    have hc : ((x + 1 : Nat) : Int) - 1 = (x : Int) := by omega
    simp only [Function.comp, MPISeqBeg, if_true, hpos, Option.map_some', Nat.succ_eq_add_one,
      hc]

/-! ## One pass of the read loop -/

/-- The loop is its pass, repeated. -/
theorem BFileReadLoop_pass (fuel size : Nat) (L : Locals) (bf : BFILE) (wire : List Msg) :
    BFileReadLoop (fuel + 1) size L bf wire
      = (match loopPass size L bf wire with
         | .error e => .error e
         | .ok (.inl r) => .ok r
         | .ok (.inr (L2, bf2, w2)) => BFileReadLoop fuel size L2 bf2 w2) := by
  rw [BFileReadLoop]
  unfold loopPass
  by_cases h0 : L.nmemb = 0
  · simp only [h0, if_true]
  · simp only [h0, if_false]
    by_cases h1 : L.n ≥ L.nmemb
    · simp only [h1, if_true]
    · simp only [h1, if_false]
      by_cases he : (copyAvail size L bf).2.eof = true
      · simp only [he, if_true]
      · simp only [if_neg he]
        cases refill (copyAvail size L bf).1.nb (copyAvail size L bf).2 wire with
        | error e => rfl
        | ok v => rfl

theorem BFileRead_loopStart (fuel size nmemb : Nat) (bf : BFILE) (wire : List Msg)
    (hnr : 1 < bf.nr) (hs : 1 ≤ size) (hcap : size ≤ bf.nbuf) :
    BFileRead fuel size nmemb bf wire
      = BFileReadLoop fuel size (loopStart size nmemb bf) bf wire := by
  unfold BFileRead loopStart
  rw [if_neg (by omega), if_neg (by omega), if_neg (by omega)]

/-- A pass of the origin's loop from a state that satisfies the loop
invariant: it does not fail; if it ends with a refill, the leftover was
shorter than one element, the origin asked for a positive number of bytes, the
invariant holds again, and either the end flag is set or a whole element is
available; if the end flag was set on entry the pass returns; and with a whole
element available it returns or lowers the number of elements still asked
for. -/
theorem loopPass_origin {data : List Byte} {size : Nat} {L : Locals} {bf : BFILE}
    (hs : 1 ≤ size) (hI : LoopInv data size L bf) (wire : List Msg) :
    (∃ out, loopPass size L bf wire = .ok out)
      ∧ (∀ L2 bf2 w2, loopPass size L bf wire = .ok (.inr (L2, bf2, w2)) →
          (copyAvail size L bf).1.nb < size
            ∧ 0 < bf.nbuf - (copyAvail size L bf).1.nb
            ∧ LoopInv data size L2 bf2
            ∧ (bf2.eof = true ∨ 1 ≤ L2.n)
            ∧ L2.nmemb = L.nmemb - L.n ∧ 0 < L2.nmemb)
      ∧ (bf.eof = true → ∃ r, loopPass size L bf wire = .ok (.inl r))
      ∧ (1 ≤ L.n → (∃ r, loopPass size L bf wire = .ok (.inl r))
          ∨ ∃ L2 bf2 w2, loopPass size L bf wire = .ok (.inr (L2, bf2, w2))
              ∧ L2.nmemb < L.nmemb) := by
  obtain ⟨lp, hR, hnb, hn, hcap⟩ := hI
  obtain ⟨cR, _, cnm, _, cnb, cnblt, ceof, cnbuf, _⟩ := copyAvail_origin size L hR hnb hn hs
  obtain ⟨bf2, hrf, hR2, hp2, hnbuf2, _, _, hfull2, _, _⟩ := refill_origin cR wire
  rw [← cnb] at hrf
  have hfull : bf2.eof = true ∨ 1 ≤ (bf2.n - bf2.p) / size := by
    rcases hfull2 (by rw [← cnb, cnbuf]; omega) with h | h
    · exact Or.inl h
    · right
      rw [hp2, h, hnbuf2, cnbuf]
      exact Nat.div_pos hcap (by omega)
  unfold loopPass
  by_cases h0 : L.nmemb = 0
  · simp only [h0, if_true]
    refine ⟨⟨_, rfl⟩, ?_, fun _ => ⟨_, rfl⟩, fun _ => Or.inl ⟨_, rfl⟩⟩
    intro L2 bf3 w2 h
    simp at h
  · simp only [h0, if_false]
    by_cases h1 : L.n ≥ L.nmemb
    · simp only [h1, if_true]
      refine ⟨⟨_, rfl⟩, ?_, fun _ => ⟨_, rfl⟩, fun _ => Or.inl ⟨_, rfl⟩⟩
      intro L2 bf3 w2 h
      simp at h
    · simp only [h1, if_false]
      by_cases he : (copyAvail size L bf).2.eof = true
      · simp only [he, if_true]
        refine ⟨⟨_, rfl⟩, ?_, fun _ => ⟨_, rfl⟩, fun _ => Or.inl ⟨_, rfl⟩⟩
        intro L2 bf3 w2 h
        simp at h
      · simp only [if_neg he]
        rw [hrf]
        simp only []
        refine ⟨⟨_, rfl⟩, ?_, ?_, ?_⟩
        · intro L2 bf3 w2 h
          simp only [Except.ok.injEq, Sum.inr.injEq, Prod.mk.injEq] at h
          obtain ⟨hL, hb, _⟩ := h
          subst hL
          subst hb
          refine ⟨cnblt, by omega, ⟨_, hR2, rfl, rfl, by rw [hnbuf2, cnbuf]; exact hcap⟩, hfull,
            cnm, ?_⟩
          show 0 < (copyAvail size L bf).1.nmemb
          rw [cnm]; omega
        · intro hb
          rw [ceof] at he
          exact absurd hb he
        · intro hn1
          refine Or.inr ⟨_, _, _, rfl, ?_⟩
          show (copyAvail size L bf).1.nmemb < L.nmemb
          rw [cnm]; omega

/-! ## The reset at the end of `BFileGetLine` -/

theorem collective_origin {α : Type}
    (call : BFILE → List Msg → Except Fault (α × BFILE × List Msg)) (g g2 : Group) (a : α)
    (rs : List α) (h : collective call g = .ok (a, rs, g2)) :
    ∃ tr, call g.origin [] = .ok (a, g2.origin, tr) := by
  unfold collective at h
  split at h
  · simp at h
  · rename_i a1 o2 tr ho
    split at h
    · simp at h
    · simp only [Except.ok.injEq, Prod.mk.injEq] at h
      obtain ⟨h1, _, h3⟩ := h
      subst h1
      subst h3
      exact ⟨tr, ho⟩

theorem resetDrained_cases (bf : BFILE) :
    (bf.p = bf.nbuf → (resetDrained bf).p = 0 ∧ (resetDrained bf).n = 0)
      ∧ (bf.p ≠ bf.nbuf → resetDrained bf = bf) := by
  unfold resetDrained
  constructor
  · intro h; rw [if_pos h]; exact ⟨rfl, rfl⟩
  · intro h; rw [if_neg h]

/-! ## `BFileGetLine` and `Abort` -/

theorem BFileGetLine_abort_iff (bf : BFILE) (fuel : Nat) (size1 : Int) (r : Nat)
    (wire : List Msg) (hnr : 1 < bf.nr) :
    BFileGetLine fuel size1 bf wire = .error (.abort r)
      ↔ bf.nbuf < toSizeT (size1 - 1) ∧ r = 1 := by
  rw [← BFileRead_abort_iff bf fuel (toSizeT (size1 - 1)) 1 r wire hnr]
  unfold BFileGetLine
  rw [if_neg (by omega)]
  simp only []
  cases hb : BFileRead fuel (toSizeT (size1 - 1)) 1 bf wire with
  | error e => simp
  | ok v =>
    obtain ⟨n, s, bf1, w1⟩ := v
    simp only []
    constructor
    · intro h
      exfalso
      split at h
      · simp at h
      · split at h <;> simp at h
    · intro h
      simp at h

theorem collective_error {α : Type}
    (call : BFILE → List Msg → Except Fault (α × BFILE × List Msg)) (g : Group) (e : Fault)
    (h : collective call g = .error e) :
    e = .desync ∨ ∃ bf ∈ g.origin :: g.others, ∃ w, call bf w = .error e := by
  unfold collective at h
  split at h
  · rename_i e2 he2
    simp only [Except.error.injEq] at h
    subst h
    exact Or.inr ⟨g.origin, List.mem_cons_self _ _, [], he2⟩
  · split at h
    · rename_i e2 he2
      simp only [Except.error.injEq] at h
      subst h
      rcases runOthers_error _ _ _ _ he2 with h1 | ⟨x, hx, hc⟩
      · exact Or.inl h1
      · split at hc
        · rename_i e3 he3
          simp only [Except.error.injEq] at hc
          subst hc
          exact Or.inr ⟨x, List.mem_cons_of_mem _ hx, _, he3⟩
        · simp at hc
    · simp at h

/-! ## Round-robin work assignment -/

theorem SkipMPI_snd (wid myrank nproc : Int) :
    (SkipMPI wid myrank nproc).2 = (SkipMPI wid 0 nproc).2 := by
  unfold SkipMPI
  split <;> rfl

theorem skipRun_append (a b : Nat) (nproc myrank : Int) :
    ∀ wid : Int, skipRun (a + b) wid myrank nproc
      = skipRun a wid myrank nproc ++ skipRun b (skipEnd a wid nproc) myrank nproc := by
  induction a with
  | zero => intro wid; simp [skipRun, skipEnd]
  | succ a ih =>
    intro wid
    rw [Nat.add_right_comm, skipRun, skipRun, skipEnd, ih, SkipMPI_snd wid myrank nproc]
    rfl

/-- A run of `k` calls that does not pass the wrap-around selects the rank
`r` once if `wid ≤ r < wid + k`, and not at all otherwise. -/
theorem skipRun_count (nproc r : Int) (hn : 1 < nproc) :
    ∀ (k : Nat) (wid : Int), 0 ≤ wid → wid < nproc → wid + k ≤ nproc →
      (skipRun k wid r nproc).count 0 = (if wid ≤ r ∧ r < wid + k then 1 else 0)
        ∧ skipEnd k wid nproc = (if wid + k = nproc then 0 else wid + k) := by
  intro k
  induction k with
  | zero =>
    intro wid h0 hlt hle
    simp only [Nat.cast_zero, Int.add_zero, skipRun, skipEnd, List.count_nil]
    refine ⟨?_, ?_⟩
    · rw [if_neg (by omega)]
    · rw [if_neg (by omega)]
  | succ k ih =>
    intro wid h0 hlt hle
    simp only [Nat.cast_add, Nat.cast_one] at hle ⊢
    have hstep1 : (SkipMPI wid r nproc).1 = if wid ≠ r then 1 else 0 := by
      simp [SkipMPI, hn]
    have hstep2 : (SkipMPI wid r nproc).2 = if wid + 1 ≥ nproc then 0 else wid + 1 := by
      simp [SkipMPI, hn]
    have hstep0 : (SkipMPI wid 0 nproc).2 = if wid + 1 ≥ nproc then 0 else wid + 1 := by
      simp [SkipMPI, hn]
    rw [skipRun, skipEnd, hstep1, hstep2, hstep0]
    by_cases hw : wid + 1 ≥ nproc
    · have hk : k = 0 := by omega
      subst hk
      simp only [if_pos hw, skipRun, skipEnd, Nat.cast_zero, Int.zero_add]
      refine ⟨?_, ?_⟩
      · by_cases hr : wid = r
        · rw [if_neg (by simp [hr]), if_pos (by omega)]
          rfl
        · rw [if_pos hr, if_neg (by omega)]
          rfl
      · rw [if_pos (by omega)]
    · simp only [if_neg hw]
      obtain ⟨i1, i2⟩ := ih (wid + 1) (by omega) (by omega) (by omega)
      refine ⟨?_, ?_⟩
      · by_cases hr : wid = r
        · have hh : (if wid ≠ r then (1 : Int) else 0) = 0 := if_neg (by simp [hr])
          have h1 : ¬ (wid + 1 ≤ r ∧ r < wid + 1 + (k : Int)) := by omega
          have h2 : wid ≤ r ∧ r < wid + ((k : Int) + 1) := by omega
          rw [hh, List.count_cons_self, i1, if_neg h1, if_pos h2]
        · have hh : (if wid ≠ r then (1 : Int) else 0) = 1 := if_pos hr
          have h01 : (0 : Int) ≠ 1 := by decide
          rw [hh, List.count_cons_of_ne h01, i1]
          by_cases hc : wid + 1 ≤ r ∧ r < wid + 1 + (k : Int)
          · have h2 : wid ≤ r ∧ r < wid + ((k : Int) + 1) := by omega
            rw [if_pos hc, if_pos h2]
          · have h2 : ¬ (wid ≤ r ∧ r < wid + ((k : Int) + 1)) := by omega
            rw [if_neg hc, if_neg h2]
      · rw [i2]
        by_cases he : wid + 1 + (k : Int) = nproc
        · rw [if_pos he, if_pos (by omega)]
        · rw [if_neg he, if_neg (by omega)]
          omega

/-- Over `nproc` consecutive calls, started at any counter in `[0, nproc)`,
a rank in `[0, nproc)` gets the answer 0 exactly once. -/
theorem skipRun_cycle (nproc w r : Int) (hn : 1 < nproc) (hw0 : 0 ≤ w) (hw : w < nproc)
    (hr0 : 0 ≤ r) (hr : r < nproc) :
    (skipRun nproc.toNat w r nproc).count 0 = 1 := by
  have hsplit : nproc.toNat = (nproc - w).toNat + w.toNat := by omega
  have ha : (((nproc - w).toNat : Nat) : Int) = nproc - w := Int.toNat_of_nonneg (by omega)
  have hb : ((w.toNat : Nat) : Int) = w := Int.toNat_of_nonneg hw0
  obtain ⟨c1, e1⟩ := skipRun_count nproc r hn (nproc - w).toNat w hw0 hw (by rw [ha]; omega)
  obtain ⟨c2, _⟩ :=
    skipRun_count nproc r hn w.toNat 0 (le_refl 0) (by omega) (by rw [hb]; omega)
  rw [ha] at c1 e1
  rw [hb] at c2
  have he : w + (nproc - w) = nproc := by omega
  rw [if_pos he] at e1
  rw [hsplit, skipRun_append, List.count_append, e1, c1, c2]
  by_cases h : w ≤ r
  · have h1 : w ≤ r ∧ r < w + (nproc - w) := by omega
    have h2 : ¬ (0 ≤ r ∧ r < 0 + w) := by omega
    rw [if_pos h1, if_neg h2]
  · have h1 : ¬ (w ≤ r ∧ r < w + (nproc - w)) := by omega
    have h2 : 0 ≤ r ∧ r < 0 + w := by omega
    rw [if_neg h1, if_pos h2]

/-- The length of a run of `k` calls. -/
theorem skipRun_length (myrank nproc : Int) :
    ∀ (k : Nat) (wid : Int), (skipRun k wid myrank nproc).length = k := by
  intro k
  induction k with
  | zero => intro wid; rfl
  | succ k ih => intro wid; rw [skipRun, List.length_cons, ih]

/-! ## The claims -/

/-- C1: on every reachable state of a buffered multi-member group, for every
element size `1 ≤ s ≤ nbuf` and every count `m`, `BFileRead(s, m)` returns on
every member `c = min(m, R / s)`, where `R` counts the file bytes not yet
consumed (the unconsumed buffered bytes followed by what the origin has not
read); the destination receives the next `c * s` of these bytes, which are the
file's bytes behind the logical read position, and that position advances
by exactly `c * s`. -/
theorem C1_read_whole_elements (data : List Byte) (g : Group) (fuel s m : Nat)
    (hg : Reachable data g) (hs : 1 ≤ s) (hcap : s ≤ g.origin.nbuf) (hf : m + 2 ≤ fuel) :
    ∃ g2, Group.read fuel s m g
        = .ok ((g.origin.count s m, g.origin.unread.take (g.origin.count s m * s)),
               List.replicate g.others.length
                 (g.origin.count s m, g.origin.unread.take (g.origin.count s m * s)), g2)
      ∧ g.origin.unread = data.drop g.origin.readPos
      ∧ (g.origin.unread.take (g.origin.count s m * s)).length = g.origin.count s m * s
      ∧ g2.origin.unread = g.origin.unread.drop (g.origin.count s m * s)
      ∧ g2.origin.readPos = g.origin.readPos + g.origin.count s m * s := by
  obtain ⟨lp, hG⟩ := reachable_inv hg
  obtain ⟨g2, hrun, hG2, _⟩ := Group.read_spec hG fuel s m hs hcap hf
  have hc := hG.1.count_eq s m
  have hu := hG.1.unread_eq
  have hle := wholeCount_mul_le data lp s m
  refine ⟨g2, ?_, ?_, ?_, ?_, ?_⟩
  · rw [hrun, hc, hu]; rfl
  · rw [hu, hG.1.readPos_eq]
  · rw [hc, hu, List.length_take, List.length_drop]; omega
  · rw [hG2.1.unread_eq, hu, hc, List.drop_drop, Nat.add_comm]
  · rw [hG2.1.readPos_eq, hG.1.readPos_eq, hc]

/-- C1 at a concrete input: seven bytes, capacity 4, three processes, two
elements of three bytes requested and delivered; one byte stays unread. -/
theorem C1_read_whole_elements_witness :
    Reachable [1, 2, 3, 4, 5, 6, 7] (freshGroup [1, 2, 3, 4, 5, 6, 7] 4 3)
      ∧ ∃ g2, Group.read 9 3 5 (freshGroup [1, 2, 3, 4, 5, 6, 7] 4 3)
          = .ok ((2, [1, 2, 3, 4, 5, 6]), [(2, [1, 2, 3, 4, 5, 6]), (2, [1, 2, 3, 4, 5, 6])], g2)
        ∧ g2.origin.unread = [7] ∧ g2.origin.readPos = 6 := by
  have hr := freshGroup_reachable [1, 2, 3, 4, 5, 6, 7] 4 3 (by decide) (by decide)
  obtain ⟨g2, h1, _, _, h4, h5⟩ :=
    C1_read_whole_elements [1, 2, 3, 4, 5, 6, 7] (freshGroup [1, 2, 3, 4, 5, 6, 7] 4 3) 9 3 5
      hr (by decide) (by decide) (by decide)
  exact ⟨hr, g2, h1, h4, h5⟩

/-- C2: on a freshly opened buffered multi-member group backed by a file of
exactly `k * s` bytes, with `1 ≤ s ≤ nbuf`: `BFileRead(s, k)` returns `k` (and
the whole file) on every member; `BFileRead(s, k+1)` returns `k`, and any
following `BFileRead` returns 0 with the end flag set on every member. -/
theorem C2_read_completeness (data : List Byte) (nb : Int) (RBUFL nproc : Nat)
    (heap : Nat → Nat → Byte) (o : BFILE) (ms : List BFILE) (k s fuel : Nat)
    (hopen : openAll (some data) nb RBUFL nproc heap = .ok (some o, ms.map some))
    (hnr : 1 < o.nr) (hlen : data.length = k * s) (hs : 1 ≤ s) (hcap : s ≤ o.nbuf)
    (hf : k + 3 ≤ fuel) :
    (∃ g1, Group.read fuel s k ⟨o, ms⟩
        = .ok ((k, data), List.replicate ms.length (k, data), g1))
      ∧ ∃ g1, Group.read fuel s (k + 1) ⟨o, ms⟩
          = .ok ((k, data), List.replicate ms.length (k, data), g1)
        ∧ ∀ (s2 m2 fuel2 : Nat), 1 ≤ s2 → s2 ≤ o.nbuf → m2 + 2 ≤ fuel2 →
            ∃ g2, Group.read fuel2 s2 m2 g1
                = .ok ((0, []), List.replicate ms.length (0, []), g2)
              ∧ g2.origin.eof = true ∧ ∀ m ∈ g2.others, m.eof = true := by
  have hG := opened_inv hopen hnr
  have hq : (data.length - 0) / s = k := by
    rw [Nat.sub_zero, hlen]; exact Nat.mul_div_cancel k (by omega)
  have hw1 : wholeCount data 0 s k = k := by unfold wholeCount; rw [hq]; omega
  have hw2 : wholeCount data 0 s (k + 1) = k := by unfold wholeCount; rw [hq]; omega
  have hall : slice data 0 (k * s) = data := by
    unfold slice
    rw [List.drop_zero, List.take_of_length_le (by omega)]
  constructor
  · obtain ⟨g1, h1, _⟩ := Group.read_spec hG fuel s k hs hcap (by omega)
    rw [hw1, hall] at h1
    exact ⟨g1, h1⟩
  · obtain ⟨g1, h1, hG1, hnb1, hl1, he1, _⟩ :=
      Group.read_spec hG fuel s (k + 1) hs hcap (by omega)
    rw [hw2] at h1 hG1 he1
    rw [hall] at h1
    refine ⟨g1, h1, ?_⟩
    intro s2 m2 fuel2 hs2 hcap2 hf2
    obtain ⟨g2, h2, hG2, _, _, _, he2⟩ :=
      Group.read_spec hG1 fuel2 s2 m2 hs2 (by rw [hnb1]; exact hcap2) hf2
    have hw3 : wholeCount data (0 + k * s) s2 m2 = 0 := by
      unfold wholeCount
      have : data.length - (0 + k * s) = 0 := by omega
      rw [this, Nat.zero_div]
      omega
    rw [hw3, hl1] at h2
    have heo := he2 (he1 (by omega))
    refine ⟨g2, ?_, heo, ?_⟩
    · simpa [slice] using h2
    · intro m hm
      rw [(hG2.2 m hm).eof]; exact heo

/-- C2 at a concrete input: three elements of two bytes, capacity 4, two
processes. -/
theorem C2_read_completeness_witness :
    (∃ g1, Group.read 6 2 3 (freshGroup [1, 2, 3, 4, 5, 6] 4 2)
        = .ok ((3, [1, 2, 3, 4, 5, 6]), [(3, [1, 2, 3, 4, 5, 6])], g1))
      ∧ ∃ g1, Group.read 6 2 4 (freshGroup [1, 2, 3, 4, 5, 6] 4 2)
          = .ok ((3, [1, 2, 3, 4, 5, 6]), [(3, [1, 2, 3, 4, 5, 6])], g1)
        ∧ ∃ g2, Group.read 3 2 1 g1 = .ok ((0, []), [(0, [])], g2)
          ∧ g2.origin.eof = true := by
  obtain ⟨h1, g1, h2, h3⟩ :=
    C2_read_completeness [1, 2, 3, 4, 5, 6] 4 0 2 (fun _ _ => 0)
      (freshGroup [1, 2, 3, 4, 5, 6] 4 2).origin (freshGroup [1, 2, 3, 4, 5, 6] 4 2).others
      3 2 6 rfl (by decide) rfl (by decide) (by decide) (by decide)
  obtain ⟨g2, h4, h5, _⟩ := h3 2 1 3 (by decide) (by decide) (by decide)
  exact ⟨h1, g1, h2, g2, h4, h5⟩

/-- C3, as stated, fails: on a fresh group of two processes over `"abc\ndef\n"`
with capacity 8 and `maxLength` 9 the first `BFileGetLine` yields the four
bytes `"abc\n"`, terminator included, not the three bytes `"abc"`. -/
theorem C3_first_line_keeps_terminator :
    originResult (Group.getLine 3 9 (freshGroup abcFile 8 2)) = some (some [97, 98, 99, 10])
      ∧ originResult (Group.getLine 3 9 (freshGroup abcFile 8 2)) ≠ some (some [97, 98, 99]) := by
  have h : originResult (Group.getLine 3 9 (freshGroup abcFile 8 2))
      = some (some [97, 98, 99, 10]) := rfl
  refine ⟨h, ?_⟩
  rw [h]
  decide

/-- C3 amended: on a freshly opened buffered multi-member group over
`"abc\ndef\n"`, with `maxLength ≥ 5` and `maxLength - 1 ≤ nbuf`, the first
`BFileGetLine` yields `"abc\n"`, the second `"def\n"` (each line keeps its
terminator) and the third returns the null result, on every member. -/
theorem C3_lines_with_terminator (nb : Int) (RBUFL nproc : Nat) (heap : Nat → Nat → Byte)
    (o : BFILE) (ms : List BFILE) (size1 : Int) (fuel : Nat)
    (hopen : openAll (some abcFile) nb RBUFL nproc heap = .ok (some o, ms.map some))
    (hnr : 1 < o.nr) (h5 : 5 ≤ size1) (hcap : size1 ≤ o.nbuf + 1) (hf : 3 ≤ fuel) :
    ∃ g1 g2 g3,
      Group.getLine fuel size1 ⟨o, ms⟩
          = .ok (some [97, 98, 99, 10], List.replicate ms.length (some [97, 98, 99, 10]), g1)
        ∧ Group.getLine fuel size1 g1
          = .ok (some [100, 101, 102, 10],
                 List.replicate ms.length (some [100, 101, 102, 10]), g2)
        ∧ Group.getLine fuel size1 g2 = .ok (none, List.replicate ms.length none, g3) := by
  have hG := opened_inv hopen hnr
  obtain ⟨j, hj⟩ : ∃ j : Nat, (size1 - 1).toNat = j + 4 := ⟨(size1 - 1).toNat - 4, by omega⟩
  have l1 : lineAt abcFile 0 size1 = [97, 98, 99, 10] := by
    simp [lineAt, hj, abcFile, lineOf, NL]
  have l2 : lineAt abcFile 4 size1 = [100, 101, 102, 10] := by
    simp [lineAt, hj, abcFile, lineOf, NL]
  have l3 : lineAt abcFile 8 size1 = [] := by
    simp [lineAt, hj, abcFile, lineOf]
  obtain ⟨g1, h1, hG1, hn1, hl1, _⟩ := Group.getLine_spec hG fuel size1 (by omega) hcap hf
  rw [l1] at h1 hG1
  have e1 : 0 + ([97, 98, 99, 10] : List Byte).length = 4 := rfl
  rw [e1] at hG1
  obtain ⟨g2, h2, hG2, hn2, hl2, _⟩ :=
    Group.getLine_spec hG1 fuel size1 (by omega) (by rw [hn1]; exact hcap) hf
  rw [l2, hl1] at h2
  rw [l2] at hG2
  have e2 : 4 + ([100, 101, 102, 10] : List Byte).length = 8 := rfl
  rw [e2] at hG2
  obtain ⟨g3, h3, _⟩ :=
    Group.getLine_spec hG2 fuel size1 (by omega) (by rw [hn2, hn1]; exact hcap) hf
  rw [l3, hl2, hl1] at h3
  exact ⟨g1, g2, g3, by simpa using h1, by simpa using h2, by simpa using h3⟩

/-- C3 amended, at a concrete input: capacity 4, `maxLength` 5, three processes. -/
theorem C3_lines_with_terminator_witness :
    ∃ g1 g2 g3,
      Group.getLine 3 5 (freshGroup abcFile 4 3)
          = .ok (some [97, 98, 99, 10], [some [97, 98, 99, 10], some [97, 98, 99, 10]], g1)
        ∧ Group.getLine 3 5 g1
          = .ok (some [100, 101, 102, 10], [some [100, 101, 102, 10], some [100, 101, 102, 10]], g2)
        ∧ Group.getLine 3 5 g2 = .ok (none, [none, none], g3) :=
  C3_lines_with_terminator 4 0 3 (fun _ _ => 0) (freshGroup abcFile 4 3).origin
    (freshGroup abcFile 4 3).others 5 3 rfl (by decide) (by decide) (by decide) (by decide)

/-- C4: on every reachable state of a buffered multi-member group and for
`2 ≤ maxLength ≤ nbuf + 1`, `BFileGetLine` returns on every member what
`fgets` returns on a plain stream standing at the logical read position: the
longest prefix of the unread bytes of at most `maxLength - 1` bytes that ends
at, and includes, the first terminator within that bound.  The read position
moves just past the returned bytes, so result and remaining bytes concatenate
to the bytes that were unread; the null result comes exactly when no unread
byte remains, and then `n = p` with the end flag set. -/
theorem C4_getLine_refines_fgets (data : List Byte) (g : Group) (fuel : Nat) (size1 : Int)
    (hg : Reachable data g) (h2 : 2 ≤ size1) (hcap : size1 ≤ g.origin.nbuf + 1)
    (hf : 3 ≤ fuel) :
    ∃ g2, Group.getLine fuel size1 g
        = .ok ((fgets size1 ⟨data, g.origin.readPos⟩).1,
               List.replicate g.others.length (fgets size1 ⟨data, g.origin.readPos⟩).1, g2)
      ∧ g2.origin.readPos = (fgets size1 ⟨data, g.origin.readPos⟩).2.pos
      ∧ g2.origin.unread = data.drop g2.origin.readPos
      ∧ ((fgets size1 ⟨data, g.origin.readPos⟩).1.getD []) ++ g2.origin.unread = g.origin.unread
      ∧ (∀ line, (fgets size1 ⟨data, g.origin.readPos⟩).1 = some line →
            line = specLine (size1 - 1).toNat g.origin.unread)
      ∧ ((fgets size1 ⟨data, g.origin.readPos⟩).1 = none ↔ g.origin.unread = [])
      ∧ ((fgets size1 ⟨data, g.origin.readPos⟩).1 = none →
            g2.origin.n = g2.origin.p ∧ g2.origin.eof = true) := by
  obtain ⟨lp, hG⟩ := reachable_inv hg
  obtain ⟨g2, hrun, hG2, _, _, hend⟩ := Group.getLine_spec hG fuel size1 h2 hcap hf
  have hlp := hG.1.readPos_eq
  have hu := hG.1.unread_eq
  have hpre : lineAt data lp size1 ++ (data.drop lp).drop (lineAt data lp size1).length
      = data.drop lp := lineOf_append_drop _ _
  have hnil : lineAt data lp size1 = [] ↔ data.drop lp = [] := by
    unfold lineAt
    exact lineOf_eq_nil _ _ (by omega)
  rw [hlp, fgets_eq data lp size1 h2]
  simp only []
  refine ⟨g2, hrun, ?_, ?_, ?_, ?_, ?_, ?_⟩
  · exact hG2.1.readPos_eq
  · rw [hG2.1.unread_eq, hG2.1.readPos_eq]
  · rw [hG2.1.unread_eq, hu, ← List.drop_drop]
    by_cases h : lineAt data lp size1 = []
    · simp [h]
    · simpa [h] using hpre
  · intro line hl
    by_cases h : lineAt data lp size1 = []
    · simp [h] at hl
    · simp only [h, if_false, Option.some.injEq] at hl
      rw [← hl, hu, ← lineOf_eq_specLine]
      rfl
  · rw [hu]
    by_cases h : lineAt data lp size1 = []
    · rw [if_pos h]
      exact ⟨fun _ => hnil.1 h, fun _ => rfl⟩
    · rw [if_neg h]
      exact ⟨fun hh => (by cases hh), fun hh => absurd (hnil.2 hh) h⟩
  · intro hn
    by_cases h : lineAt data lp size1 = []
    · obtain ⟨e1, e2⟩ := hend h
      exact ⟨e2, e1⟩
    · simp [h] at hn

/-- C4 at a concrete input: with `maxLength` 3 the first line taken from
`"abc\ndef\n"` is the two bytes `"ab"`, as for `fgets`. -/
theorem C4_getLine_refines_fgets_witness :
    ∃ g2, Group.getLine 3 3 (freshGroup abcFile 4 2) = .ok (some [97, 98], [some [97, 98]], g2)
      ∧ g2.origin.readPos = 2 := by
  have hr := freshGroup_reachable abcFile 4 2 (by decide) (by decide)
  obtain ⟨g2, h2, h3, _⟩ :=
    C4_getLine_refines_fgets abcFile (freshGroup abcFile 4 2) 3 3 hr (by decide) (by decide)
      (by decide)
  exact ⟨g2, h2, h3⟩

/-- C5: collective convergence.  In every state a buffered group of more than
one process reaches by `BFileRead`, `BFileGetLine` and `BFileRewind` calls
issued identically on every member, every member holds the same fill count,
the same bytes in `buf[0..n)`, the same end flag and the same cursor as the
origin. -/
theorem C5_collective_convergence (data : List Byte) (g : Group) (hg : Reachable data g) :
    ∀ m ∈ g.others, m.n = g.origin.n ∧ slice m.buf 0 m.n = slice g.origin.buf 0 g.origin.n
      ∧ m.eof = g.origin.eof ∧ m.p = g.origin.p := by
  obtain ⟨lp, hG⟩ := reachable_inv hg
  intro m hm
  have hS := hG.2 m hm
  exact ⟨hS.n, hS.held, hS.eof, hS.p⟩

/-- C5 at a concrete input: the sample state, where four bytes are buffered
and three of them consumed. -/
theorem C5_collective_convergence_witness :
    (sampleGroup.origin.n = 4 ∧ sampleGroup.origin.p = 3 ∧ sampleGroup.others.length = 2)
      ∧ ∀ m ∈ sampleGroup.others, m.n = sampleGroup.origin.n
          ∧ slice m.buf 0 m.n = slice sampleGroup.origin.buf 0 sampleGroup.origin.n
          ∧ m.eof = sampleGroup.origin.eof ∧ m.p = sampleGroup.origin.p :=
  ⟨⟨rfl, rfl, rfl⟩, C5_collective_convergence abcFile sampleGroup sampleGroup_reachable⟩

/-- C6: in every reachable state of a buffered group of more than one process,
`BFileRead` (element size within capacity) and `BFileGetLine`
(`2 ≤ maxLength ≤ nbuf + 1`) return on every non-origin member the count and
destination bytes, respectively the line or null result, they return on the
origin, although no non-origin member holds a stream. -/
theorem C6_members_agree_with_origin (data : List Byte) (g : Group) (fuel s m fuel1 : Nat)
    (size1 : Int) (hg : Reachable data g) (hs : 1 ≤ s) (hcap : s ≤ g.origin.nbuf)
    (hf : m + 2 ≤ fuel) (h2 : 2 ≤ size1) (hcap1 : size1 ≤ g.origin.nbuf + 1)
    (hf1 : 3 ≤ fuel1) :
    (∃ r g2, Group.read fuel s m g = .ok (r, List.replicate g.others.length r, g2))
      ∧ (∃ r g2, Group.getLine fuel1 size1 g = .ok (r, List.replicate g.others.length r, g2))
      ∧ ∀ mem ∈ g.others, mem.f = none := by
  obtain ⟨lp, hG⟩ := reachable_inv hg
  obtain ⟨g2, h1, _⟩ := Group.read_spec hG fuel s m hs hcap hf
  obtain ⟨g3, h3, _⟩ := Group.getLine_spec hG fuel1 size1 h2 hcap1 hf1
  exact ⟨⟨_, g2, h1⟩, ⟨_, g3, h3⟩, fun mem hm => (hG.2 mem hm).nofile⟩

/-- C6 at a concrete input: the sample state, two elements of two bytes and a
line of at most three bytes. -/
theorem C6_members_agree_with_origin_witness :
    (∃ r g2, Group.read 4 2 2 sampleGroup = .ok (r, List.replicate 2 r, g2))
      ∧ (∃ r g2, Group.getLine 3 4 sampleGroup = .ok (r, List.replicate 2 r, g2))
      ∧ ∀ mem ∈ sampleGroup.others, mem.f = none :=
  C6_members_agree_with_origin abcFile sampleGroup 4 2 2 3 4 sampleGroup_reachable (by decide)
    (by decide) (by decide) (by decide) (by decide) (by decide)

/-- C7: the handle invariant `p ≤ n ≤ nbuf` (with `0 ≤ p`: the cursor is a
natural number and the one place that decrements it does not underflow) holds
on every member after a successful buffered open and after every `BFileRead`
(`1 ≤ size ≤ nbuf`), `BFileGetLine` (`2 ≤ maxLength ≤ nbuf + 1`) and
`BFileRewind`.  Inside `BFileGetLine`, when the inner `BFileRead` has returned
1, the cursor is at least `maxLength - 1`, so that stepping it back by
`maxLength - 1` stays within `0 ≤ p ≤ n`, on the origin and on every member. -/
theorem C7_handle_invariant (data : List Byte) (g : Group) (hg : Reachable data g) :
    (g.origin.p ≤ g.origin.n ∧ g.origin.n ≤ g.origin.nbuf)
      ∧ (∀ m ∈ g.others, m.p ≤ m.n ∧ m.n ≤ m.nbuf)
      ∧ ∀ (fuel : Nat) (size1 : Int), 2 ≤ size1 → size1 ≤ g.origin.nbuf + 1 → 3 ≤ fuel →
          ∃ c d bf1 tr, BFileRead fuel (toSizeT (size1 - 1)) 1 g.origin [] = .ok (c, d, bf1, tr)
            ∧ (c = 1 → (size1 - 1).toNat ≤ bf1.p ∧ bf1.p ≤ bf1.n ∧ bf1.n ≤ bf1.nbuf)
            ∧ ∀ m ∈ g.others, ∃ m1,
                BFileRead fuel (toSizeT (size1 - 1)) 1 m tr = .ok (c, d, m1, [])
                  ∧ (c = 1 → (size1 - 1).toNat ≤ m1.p ∧ m1.p ≤ m1.n ∧ m1.n ≤ m1.nbuf) := by
  obtain ⟨lp, hG⟩ := reachable_inv hg
  refine ⟨⟨hG.1.pn, hG.1.nn⟩, ?_, ?_⟩
  · intro m hm
    have hS := hG.2 m hm
    rw [hS.p, hS.n, hS.nbuf]
    exact ⟨hG.1.pn, hG.1.nn⟩
  · intro fuel size1 h2 hcap hf
    obtain ⟨hk, hk1⟩ := toSizeT_pred size1 h2
    obtain ⟨bf1, tr, hrd, hR1, _, _, _, _, hback, hmem⟩ :=
      BFileRead_spec hG.1 fuel (size1 - 1).toNat 1 hk1 (by omega) (by omega) []
    rw [hk]
    refine ⟨_, _, bf1, tr, hrd, ?_, ?_⟩
    · intro hc
      exact ⟨(hback rfl hc).1, hR1.pn, hR1.nn⟩
    · intro m hm
      obtain ⟨m1, hm1, hS1⟩ := hmem m [] (hG.2 m hm)
      rw [List.append_nil] at hm1
      refine ⟨m1, hm1, ?_⟩
      intro hc
      rw [hS1.p, hS1.n, hS1.nbuf]
      exact ⟨(hback rfl hc).1, hR1.pn, hR1.nn⟩

/-- C7 at a concrete input: the sample state. -/
theorem C7_handle_invariant_witness :
    (sampleGroup.origin.p = 3 ∧ sampleGroup.origin.n = 4 ∧ sampleGroup.origin.nbuf = 4)
      ∧ (sampleGroup.origin.p ≤ sampleGroup.origin.n
          ∧ sampleGroup.origin.n ≤ sampleGroup.origin.nbuf)
      ∧ ∀ m ∈ sampleGroup.others, m.p ≤ m.n ∧ m.n ≤ m.nbuf :=
  ⟨⟨rfl, rfl, rfl⟩, (C7_handle_invariant abcFile sampleGroup sampleGroup_reachable).1,
    (C7_handle_invariant abcFile sampleGroup sampleGroup_reachable).2.1⟩

/-- C8: in every reachable state of a buffered multi-member group, `BFileRewind`
followed by `BFileRead(s, m)` returns on every member the count and the bytes
that `BFileRead(s, m)` returns on a freshly opened group over the same file.
In particular, on a fresh group, read, rewind, read with the same arguments
returns the same count and bytes twice. -/
theorem C8_rewind_restores_start (data : List Byte) (g : Group) (nb : Int)
    (RBUFL nproc : Nat) (heap : Nat → Nat → Byte) (o : BFILE) (ms : List BFILE)
    (fuel s m : Nat) (hg : Reachable data g)
    (hopen : openAll (some data) nb RBUFL nproc heap = .ok (some o, ms.map some))
    (hnr : 1 < o.nr) (hs : 1 ≤ s) (hcap : s ≤ g.origin.nbuf) (hcap0 : s ≤ o.nbuf)
    (hf : m + 2 ≤ fuel) :
    (∃ r gr g2 g02,
        Group.rewind g = .ok ((), List.replicate g.others.length (), gr)
          ∧ Group.read fuel s m gr = .ok (r, List.replicate g.others.length r, g2)
          ∧ Group.read fuel s m ⟨o, ms⟩ = .ok (r, List.replicate ms.length r, g02))
      ∧ ∃ r g1 gr g2,
          Group.read fuel s m ⟨o, ms⟩ = .ok (r, List.replicate ms.length r, g1)
            ∧ Group.rewind g1 = .ok ((), List.replicate ms.length (), gr)
            ∧ Group.read fuel s m gr = .ok (r, List.replicate ms.length r, g2) := by
  obtain ⟨lp, hG⟩ := reachable_inv hg
  have hG0 := opened_inv hopen hnr
  obtain ⟨g02, h0, hG02, hn02, hl02, _⟩ := Group.read_spec hG0 fuel s m hs hcap0 hf
  constructor
  · obtain ⟨gr, hrw, hGr, hnr2, hlr⟩ := Group.rewind_spec hG
    obtain ⟨g2, h2, _⟩ := Group.read_spec hGr fuel s m hs (by rw [hnr2]; exact hcap) hf
    rw [hlr] at h2
    exact ⟨_, gr, g2, g02, hrw, h2, h0⟩
  · obtain ⟨gr, hrw, hGr, hnr2, hlr⟩ := Group.rewind_spec hG02
    obtain ⟨g2, h2, _⟩ :=
      Group.read_spec hGr fuel s m hs (by rw [hnr2, hn02]; exact hcap0) hf
    rw [hlr, hl02] at h2
    rw [hl02] at hrw
    exact ⟨_, g02, gr, g2, h0, hrw, h2⟩

/-- C8 at a concrete input: the sample state (three bytes consumed) rewound
and read again, against a fresh group of two processes with capacity 8. -/
theorem C8_rewind_restores_start_witness :
    ∃ gr g2 g02,
      Group.rewind sampleGroup = .ok ((), [(), ()], gr)
        ∧ Group.read 4 2 2 gr = .ok ((2, [97, 98, 99, 10]), List.replicate 2 (2, [97, 98, 99, 10]), g2)
        ∧ Group.read 4 2 2 (freshGroup abcFile 8 2)
            = .ok ((2, [97, 98, 99, 10]), [(2, [97, 98, 99, 10])], g02) := by
  obtain ⟨⟨r, gr, g2, g02, h1, h2, h3⟩, _⟩ :=
    C8_rewind_restores_start abcFile sampleGroup 8 0 2 (fun _ _ => 0)
      (freshGroup abcFile 8 2).origin (freshGroup abcFile 8 2).others 4 2 2
      sampleGroup_reachable rfl (by decide) (by decide) (by decide) (by decide) (by decide)
  have hr : originResult (Group.read 4 2 2 (freshGroup abcFile 8 2))
      = some (2, [97, 98, 99, 10]) := rfl
  rw [h3] at hr
  simp only [originResult, Option.some.injEq] at hr
  subst hr
  exact ⟨gr, g2, g02, h1, h2, h3⟩

/-- C9: in every reachable state of a buffered multi-member group, `BFileRead`
issued on every member ends in `Abort(1)` exactly when the element size
exceeds the capacity.  It does so on every member whatever the fuel, the wire
and the requested count are: with no loop pass, without receiving or sending a
broadcast, without a file read, and without a result or a changed handle. -/
theorem C9_abort_iff_oversized (data : List Byte) (g : Group) (fuel s m : Nat)
    (hg : Reachable data g) :
    (Group.read fuel s m g = .error (.abort 1) ↔ g.origin.nbuf < s)
      ∧ (∀ r, Group.read fuel s m g = .error (.abort r) → r = 1)
      ∧ (g.origin.nbuf < s → ∀ bf ∈ g.origin :: g.others,
          ∀ (fuel2 m2 : Nat) (wire : List Msg),
            BFileRead fuel2 s m2 bf wire = .error (.abort 1)) := by
  obtain ⟨lp, hG⟩ := reachable_inv hg
  have hmem : g.origin.nbuf < s → ∀ bf ∈ g.origin :: g.others,
      ∀ (fuel2 m2 : Nat) (wire : List Msg),
        BFileRead fuel2 s m2 bf wire = .error (.abort 1) := by
    intro hlt bf hbf fuel2 m2 wire
    rcases List.mem_cons.1 hbf with rfl | hbf
    · exact (BFileRead_abort_iff _ _ _ _ _ _ hG.1.nr).2 ⟨hlt, rfl⟩
    · have hS := hG.2 bf hbf
      exact (BFileRead_abort_iff _ _ _ _ _ _ (by rw [hS.nr]; exact hG.1.nr)).2
        ⟨by rw [hS.nbuf]; exact hlt, rfl⟩
  refine ⟨⟨fun h => (Group.read_abort hG fuel s m 1 h).1, ?_⟩,
    fun r h => (Group.read_abort hG fuel s m r h).2, hmem⟩
  intro hlt
  have ho := hmem hlt g.origin (List.mem_cons_self _ _) fuel m []
  unfold Group.read collective
  simp only []
  rw [ho]

/-- C9 at a concrete input: the sample state has capacity 4; element size 5
aborts on every member, element size 4 does not abort. -/
theorem C9_abort_iff_oversized_witness :
    Group.read 3 5 1 sampleGroup = .error (.abort 1)
      ∧ Group.read 3 4 1 sampleGroup ≠ .error (.abort 1)
      ∧ ∀ bf ∈ sampleGroup.origin :: sampleGroup.others,
          BFileRead 0 5 7 bf [] = .error (.abort 1) := by
  have h := C9_abort_iff_oversized abcFile sampleGroup 3 5 1 sampleGroup_reachable
  have h4 := (C9_abort_iff_oversized abcFile sampleGroup 3 4 1 sampleGroup_reachable).1
  have hn : sampleGroup.origin.nbuf = 4 := rfl
  refine ⟨h.1.2 (by rw [hn]; decide), ?_, ?_⟩
  · intro hc
    have := h4.1 hc
    rw [hn] at this
    omega
  · intro bf hbf
    exact h.2.2 (by rw [hn]; decide) bf hbf 0 7 []

/-- C10: for a buffered open (capacity not 0) in a world of any size,
`BFileOpen` returns the null handle on every rank exactly when the origin
cannot open the file.  In a world of more than one process the origin
broadcasts its cursor, `-1` on failure and `0` otherwise; what a non-origin
rank returns does not depend on whether it could open the file itself, and a
handle it gets holds no stream. -/
theorem C10_open_fails_uniformly (fs : Option (List Byte)) (nb : Int) (RBUFL nproc : Nat)
    (heap : Nat → Nat → Byte) (hc : openCap nb RBUFL ≠ 0) :
    ∃ o ms, openAll fs nb RBUFL nproc heap = .ok (o, ms)
      ∧ ms.length = nproc - 1
      ∧ (o = none ↔ fs = none)
      ∧ (∀ m ∈ ms, (m = none ↔ fs = none))
      ∧ (1 < nproc → ∃ h0, BFileOpen fs nb RBUFL 0 nproc (heap 0) []
            = .ok (h0, [Msg.int (if fs = none then -1 else 0)]))
      ∧ (∀ (r : Nat) (fs2 : Option (List Byte)) (w : List Msg), r ≠ 0 →
            BFileOpen fs2 nb RBUFL r nproc (heap r) w = BFileOpen fs nb RBUFL r nproc (heap r) w)
      ∧ ∀ m ∈ ms, ∀ bf, m = some bf → bf.f = none := by
  have hblind : ∀ (r : Nat) (fs2 : Option (List Byte)) (w : List Msg), r ≠ 0 →
      BFileOpen fs2 nb RBUFL r nproc (heap r) w = BFileOpen fs nb RBUFL r nproc (heap r) w :=
    fun r fs2 w hr => BFileOpen_member_blind fs fs2 nb RBUFL nproc r (heap r) w hc hr
  by_cases hn : 1 < nproc
  · refine ⟨_, _, openAll_buffered fs nb RBUFL nproc heap hc hn, by simp, ?_, ?_,
      fun _ => ⟨_, BFileOpen_origin fs nb RBUFL nproc (heap 0) hc hn⟩, hblind, ?_⟩
    · cases fs <;> simp
    · intro m hm
      obtain ⟨r, _, rfl⟩ := List.mem_map.1 hm
      cases fs <;> simp
    · intro m hm bf hbf
      obtain ⟨r, hr, rfl⟩ := List.mem_map.1 hm
      have hr0 : r ≠ 0 := by
        have := (List.mem_range'_1.1 hr).1
        omega
      cases fs with
      | none => simp at hbf
      | some d =>
        simp only [Option.map_some', Option.some.injEq] at hbf
        rw [← hbf]
        simp [openHandle, hr0]
  · obtain ⟨o, ho, hiff⟩ := BFileOpen_single fs nb RBUFL nproc (heap 0) hc hn
    have hr : List.range' 1 (nproc - 1) = [] := by
      have : nproc - 1 = 0 := by omega
      rw [this]; rfl
    refine ⟨o, [], ?_, by simp; omega, hiff, by simp, fun h => absurd h hn, hblind, by simp⟩
    unfold openAll
    rw [ho]
    simp only []
    rw [hr]
    rfl

/-- C10 at a concrete input: four processes, capacity 8, and a file that
cannot be opened: the null handle on all four ranks. -/
theorem C10_open_fails_uniformly_witness :
    openAll none 8 0 4 (fun _ _ => 0) = .ok (none, [none, none, none])
      ∧ ∃ ms, openAll (some abcFile) 8 0 4 (fun _ _ => 0)
          = .ok (some (freshGroup abcFile 8 4).origin, ms)
        ∧ ms.length = 3 ∧ ∀ m ∈ ms, m ≠ none := by
  refine ⟨rfl, ?_⟩
  obtain ⟨o, ms, h1, h2, _, h4, _⟩ :=
    C10_open_fails_uniformly (some abcFile) 8 0 4 (fun _ _ => 0) (by decide)
  have ho : originResult (openAll (some abcFile) 8 0 4 (fun _ _ => 0))
      = some (some (freshGroup abcFile 8 4).origin) := rfl
  rw [h1] at ho
  simp only [originResult, Option.some.injEq] at ho
  subst ho
  exact ⟨ms, h1, h2, fun m hm hc => by simpa using (h4 m hm).1 hc⟩

/-- C11, where the code departs from the claim: `BFileOpen` with capacity 0
returns a handle whose `fn` was never assigned, and `BFileClose` on that
handle ends in `free` on the unassigned pointer instead of returning what
`fclose` returns (here 0).  On the same handle `BFileRead` (with an element
size above the capacity 0), `BFileGetLine` and `BFileRewind` are `fread`,
`fgets` and `rewind` on the local stream. -/
theorem C11_close_frees_unassigned_name :
    BFileOpen (some abcFile) 0 64 0 1 (fun _ => 0) [] = .ok (some unbufferedAbc, [])
      ∧ BFileClose 0 (some unbufferedAbc) = .error .badfree
      ∧ BFileRead 0 3 1 unbufferedAbc []
          = .ok (1, [97, 98, 99], { unbufferedAbc with f := some ⟨abcFile, 3⟩ }, [])
      ∧ BFileGetLine 0 9 unbufferedAbc []
          = .ok (some [97, 98, 99, 10], { unbufferedAbc with f := some ⟨abcFile, 4⟩ }, [])
      ∧ BFileRewind { unbufferedAbc with f := some ⟨abcFile, 4⟩ } = .ok unbufferedAbc :=
  ⟨rfl, rfl, rfl, rfl, rfl⟩

/-- C12: sequential ordering.  A group of `N` members each runs `MPISeqBeg()`,
appends its rank to a shared log and runs `MPISeqEnd()`; sent messages are in
flight until received, the barrier opens when all have entered.  In the state
after any interleaving of their steps: at most one member is between its
return from `MPISeqBeg` and its handoff; the log lists ranks `0, 1, ...` in
order; a member has returned from `MPISeqEnd` only if every member has
finished its guarded region and the log is `[0, ..., N-1]`; no error line was
printed; the state is not stuck while some member has not returned; and the
interleaving has at most `4 * N` steps.  So every interleaving extends to a
complete one, and every complete one leaves exactly `[0, ..., N-1]`. -/
theorem C12_sequential_ordering (N : Nat) (sched : List Nat) (w : World)
    (h : run N sched World.init = some w) :
    (∀ q q2, q < N → q2 < N → w.inside q → w.inside q2 → q = q2)
      ∧ (∃ k, k ≤ N ∧ w.log = List.range k)
      ∧ (∀ q, q < N → w.pcs q = .out →
          (∀ q2, q2 < N → w.pcs q2 = .barrier ∨ w.pcs q2 = .out) ∧ w.log = List.range N)
      ∧ ((∀ q, q < N → w.pcs q = .out) → w.log = List.range N)
      ∧ w.errs = 0
      ∧ ((∃ q, q < N ∧ w.pcs q ≠ .out) → ∃ r, r < N ∧ (stepRank N r w).isSome)
      ∧ sched.length + w.todo N ≤ 4 * N := by
  obtain ⟨⟨t, hI⟩, hlen⟩ := run_inv sched (init_inv N) h
  rw [todo_init] at hlen
  have hfull : t = N → w.log = List.range N := by
    intro ht
    have := hI.log
    rw [if_neg (by omega)] at this
    rw [this, ht, List.append_nil]
  refine ⟨?_, ?_, ?_, ?_, hI.errs, hI.progress, hlen⟩
  · intro q q2 hq hq2 h1 h2
    rw [hI.holder hq h1, hI.holder hq2 h2]
  · by_cases hc : w.pcs t = .fin ∧ t < N
    · refine ⟨t + 1, by omega, ?_⟩
      rw [hI.log, if_pos hc, List.range_succ]
    · refine ⟨t, hI.le, ?_⟩
      rw [hI.log, if_neg hc, List.append_nil]
  · intro q hq ho
    have ht := hI.out q hq ho
    refine ⟨fun q2 hq2 => hI.before q2 (by omega), hfull ht⟩
  · intro hall
    by_cases hN : N = 0
    · have ht : t = N := by have := hI.le; omega
      exact hfull ht
    · exact hfull (hI.out 0 (by omega) (hall 0 (by omega)))

/-- C12 at a concrete input: three processes, rank 0 in the barrier, rank 1
inside its section with the log `[0, 1]`, rank 2 waiting for its token. -/
theorem C12_sequential_ordering_witness :
    run 3 sampleSchedule World.init = some sampleWorld
      ∧ sampleWorld.log = [0, 1]
      ∧ (∀ q q2, q < 3 → q2 < 3 → sampleWorld.inside q → sampleWorld.inside q2 → q = q2)
      ∧ ((∃ q, q < 3 ∧ sampleWorld.pcs q ≠ .out) →
          ∃ r, r < 3 ∧ (stepRank 3 r sampleWorld).isSome) :=
  ⟨rfl, rfl, (C12_sequential_ordering 3 sampleSchedule sampleWorld rfl).1,
    (C12_sequential_ordering 3 sampleSchedule sampleWorld rfl).2.2.2.2.2.1⟩

/-- C13, as stated, fails: `MPISeqBeg` on rank 1 posts a receive with source 0
and tag 0, the sender's rank, not with tag 1, its own rank. -/
theorem C13_tag_is_not_own_rank :
    MPISeqBeg true 1 = some ⟨0, 0⟩ ∧ MPISeqBeg true 1 ≠ some ⟨0, 1⟩ := by
  decide

/-- C13 amended: in `MPISeqBeg` the member of rank `r + 1` posts a receive
whose source is rank `r` and whose tag is `r`, the sender's rank, and it
proceeds exactly when such a message addressed to it is in flight; rank 0
posts no receive and proceeds at once. -/
theorem C13_receive_from_predecessor (r N : Nat) (w : World) :
    MPISeqBeg true ((r : Int) + 1) = some ⟨r, r⟩
      ∧ MPISeqBeg true 0 = none
      ∧ (w.pcs (r + 1) = .beg →
          ((stepRank N (r + 1) w).isSome
            ↔ ∃ m ∈ w.net, m.src = (r : Int) ∧ m.tag = (r : Int) ∧ m.dest = (r : Int) + 1))
      ∧ (w.pcs 0 = .beg → (stepRank N 0 w).isSome) := by
  have hpos : (0 : Int) < (r : Int) + 1 := by omega
  have h1 : MPISeqBeg true ((r : Int) + 1) = some ⟨r, r⟩ := by
    simp [MPISeqBeg, hpos]
  refine ⟨h1, by decide, ?_, ?_⟩
  · intro hb
    have hcast : ((r + 1 : Nat) : Int) = (r : Int) + 1 := by omega
    unfold stepRank
    rw [hb]
    simp only [hcast, h1]
    rw [← takeMsg_isSome ⟨r, r⟩ ((r : Int) + 1) w.net]
    cases takeMsg ⟨r, r⟩ ((r : Int) + 1) w.net <;> simp
  · intro hb
    unfold stepRank
    rw [hb]
    simp [MPISeqBeg]

/-- C17: for every group size `N > 1` and rank `r < N - 1`, the message
`MPISeqEnd` sends on rank `r` (destination `r + 1`, tag `r`, payload `r`) is
the one the receive of `MPISeqBeg` on rank `r + 1` (source `r`, tag `r`) takes,
and its payload passes the check, so no error line is printed.  Rank 0 posts
no receive and rank `N - 1` sends nothing: there are `N - 1` sends and `N - 1`
receives, the receive of rank `r + 1` matching the send of rank `r`. -/
theorem C17_handoff_consistent (N r : Nat) (hN : 1 < N) (hr : r < N - 1) :
    MPISeqEnd true r N = some ⟨r, (r : Int) + 1, r, r⟩
      ∧ MPISeqBeg true ((r : Int) + 1) = some ⟨r, r⟩
      ∧ takeMsg ⟨r, r⟩ ((r : Int) + 1) [⟨r, (r : Int) + 1, r, r⟩]
          = some (⟨r, (r : Int) + 1, r, r⟩, [])
      ∧ MPISeqBegError ((r : Int) + 1) r = false
      ∧ MPISeqBeg true 0 = none
      ∧ MPISeqEnd true ((N : Int) - 1) N = none
      ∧ (seqSends N).length = N - 1
      ∧ (seqRecvs N).length = N - 1
      ∧ (seqRecvs N).map (fun x => ((x.2.source, (x.1 : Int)), x.2.tag))
          = (seqSends N).map (fun m => ((m.src, m.dest), m.tag)) := by
  have hlt : (r : Int) < (N : Int) - 1 := by omega
  have hpos : (0 : Int) < (r : Int) + 1 := by omega
  refine ⟨by simp [MPISeqEnd, hlt], by simp [MPISeqBeg, hpos], by simp [takeMsg],
    by simp [MPISeqBegError], by decide, by simp [MPISeqEnd], ?_, ?_, ?_⟩
  · rw [seqSends_eq, List.length_map, List.length_range]
  · rw [seqRecvs_eq, List.length_map, List.length_range]
  · rw [seqSends_eq, seqRecvs_eq, List.map_map, List.map_map]
    apply List.map_congr_left
    intro x _
    simp only [Function.comp, Nat.cast_add, Nat.cast_one]

/-- C17 at a concrete input: four processes, the handoff from rank 2 to rank 3. -/
theorem C17_handoff_consistent_witness :
    MPISeqEnd true 2 4 = some ⟨2, 3, 2, 2⟩
      ∧ MPISeqBeg true 3 = some ⟨2, 2⟩
      ∧ MPISeqBegError 3 2 = false
      ∧ (seqSends 4).length = 3 ∧ (seqRecvs 4).length = 3 := by
  obtain ⟨h1, h2, _, h4, _, _, h7, h8, _⟩ := C17_handoff_consistent 4 2 (by decide) (by decide)
  exact ⟨h1, h2, h4, h7, h8⟩

/-- C14: `BFileRead` on a buffered multi-member group terminates from every
reachable state, for every element size `1 ≤ s ≤ nbuf` and every count `m`:
`m + 2` loop passes are enough on every member.  The loop is `loopPass`
repeated; it starts in a state that satisfies the loop invariant, and from
every such state a pass does not fail and, if it ends with a refill, the
leftover was shorter than `s`, the origin asked for `nbuf - leftover > 0`
bytes, the invariant holds again and either the end flag is set or a whole
element is available.  A pass entered with the end flag set returns, and a
pass entered with a whole element available returns or strictly lowers the
number of elements still asked for. -/
theorem C14_read_terminates (data : List Byte) (g : Group) (s m : Nat)
    (hg : Reachable data g) (hs : 1 ≤ s) (hcap : s ≤ g.origin.nbuf) :
    (∀ fuel, m + 2 ≤ fuel →
        ∃ r g2, Group.read fuel s m g = .ok (r, List.replicate g.others.length r, g2))
      ∧ (∀ fuel wire, BFileRead fuel s m g.origin wire
          = BFileReadLoop fuel s (loopStart s m g.origin) g.origin wire)
      ∧ (∀ fuel L bf wire, BFileReadLoop (fuel + 1) s L bf wire
          = (match loopPass s L bf wire with
             | .error e => .error e
             | .ok (.inl r) => .ok r
             | .ok (.inr (L2, bf2, w2)) => BFileReadLoop fuel s L2 bf2 w2))
      ∧ LoopInv data s (loopStart s m g.origin) g.origin
      ∧ ∀ L bf wire, LoopInv data s L bf →
          (∃ out, loopPass s L bf wire = .ok out)
            ∧ (∀ L2 bf2 w2, loopPass s L bf wire = .ok (.inr (L2, bf2, w2)) →
                (copyAvail s L bf).1.nb < s
                  ∧ 0 < bf.nbuf - (copyAvail s L bf).1.nb
                  ∧ LoopInv data s L2 bf2
                  ∧ (bf2.eof = true ∨ 1 ≤ L2.n)
                  ∧ L2.nmemb = L.nmemb - L.n ∧ 0 < L2.nmemb)
            ∧ (bf.eof = true → ∃ r, loopPass s L bf wire = .ok (.inl r))
            ∧ (1 ≤ L.n → (∃ r, loopPass s L bf wire = .ok (.inl r))
                ∨ ∃ L2 bf2 w2, loopPass s L bf wire = .ok (.inr (L2, bf2, w2))
                    ∧ L2.nmemb < L.nmemb) := by
  obtain ⟨lp, hG⟩ := reachable_inv hg
  refine ⟨?_, ?_, fun fuel L bf wire => BFileReadLoop_pass fuel s L bf wire,
    ⟨lp, hG.1, rfl, rfl, hcap⟩, fun L bf wire hI => loopPass_origin hs hI wire⟩
  · intro fuel hf
    obtain ⟨g2, h, _⟩ := Group.read_spec hG fuel s m hs hcap hf
    exact ⟨_, g2, h⟩
  · intro fuel wire
    exact BFileRead_loopStart fuel s m g.origin wire hG.1.nr hs hcap

/-- C14 at a concrete input: the sample state, two elements of three bytes:
four passes are enough. -/
theorem C14_read_terminates_witness :
    (∃ r g2, Group.read 4 3 2 sampleGroup = .ok (r, List.replicate 2 r, g2))
      ∧ LoopInv abcFile 3 (loopStart 3 2 sampleGroup.origin) sampleGroup.origin := by
  obtain ⟨h1, _, _, h4, _⟩ :=
    C14_read_terminates abcFile sampleGroup 3 2 sampleGroup_reachable (by decide) (by decide)
  exact ⟨h1 4 (by decide), h4⟩

/-- C13 amended, at a concrete input: in the sample state rank 2 is about to
call `MPISeqBeg` and no message from rank 1 is in flight, so it cannot move. -/
theorem C13_receive_from_predecessor_witness :
    sampleWorld.pcs 2 = .beg ∧ ¬ (stepRank 3 2 sampleWorld).isSome := by
  have h := (C13_receive_from_predecessor 1 3 sampleWorld).2.2.1 rfl
  refine ⟨rfl, ?_⟩
  intro hs
  obtain ⟨m, hm, _⟩ := h.1 hs
  have hnet : sampleWorld.net = [] := rfl
  rw [hnet] at hm
  simp at hm

/-- C15: in every reachable state of a buffered multi-member group, a
`BFileGetLine` (`2 ≤ maxLength ≤ nbuf + 1`) that returns a line leaves the
origin's handle as `resetDrained pre`, where `pre` is the handle with the
cursor just past the line.  Cursor and fill count are reset to zero exactly
when `pre.p = nbuf`; since `pre.p ≤ pre.n ≤ nbuf`, then `pre.n = nbuf` too, and
in either case the unread bytes after the call are those of `pre`: the bytes
that were unread before, less the line.  The next `BFileRead` and the next
`BFileGetLine` continue with these bytes. -/
theorem C15_reset_discards_nothing (data : List Byte) (g : Group) (fuel : Nat) (size1 : Int)
    (hg : Reachable data g) (h2 : 2 ≤ size1) (hcap : size1 ≤ g.origin.nbuf + 1)
    (hf : 3 ≤ fuel) :
    ∃ res g2, Group.getLine fuel size1 g = .ok (res, List.replicate g.others.length res, g2)
      ∧ (∀ line, res = some line →
          ∃ pre, g2.origin = resetDrained pre
            ∧ (pre.p ≤ pre.n ∧ pre.n ≤ pre.nbuf)
            ∧ (pre.p = pre.nbuf → pre.n = pre.nbuf ∧ g2.origin.p = 0 ∧ g2.origin.n = 0)
            ∧ (pre.p ≠ pre.nbuf → g2.origin = pre)
            ∧ pre.unread = g.origin.unread.drop line.length
            ∧ g2.origin.unread = pre.unread)
      ∧ (∀ (s m fuel2 : Nat), 1 ≤ s → s ≤ g.origin.nbuf → m + 2 ≤ fuel2 →
          ∃ g3, Group.read fuel2 s m g2
            = .ok ((g2.origin.count s m,
                    (g.origin.unread.drop (res.getD []).length).take (g2.origin.count s m * s)),
                   List.replicate g.others.length
                     (g2.origin.count s m,
                      (g.origin.unread.drop (res.getD []).length).take
                        (g2.origin.count s m * s)), g3))
      ∧ ∀ (size2 : Int) (fuel2 : Nat), 2 ≤ size2 → size2 ≤ g.origin.nbuf + 1 → 3 ≤ fuel2 →
          ∃ r g3, Group.getLine fuel2 size2 g2 = .ok (r, List.replicate g.others.length r, g3)
            ∧ r.getD [] = lineOf (size2 - 1).toNat (g.origin.unread.drop (res.getD []).length) := by
  obtain ⟨lp, hG⟩ := reachable_inv hg
  obtain ⟨g2, hrun, hG2, hnb2, hl2, _⟩ := Group.getLine_spec hG fuel size1 h2 hcap hf
  obtain ⟨tr0, horig⟩ := collective_origin _ _ _ _ _ hrun
  obtain ⟨o2, tr, h1, _, _, _, _, hpre, _⟩ := BFileGetLine_spec hG.1 fuel size1 h2 hcap hf []
  rw [horig] at h1
  simp only [Except.ok.injEq, Prod.mk.injEq, true_and] at h1
  have ho2 : g2.origin = o2 := h1.1
  have hu := hG.1.unread_eq
  have hlen : ((if lineAt data lp size1 = [] then none else some (lineAt data lp size1) :
      Option (List Byte)).getD []).length = (lineAt data lp size1).length := by
    by_cases hn : lineAt data lp size1 = []
    · simp [hn]
    · simp [hn]
  have hdd : (data.drop lp).drop (lineAt data lp size1).length
      = data.drop (lp + (lineAt data lp size1).length) := by
    rw [List.drop_drop, Nat.add_comm]
  refine ⟨_, g2, hrun, ?_, ?_, ?_⟩
  · intro line hline
    have hne : lineAt data lp size1 ≠ [] := by
      intro hn
      rw [if_pos hn] at hline
      cases hline
    rw [if_neg hne] at hline
    simp only [Option.some.injEq] at hline
    obtain ⟨pre, hRp, hreset⟩ := hpre hne
    obtain ⟨c1, c2⟩ := resetDrained_cases pre
    refine ⟨pre, by rw [ho2, hreset], ⟨hRp.pn, hRp.nn⟩, ?_, ?_, ?_, ?_⟩
    · intro hp
      have := hRp.pn
      have := hRp.nn
      rw [ho2, hreset]
      exact ⟨by omega, c1 hp⟩
    · intro hp
      rw [ho2, hreset, c2 hp]
    · rw [hRp.unread_eq, hu, ← hline, hdd]
    · rw [hG2.1.unread_eq, hRp.unread_eq]
  · intro s m fuel2 hs hsc hf2
    obtain ⟨g3, h3, _⟩ := Group.read_spec hG2 fuel2 s m hs (by rw [hnb2]; exact hsc) hf2
    refine ⟨g3, ?_⟩
    rw [h3, hl2, hG2.1.count_eq, hlen, hu, hdd]
    rfl
  · intro size2 fuel2 hs2 hc2 hf2
    obtain ⟨g3, h3, _⟩ :=
      Group.getLine_spec hG2 fuel2 size2 hs2 (by rw [hnb2]; exact hc2) hf2
    rw [hl2] at h3
    refine ⟨_, g3, h3, ?_⟩
    rw [hlen, hu, hdd]
    by_cases hn : lineAt data (lp + (lineAt data lp size1).length) size2 = []
    · rw [if_pos hn]
      simp only [Option.getD_none]
      exact hn.symm
    · rw [if_neg hn]
      rfl

/-- C15 at a concrete input: capacity 4 and the line `"abc\n"` of four bytes:
the cursor reaches the capacity, cursor and fill count are reset, and the next
line is `"def\n"`. -/
theorem C15_reset_discards_nothing_witness :
    ∃ g2, Group.getLine 3 5 (freshGroup abcFile 4 2)
        = .ok (some [97, 98, 99, 10], [some [97, 98, 99, 10]], g2)
      ∧ g2.origin.p = 0 ∧ g2.origin.n = 0
      ∧ ∃ g3, Group.getLine 3 5 g2 = .ok (some [100, 101, 102, 10], [some [100, 101, 102, 10]], g3) := by
  have hr := freshGroup_reachable abcFile 4 2 (by decide) (by decide)
  obtain ⟨res, g2, h1, _, _, h4⟩ :=
    C15_reset_discards_nothing abcFile (freshGroup abcFile 4 2) 3 5 hr (by decide) (by decide)
      (by decide)
  have hres : originResult (Group.getLine 3 5 (freshGroup abcFile 4 2))
      = some (some [97, 98, 99, 10]) := rfl
  rw [h1] at hres
  simp only [originResult, Option.some.injEq] at hres
  subst hres
  have hg2 : groupAfter (Group.getLine 3 5 (freshGroup abcFile 4 2)) (freshGroup abcFile 4 2)
      = g2 := by rw [h1]; rfl
  obtain ⟨r, g3, h5, h6⟩ := h4 5 3 (by decide) (by decide) (by decide)
  have hr2 : r = some [100, 101, 102, 10] := by
    have hres2 : originResult (Group.getLine 3 5 g2) = some (some [100, 101, 102, 10]) := by
      rw [← hg2]; rfl
    rw [h5] at hres2
    simpa [originResult] using hres2
  subst hr2
  refine ⟨g2, h1, ?_, ?_, g3, h5⟩
  · rw [← hg2]; rfl
  · rw [← hg2]; rfl

/-- C16, as stated, fails: after a successful buffered open of a group of two
with capacity 4 the origin holds a buffer of 4 bytes, as rank 1 does. -/
theorem C16_origin_holds_buffer :
    openAll (some abcFile) 4 0 2 (fun _ _ => 0)
        = .ok (some (freshGroup abcFile 4 2).origin, (freshGroup abcFile 4 2).others.map some)
      ∧ (freshGroup abcFile 4 2).origin.mr = 0
      ∧ (freshGroup abcFile 4 2).origin.buf = [0, 0, 0, 0]
      ∧ (freshGroup abcFile 4 2).origin.buf ≠ [] := by
  refine ⟨rfl, rfl, rfl, ?_⟩
  decide

/-- C16 amended: after a successful buffered `BFileOpen` (capacity above 0) in a
group of more than one process, every member, the origin included, holds a
buffer of `nbuf` bytes. -/
theorem C16_every_member_holds_buffer (data : List Byte) (nb : Int) (RBUFL nproc : Nat)
    (heap : Nat → Nat → Byte) (o : BFILE) (ms : List BFILE)
    (hopen : openAll (some data) nb RBUFL nproc heap = .ok (some o, ms.map some))
    (hnr : 1 < o.nr) :
    o.nbuf = openCap nb RBUFL ∧ 0 < o.nbuf ∧ o.mr = 0 ∧ o.buf.length = o.nbuf
      ∧ ms.length = nproc - 1
      ∧ ∀ m ∈ ms, m.mr ≠ 0 ∧ m.nbuf = o.nbuf ∧ m.buf.length = o.nbuf := by
  obtain ⟨⟨hc, hn⟩, ho, hms⟩ := openAll_inv hopen hnr
  have hG := opened_inv hopen hnr
  refine ⟨by rw [ho]; rfl, by rw [ho]; exact Nat.pos_of_ne_zero hc, hG.1.mr, hG.1.len, ?_, ?_⟩
  · rw [hms]; simp
  · intro m hm
    have hS := hG.2 m hm
    exact ⟨hS.mr, hS.nbuf, by rw [hS.len, hS.nbuf]⟩

/-- C16 amended, at a concrete input: three processes with capacity 8. -/
theorem C16_every_member_holds_buffer_witness :
    (freshGroup abcFile 8 3).origin.buf.length = 8
      ∧ (freshGroup abcFile 8 3).others.length = 2
      ∧ ∀ m ∈ (freshGroup abcFile 8 3).others, m.buf.length = 8 := by
  obtain ⟨h1, _, _, h4, h5, h6⟩ :=
    C16_every_member_holds_buffer abcFile 8 0 3 (fun _ _ => 0) (freshGroup abcFile 8 3).origin
      (freshGroup abcFile 8 3).others rfl (by decide)
  exact ⟨h4, h5, fun m hm => (h6 m hm).2.2⟩

/-- C18: in every reachable state of a buffered multi-member group, whatever
the file holds, `BFileGetLine(s, maxLength)` ends in `Abort(1)` on every member
when `maxLength - 1` exceeds the capacity, because its first act is
`BFileRead` with element size `maxLength - 1`; for `2 ≤ maxLength ≤ nbuf + 1`
it never ends in `Abort`, and returns once the fuel is at least 3. -/
theorem C18_getLine_abort (data : List Byte) (g : Group) (fuel : Nat) (size1 : Int)
    (hg : Reachable data g) :
    (g.origin.nbuf < size1 - 1 →
        Group.getLine fuel size1 g = .error (.abort 1)
          ∧ BFileRead fuel (toSizeT (size1 - 1)) 1 g.origin [] = .error (.abort 1)
          ∧ ∀ bf ∈ g.origin :: g.others, ∀ (fuel2 : Nat) (wire : List Msg),
              BFileGetLine fuel2 size1 bf wire = .error (.abort 1))
      ∧ (2 ≤ size1 → size1 ≤ g.origin.nbuf + 1 →
          (∀ r, Group.getLine fuel size1 g ≠ .error (.abort r))
            ∧ (3 ≤ fuel → ∃ res g2,
                Group.getLine fuel size1 g
                  = .ok (res, List.replicate g.others.length res, g2))) := by
  obtain ⟨lp, hG⟩ := reachable_inv hg
  have hnrs : ∀ bf ∈ g.origin :: g.others, 1 < bf.nr ∧ bf.nbuf = g.origin.nbuf := by
    intro bf hbf
    rcases List.mem_cons.1 hbf with rfl | hbf
    · exact ⟨hG.1.nr, rfl⟩
    · have hS := hG.2 bf hbf
      exact ⟨by rw [hS.nr]; exact hG.1.nr, hS.nbuf⟩
  constructor
  · intro hbig
    have hsz : g.origin.nbuf < toSizeT (size1 - 1) := by
      unfold toSizeT
      rw [if_pos (by omega)]
      omega
    have hmem : ∀ bf ∈ g.origin :: g.others, ∀ (fuel2 : Nat) (wire : List Msg),
        BFileGetLine fuel2 size1 bf wire = .error (.abort 1) := by
      intro bf hbf fuel2 wire
      obtain ⟨h1, h2⟩ := hnrs bf hbf
      exact (BFileGetLine_abort_iff bf fuel2 size1 1 wire h1).2 ⟨by rw [h2]; exact hsz, rfl⟩
    refine ⟨?_, (BFileRead_abort_iff _ _ _ _ _ _ hG.1.nr).2 ⟨hsz, rfl⟩, hmem⟩
    unfold Group.getLine collective
    rw [hmem g.origin (List.mem_cons_self _ _) fuel []]
  · intro h2 hcap
    constructor
    · intro r habort
      rcases collective_error _ _ _ habort with h | ⟨bf, hbf, w, hc⟩
      · cases h
      · obtain ⟨h1, h2n⟩ := hnrs bf hbf
        have := ((BFileGetLine_abort_iff bf fuel size1 r w h1).1 hc).1
        rw [(toSizeT_pred size1 h2).1, h2n] at this
        omega
    · intro hf
      obtain ⟨g2, h, _⟩ := Group.getLine_spec hG fuel size1 h2 hcap hf
      exact ⟨_, g2, h⟩

/-- C18 at a concrete input: the sample state has capacity 4 and one-byte
lines would do; `maxLength` 6 aborts, `maxLength` 5 does not. -/
theorem C18_getLine_abort_witness :
    Group.getLine 3 6 sampleGroup = .error (.abort 1)
      ∧ (∀ r, Group.getLine 3 5 sampleGroup ≠ .error (.abort r)) := by
  have h6 := (C18_getLine_abort abcFile sampleGroup 3 6 sampleGroup_reachable).1
  have h5 := (C18_getLine_abort abcFile sampleGroup 3 5 sampleGroup_reachable).2
  have hn : sampleGroup.origin.nbuf = 4 := rfl
  exact ⟨(h6 (by rw [hn]; decide)).1, (h5 (by decide) (by rw [hn]; decide)).1⟩

/-- C19: with `nproc > 1`, a counter `w` in `[0, nproc)` and a rank in
`[0, nproc)`, `SkipMPI` returns 0 exactly on the rank equal to `w` and 1 on
every other rank; it sets the counter to `(w + 1) mod nproc`, a value that does
not depend on the rank and lies in `[0, nproc)`; and the `nproc` consecutive
calls that start at `w` answer 0 to each rank exactly once.  With `nproc ≤ 1`
it returns 0 and leaves the counter as it was, for every counter and rank. -/
theorem C19_round_robin (w myrank nproc : Int) :
    (1 < nproc → 0 ≤ w → w < nproc → 0 ≤ myrank → myrank < nproc →
      ((SkipMPI w myrank nproc).1 = 0 ↔ myrank = w)
        ∧ (myrank ≠ w → (SkipMPI w myrank nproc).1 = 1)
        ∧ (SkipMPI w myrank nproc).2 = (w + 1) % nproc
        ∧ 0 ≤ (SkipMPI w myrank nproc).2 ∧ (SkipMPI w myrank nproc).2 < nproc
        ∧ (skipRun nproc.toNat w myrank nproc).length = nproc.toNat
        ∧ (skipRun nproc.toNat w myrank nproc).count 0 = 1)
      ∧ (nproc ≤ 1 → SkipMPI w myrank nproc = (0, w)) := by
  refine ⟨?_, ?_⟩
  · intro hn hw0 hw hr0 hr
    have h1 : (SkipMPI w myrank nproc).1 = if w ≠ myrank then 1 else 0 := by
      simp [SkipMPI, hn]
    have h2 : (SkipMPI w myrank nproc).2 = if w + 1 ≥ nproc then 0 else w + 1 := by
      simp [SkipMPI, hn]
    have hmod : (if w + 1 ≥ nproc then 0 else w + 1) = (w + 1) % nproc := by
      by_cases hc : w + 1 ≥ nproc
      · have he : w + 1 = nproc := by omega
        rw [if_pos hc, he, Int.emod_self]
      · rw [if_neg hc, Int.emod_eq_of_lt (by omega) (by omega)]
    have hrange : 0 ≤ (if w + 1 ≥ nproc then 0 else w + 1)
        ∧ (if w + 1 ≥ nproc then 0 else w + 1) < nproc := by
      by_cases hc : w + 1 ≥ nproc
      · rw [if_pos hc]
        omega
      · rw [if_neg hc]
        omega
    refine ⟨?_, ?_, ?_, ?_, ?_, skipRun_length myrank nproc _ _,
      skipRun_cycle nproc w myrank hn hw0 hw hr0 hr⟩
    · rw [h1]
      by_cases hc : w = myrank
      · simp [hc]
      · have hc2 : ¬ myrank = w := fun h => hc h.symm
        simp [hc, hc2]
    · intro hne
      have hc : w ≠ myrank := fun h => hne h.symm
      rw [h1, if_pos hc]
    · rw [h2, hmod]
    · rw [h2]
      exact hrange.1
    · rw [h2]
      exact hrange.2
  · intro hn
    have hc : ¬ nproc > 1 := by omega
    simp [SkipMPI, hc]

/-- C19 at concrete inputs: three ranks and the counter at 1, seen from rank 2
(not selected, counter moves to 2, selected once in three calls) and from
rank 1 (selected); and a single process, where nothing changes. -/
theorem C19_round_robin_witness :
    ((SkipMPI 1 2 3).1 = 1 ∧ (SkipMPI 1 2 3).2 = 2 ∧ skipRun 3 1 2 3 = [1, 0, 1])
      ∧ (SkipMPI 1 1 3).1 = 0
      ∧ SkipMPI 5 0 1 = (0, 5) := by
  have h := (C19_round_robin 1 2 3).1 (by decide) (by decide) (by decide) (by decide) (by decide)
  have h0 := (C19_round_robin 5 0 1).2 (by decide)
  exact ⟨⟨h.2.1 (by decide), by rw [h.2.2.1]; decide, by decide⟩, by decide, h0⟩

end Fac
